import Mathlib

/-!
Verification of the TryMazes maze-generation library.

The Rust sources are shallowly embedded: machine integers (`usize`) become
`Nat`, `Vec`/`HashSet`/`HashMap` become `List`/`Finset`/association lists,
fallible operations return `Option`/`Except`, and the per-call random number
generator becomes an explicit oracle argument (a list or function supplying
the random choices), so that every run of an algorithm corresponds to one
oracle value.
-/

set_option maxHeartbeats 1000000

/-! ## Rectangular topology: `src/maze/rect.rs` -/

/-- Embeds `RectDirection` (src/maze/rect.rs). -/
inductive RectDirection where
  | north
  | south
  | east
  | west
deriving DecidableEq, Repr

/-- Embeds `RectDirection::all_dirs`; the source order is North, East, West, South. -/
def RectDirection.all_dirs : List RectDirection :=
  [.north, .east, .west, .south]

/-- Embeds `RectDirection::reverse`. -/
def RectDirection.reverse : RectDirection → RectDirection
  | .north => .south
  | .south => .north
  | .east => .west
  | .west => .east

/-- Rank used only to justify termination of the two source functions that
recurse once from an indirect direction (South/West) into the reverse
direction (North/East). -/
def RectDirection.rank : RectDirection → Nat
  | .north => 0
  | .east => 0
  | .south => 1
  | .west => 1

/-- Embeds `RectPosition` (src/maze/rect.rs): a row/column pair of `usize`. -/
structure RectPosition where
  row : Nat
  col : Nat
deriving DecidableEq, Repr

/-- Embeds `RectPosition::neighbor`: North fails on row 0 and West on column 0;
South and East always produce a (possibly out-of-grid) position. -/
def RectPosition.neighbor (p : RectPosition) : RectDirection → Option RectPosition
  | .north => if 0 < p.row then some ⟨p.row - 1, p.col⟩ else none
  | .south => some ⟨p.row + 1, p.col⟩
  | .east => some ⟨p.row, p.col + 1⟩
  | .west => if 0 < p.col then some ⟨p.row, p.col - 1⟩ else none

/-- Embeds `RectPosition::flat_ind`. -/
def RectPosition.flat_ind (p : RectPosition) (row_width : Nat) : Nat :=
  p.row * row_width + p.col

/-- Embeds `RectMask` (src/maze/rect.rs): a width/height pair and a row-major
boolean activity flag per cell. -/
structure RectMask where
  width : Nat
  height : Nat
  flags : List Bool
deriving DecidableEq, Repr

namespace RectMask

/-- Embeds `RectMask::pos_to_ind`. -/
def pos_to_ind (m : RectMask) (p : RectPosition) : Option Nat :=
  if p.row < m.height ∧ p.col < m.width then some (p.flat_ind m.width) else none

/-- Embeds `RectMask::ind_to_pos`. -/
def ind_to_pos (m : RectMask) (ind : Nat) : Option RectPosition :=
  if ind < m.flags.length then some ⟨ind / m.width, ind % m.width⟩ else none

/-- Embeds `RectMask::is_cell`. -/
def is_cell (m : RectMask) (p : RectPosition) : Bool :=
  match m.pos_to_ind p with
  | some ind => m.flags.getD ind false
  | none => false

/-- Embeds `RectMask::cells_n`: the number of `true` flags. -/
def cells_n (m : RectMask) : Nat :=
  m.flags.countP (fun flag => flag)

/-- Embeds `RectMask::cell_pos_iter`: the indices carrying a `true` flag, in
index order, converted to positions. -/
def cell_pos_iter (m : RectMask) : List RectPosition :=
  ((List.range m.flags.length).filter (fun ind => m.flags.getD ind false)).filterMap
    m.ind_to_pos

end RectMask

/-- Embeds `RectCell` (src/maze/rect.rs): the two canonical connectivity bits
stored by each cell. -/
structure RectCell where
  is_connected_to_north : Bool
  is_connected_to_east : Bool
deriving DecidableEq, Repr

instance : Inhabited RectCell := ⟨⟨false, false⟩⟩

/-- Embeds `RectGrid` (src/maze/rect.rs). -/
structure RectGrid where
  width : Nat
  height : Nat
  cells : List RectCell
  mask : Option RectMask
deriving DecidableEq, Repr

namespace RectGrid

/-- Embeds `RectGrid::new`. -/
def new (width height : Nat) : RectGrid :=
  ⟨width, height, List.replicate (width * height) default, none⟩

/-- Embeds `RectGrid::with_mask`. -/
def with_mask (m : RectMask) : RectGrid :=
  ⟨m.width, m.height, List.replicate (m.width * m.height) default, some m⟩

/-- Embeds `RectGrid::pos_to_ind`. -/
def pos_to_ind (g : RectGrid) (p : RectPosition) : Option Nat :=
  if p.row < g.height ∧ p.col < g.width then some (p.flat_ind g.width) else none

/-- Embeds `RectGrid::is_cell`. -/
def is_cell (g : RectGrid) (p : RectPosition) : Bool :=
  match g.mask with
  | some m => m.is_cell p
  | none => (g.pos_to_ind p).isSome

/-- Mask admissibility test used by `RectGrid::cell` / `RectGrid::cell_mut`
(`self.mask.as_ref().is_none_or(|mask| mask.is_cell(pos))`). -/
def mask_admits (g : RectGrid) (p : RectPosition) : Bool :=
  match g.mask with
  | some m => m.is_cell p
  | none => true

/-- Embeds `RectGrid::cell`. -/
def cell (g : RectGrid) (p : RectPosition) : Option RectCell :=
  if g.mask_admits p then (g.pos_to_ind p).bind (fun ind => g.cells.get? ind) else none

/-- Writes a cell at the index of `p`; this is the state change performed
through `RectGrid::cell_mut`. When `p` has no index the write is a no-op
(the source only writes after `cell_mut` succeeded). -/
def set_cell_at (g : RectGrid) (p : RectPosition) (c : RectCell) : RectGrid :=
  { g with cells := g.cells.set ((g.pos_to_ind p).getD g.cells.length) c }

/-- Embeds `RectGrid::neighbor_pos`. -/
def neighbor_pos (g : RectGrid) (p : RectPosition) (d : RectDirection) :
    Option RectPosition :=
  if (g.cell p).isSome then Option.filter (fun q => g.is_cell q) (p.neighbor d) else none

/-- Embeds `RectGrid::is_connect_along`: North/East read the cell's own
canonical bit; South/West recurse into the neighbor with the reversed
direction. -/
def is_connect_along (g : RectGrid) (p : RectPosition) (d : RectDirection) : Bool :=
  match g.cell p with
  | none => false
  | some c =>
    match g.neighbor_pos p d with
    | none => false
    | some nb =>
      match d with
      | .north => c.is_connected_to_north
      | .east => c.is_connected_to_east
      | .south => g.is_connect_along nb RectDirection.south.reverse
      | .west => g.is_connect_along nb RectDirection.west.reverse
termination_by d.rank
decreasing_by
  · simp [RectDirection.reverse, RectDirection.rank]
  · simp [RectDirection.reverse, RectDirection.rank]

/-- Embeds `RectGrid::connect_along`: returns whether a connection bit was
written, together with the updated grid. -/
def connect_along (g : RectGrid) (p : RectPosition) (d : RectDirection) :
    Bool × RectGrid :=
  match g.neighbor_pos p d with
  | none => (false, g)
  | some nb =>
    match g.cell p with
    | none => (false, g)
    | some c =>
      match d with
      | .north => (true, g.set_cell_at p { c with is_connected_to_north := true })
      | .east => (true, g.set_cell_at p { c with is_connected_to_east := true })
      | .south => g.connect_along nb RectDirection.south.reverse
      | .west => g.connect_along nb RectDirection.west.reverse
termination_by d.rank
decreasing_by
  · simp [RectDirection.reverse, RectDirection.rank]
  · simp [RectDirection.reverse, RectDirection.rank]

/-- Embeds `RectGrid::connect_to` (the `Grid2d` implementation): succeeds
exactly when both positions are active cells and `to` is a topology neighbor
of `from`; short-circuit evaluation leaves the grid untouched otherwise. -/
def connect_to (g : RectGrid) (from_p to_p : RectPosition) : Bool × RectGrid :=
  if g.is_cell from_p ∧ g.is_cell to_p then
    match RectDirection.all_dirs.find? (fun d => from_p.neighbor d = some to_p) with
    | some d => g.connect_along from_p d
    | none => (false, g)
  else (false, g)

/-- Embeds `RectGrid::cells_n`. -/
def cells_n (g : RectGrid) : Nat :=
  match g.mask with
  | some m => m.cells_n
  | none => g.cells.length

/-- Embeds `RectGrid::is_at_border`. -/
def is_at_border (g : RectGrid) (p : RectPosition) (d : RectDirection) : Bool :=
  (g.cell p).isSome ∧ (g.neighbor_pos p d).isNone

/-- Well-formedness established by the two constructors (`new`, `with_mask`)
and preserved by every mutation: the cell store has exactly `width * height`
entries, and an attached mask has the same dimensions and a full flag row per
grid row. -/
def WF (g : RectGrid) : Prop :=
  g.cells.length = g.width * g.height ∧
    ∀ m ∈ g.mask, m.width = g.width ∧ m.height = g.height ∧
      m.flags.length = m.width * m.height

end RectGrid

/-! ### Basic facts about rectangular positions and grids -/

namespace RectPosition

theorem neighbor_reverse {p q : RectPosition} {d : RectDirection}
    (h : p.neighbor d = some q) : q.neighbor d.reverse = some p := by
  cases p with
  | mk pr pc =>
    cases q with
    | mk qr qc =>
      cases d <;> simp only [neighbor, RectDirection.reverse] at h ⊢
      case north =>
        split at h
        · next hr =>
          replace h := Option.some.inj h
          rw [RectPosition.mk.injEq] at h
          simp only [Option.some.injEq, RectPosition.mk.injEq]
          omega
        · simp at h
      case south =>
        replace h := Option.some.inj h
        rw [RectPosition.mk.injEq] at h
        rw [if_pos (by omega : 0 < qr)]
        simp only [Option.some.injEq, RectPosition.mk.injEq]
        omega
      case east =>
        replace h := Option.some.inj h
        rw [RectPosition.mk.injEq] at h
        rw [if_pos (by omega : 0 < qc)]
        simp only [Option.some.injEq, RectPosition.mk.injEq]
        omega
      case west =>
        split at h
        · next hc =>
          replace h := Option.some.inj h
          rw [RectPosition.mk.injEq] at h
          simp only [Option.some.injEq, RectPosition.mk.injEq]
          omega
        · simp at h

theorem neighbor_ne {p q : RectPosition} {d : RectDirection}
    (h : p.neighbor d = some q) : p ≠ q := by
  cases p with
  | mk pr pc =>
    cases q with
    | mk qr qc =>
      intro he
      rw [RectPosition.mk.injEq] at he
      cases d <;> simp only [neighbor] at h
      case north =>
        split at h
        · replace h := Option.some.inj h
          rw [RectPosition.mk.injEq] at h
          omega
        · simp at h
      case south =>
        replace h := Option.some.inj h
        rw [RectPosition.mk.injEq] at h
        omega
      case east =>
        replace h := Option.some.inj h
        rw [RectPosition.mk.injEq] at h
        omega
      case west =>
        split at h
        · replace h := Option.some.inj h
          rw [RectPosition.mk.injEq] at h
          omega
        · simp at h

theorem flat_ind_lt {p : RectPosition} {w h : Nat} (hr : p.row < h) (hc : p.col < w) :
    p.flat_ind w < w * h := by
  have h1 : p.flat_ind w < (p.row + 1) * w := by
    simp only [flat_ind, Nat.succ_mul]
    omega
  have h2 : (p.row + 1) * w ≤ h * w := Nat.mul_le_mul_right w hr
  calc p.flat_ind w < (p.row + 1) * w := h1
    _ ≤ h * w := h2
    _ = w * h := Nat.mul_comm h w

theorem flat_ind_inj {p q : RectPosition} {w : Nat} (hp : p.col < w) (hq : q.col < w)
    (h : p.flat_ind w = q.flat_ind w) : p = q := by
  cases p with
  | mk pr pc =>
    cases q with
    | mk qr qc =>
      simp only [flat_ind] at h
      have hw : 0 < w := Nat.lt_of_le_of_lt (Nat.zero_le _) hp
      have hrow : pr = qr := by
        have h1 : (pr * w + pc) / w = pr := by
          rw [Nat.mul_comm pr w, Nat.mul_add_div hw]
          simp [Nat.div_eq_of_lt hp]
        have h2 : (qr * w + qc) / w = qr := by
          rw [Nat.mul_comm qr w, Nat.mul_add_div hw]
          simp [Nat.div_eq_of_lt hq]
        rw [← h1, ← h2, h]
      subst hrow
      have : pc = qc := by omega
      simp [this]

end RectPosition

namespace RectGrid

theorem pos_to_ind_bounds {g : RectGrid} {p : RectPosition} {i : Nat}
    (h : g.pos_to_ind p = some i) :
    p.row < g.height ∧ p.col < g.width ∧ i = p.flat_ind g.width := by
  simp only [pos_to_ind] at h
  split at h
  · next hb => exact ⟨hb.1, hb.2, (Option.some.inj h).symm⟩
  · simp at h

theorem pos_to_ind_lt {g : RectGrid} {p : RectPosition} {i : Nat} (hwf : g.WF)
    (h : g.pos_to_ind p = some i) : i < g.cells.length := by
  obtain ⟨hr, hc, rfl⟩ := pos_to_ind_bounds h
  rw [hwf.1]
  exact RectPosition.flat_ind_lt hr hc

theorem pos_to_ind_inj {g : RectGrid} {p q : RectPosition} {i : Nat}
    (hp : g.pos_to_ind p = some i) (hq : g.pos_to_ind q = some i) : p = q := by
  obtain ⟨hr, hc, he⟩ := pos_to_ind_bounds hp
  obtain ⟨hr', hc', he'⟩ := pos_to_ind_bounds hq
  exact RectPosition.flat_ind_inj hc hc' (he ▸ he' ▸ rfl)

theorem mask_is_cell_bounds {m : RectMask} {p : RectPosition}
    (h : m.is_cell p = true) : p.row < m.height ∧ p.col < m.width := by
  simp only [RectMask.is_cell] at h
  split at h
  · next heq =>
    simp only [RectMask.pos_to_ind] at heq
    split at heq
    · tauto
    · simp at heq
  · simp at h

theorem is_cell_bounds {g : RectGrid} {p : RectPosition} (hwf : g.WF)
    (h : g.is_cell p = true) : p.row < g.height ∧ p.col < g.width := by
  simp only [is_cell] at h
  cases hm : g.mask with
  | none =>
    rw [hm] at h
    by_cases hb : p.row < g.height ∧ p.col < g.width
    · exact hb
    · simp [pos_to_ind, hb] at h
  | some m =>
    rw [hm] at h
    obtain ⟨hw, hh, _⟩ := hwf.2 m hm
    have hb := mask_is_cell_bounds h
    exact ⟨hh ▸ hb.1, hw ▸ hb.2⟩

theorem is_cell_pos_to_ind {g : RectGrid} {p : RectPosition} (hwf : g.WF)
    (h : g.is_cell p = true) : g.pos_to_ind p = some (p.flat_ind g.width) := by
  have hb := is_cell_bounds hwf h
  simp [pos_to_ind, hb.1, hb.2]

theorem mask_admits_of_is_cell {g : RectGrid} {p : RectPosition}
    (h : g.is_cell p = true) : g.mask_admits p = true := by
  simp only [is_cell] at h
  simp only [mask_admits]
  cases hm : g.mask <;> rw [hm] at h <;> simp_all

theorem cell_isSome_of_is_cell {g : RectGrid} {p : RectPosition} (hwf : g.WF)
    (h : g.is_cell p = true) : (g.cell p).isSome = true := by
  have hb := is_cell_bounds hwf h
  have hpi := is_cell_pos_to_ind hwf h
  have hlt : p.flat_ind g.width < g.cells.length := by
    rw [hwf.1]
    exact RectPosition.flat_ind_lt hb.1 hb.2
  rw [cell, if_pos (mask_admits_of_is_cell h), hpi, Option.some_bind,
    List.get?_eq_get hlt]
  rfl

theorem is_cell_of_cell_isSome {g : RectGrid} {p : RectPosition}
    (h : (g.cell p).isSome = true) : g.is_cell p = true := by
  rw [cell] at h
  split at h
  · next hadm =>
    rw [is_cell]
    rw [mask_admits] at hadm
    cases hm : g.mask with
    | none =>
      simp only [hm]
      cases hpi : g.pos_to_ind p with
      | none => rw [hpi] at h; simp at h
      | some i => simp
    | some m =>
      simp only [hm]
      rw [hm] at hadm
      exact hadm
  · simp at h

theorem cell_isSome_iff {g : RectGrid} {p : RectPosition} (hwf : g.WF) :
    (g.cell p).isSome = true ↔ g.is_cell p = true :=
  ⟨is_cell_of_cell_isSome, cell_isSome_of_is_cell hwf⟩

theorem neighbor_pos_some_iff {g : RectGrid} {p q : RectPosition} {d : RectDirection}
    (hwf : g.WF) :
    g.neighbor_pos p d = some q ↔
      g.is_cell p = true ∧ g.is_cell q = true ∧ p.neighbor d = some q := by
  simp only [neighbor_pos]
  constructor
  · intro h
    split at h
    · next hc =>
      have hp := is_cell_of_cell_isSome hc
      cases hn : p.neighbor d with
      | none => rw [hn] at h; simp [Option.filter] at h
      | some q' =>
        rw [hn] at h
        simp only [Option.filter] at h
        split at h
        · next hq' =>
          obtain rfl : q' = q := Option.some.inj h
          exact ⟨hp, hq', rfl⟩
        · simp at h
    · simp at h
  · rintro ⟨hp, hq, hn⟩
    rw [if_pos (cell_isSome_of_is_cell hwf hp), hn]
    simp [Option.filter, hq]

theorem neighbor_pos_reverse {g : RectGrid} {p q : RectPosition} {d : RectDirection}
    (hwf : g.WF) (h : g.neighbor_pos p d = some q) :
    g.neighbor_pos q d.reverse = some p := by
  rw [neighbor_pos_some_iff hwf] at h ⊢
  exact ⟨h.2.1, h.1, RectPosition.neighbor_reverse h.2.2⟩

end RectGrid

/-! ### Effect of cell writes on the rectangular grid -/

theorem List.get?_set_isSome {α : Type} (l : List α) (i : Nat) (a : α) (j : Nat) :
    ((l.set i a).get? j).isSome = (l.get? j).isSome := by
  by_cases hij : i = j
  · subst hij
    by_cases hi : i < l.length
    · rw [List.get?_set_eq_of_lt a hi, List.get?_eq_get hi]
      rfl
    · rw [List.get?_eq_none.2 (by simpa using Nat.le_of_not_lt hi),
        List.get?_eq_none.2 (Nat.le_of_not_lt hi)]
  · rw [List.get?_set_ne a l hij]

namespace RectGrid

theorem set_cell_at_mask (g : RectGrid) (p : RectPosition) (c : RectCell) :
    (g.set_cell_at p c).mask = g.mask := rfl

theorem set_cell_at_width (g : RectGrid) (p : RectPosition) (c : RectCell) :
    (g.set_cell_at p c).width = g.width := rfl

theorem set_cell_at_height (g : RectGrid) (p : RectPosition) (c : RectCell) :
    (g.set_cell_at p c).height = g.height := rfl

theorem set_cell_at_length (g : RectGrid) (p : RectPosition) (c : RectCell) :
    (g.set_cell_at p c).cells.length = g.cells.length := by
  simp [set_cell_at]

theorem is_cell_set_cell_at (g : RectGrid) (p : RectPosition) (c : RectCell)
    (q : RectPosition) : (g.set_cell_at p c).is_cell q = g.is_cell q := rfl

theorem pos_to_ind_set_cell_at (g : RectGrid) (p : RectPosition) (c : RectCell)
    (q : RectPosition) : (g.set_cell_at p c).pos_to_ind q = g.pos_to_ind q := rfl

theorem mask_admits_set_cell_at (g : RectGrid) (p : RectPosition) (c : RectCell)
    (q : RectPosition) : (g.set_cell_at p c).mask_admits q = g.mask_admits q := rfl

theorem wf_set_cell_at {g : RectGrid} (hwf : g.WF) (p : RectPosition) (c : RectCell) :
    (g.set_cell_at p c).WF := by
  refine ⟨?_, hwf.2⟩
  rw [set_cell_at_length]
  exact hwf.1

theorem cell_isSome_set_cell_at (g : RectGrid) (p : RectPosition) (c : RectCell)
    (q : RectPosition) :
    ((g.set_cell_at p c).cell q).isSome = (g.cell q).isSome := by
  rw [cell, cell, mask_admits_set_cell_at, pos_to_ind_set_cell_at]
  by_cases hadm : g.mask_admits q = true
  · rw [if_pos hadm, if_pos hadm]
    cases hq : g.pos_to_ind q with
    | none => rfl
    | some j =>
      simp only [Option.some_bind]
      exact List.get?_set_isSome g.cells _ c j
  · rw [if_neg hadm, if_neg hadm]

theorem neighbor_pos_set_cell_at (g : RectGrid) (p : RectPosition) (c : RectCell)
    (q : RectPosition) (d : RectDirection) :
    (g.set_cell_at p c).neighbor_pos q d = g.neighbor_pos q d := by
  rw [neighbor_pos, neighbor_pos, cell_isSome_set_cell_at]
  rfl

theorem cell_set_cell_at_self {g : RectGrid} (hwf : g.WF) {p : RectPosition}
    (h : g.is_cell p = true) (c : RectCell) :
    (g.set_cell_at p c).cell p = some c := by
  have hb := is_cell_bounds hwf h
  have hpi := is_cell_pos_to_ind hwf h
  have hlt : p.flat_ind g.width < g.cells.length := by
    rw [hwf.1]
    exact RectPosition.flat_ind_lt hb.1 hb.2
  rw [cell, if_pos, pos_to_ind_set_cell_at, hpi, Option.some_bind]
  · show (g.cells.set ((g.pos_to_ind p).getD g.cells.length) c).get? (p.flat_ind g.width)
      = some c
    rw [hpi, Option.getD_some]
    exact List.get?_set_eq_of_lt c hlt
  · rw [mask_admits_set_cell_at]
    exact mask_admits_of_is_cell h

theorem cell_set_cell_at_other {g : RectGrid} {p q : RectPosition} (hne : p ≠ q)
    (c : RectCell) : (g.set_cell_at p c).cell q = g.cell q := by
  rw [cell, cell, mask_admits_set_cell_at, pos_to_ind_set_cell_at]
  by_cases hadm : g.mask_admits q = true
  · rw [if_pos hadm, if_pos hadm]
    cases hq : g.pos_to_ind q with
    | none => rfl
    | some j =>
      simp only [Option.some_bind]
      show (g.cells.set ((g.pos_to_ind p).getD g.cells.length) c).get? j = g.cells.get? j
      cases hp : g.pos_to_ind p with
      | none =>
        rw [Option.getD_none]
        by_cases hj : g.cells.length = j
        · rw [List.set_eq_of_length_le (Nat.le_refl _)]
        · exact List.get?_set_ne c g.cells hj
      | some i =>
        rw [Option.getD_some]
        have hij : i ≠ j := by
          intro he
          exact hne (pos_to_ind_inj hp (he ▸ hq))
        exact List.get?_set_ne c g.cells hij
  · rw [if_neg hadm, if_neg hadm]

end RectGrid

/-! ### Per-direction behaviour of query and connect -/

namespace RectGrid

theorem neighbor_pos_cell_isSome {g : RectGrid} {p q : RectPosition} {d : RectDirection}
    (h : g.neighbor_pos p d = some q) : (g.cell p).isSome = true := by
  rw [neighbor_pos] at h
  split at h
  · next hc => exact hc
  · simp at h

theorem is_connect_along_of_nb_none {g : RectGrid} {p : RectPosition} {d : RectDirection}
    (hn : g.neighbor_pos p d = none) : g.is_connect_along p d = false := by
  rw [is_connect_along.eq_def]
  cases hc : g.cell p
  · rfl
  · rw [hn]

theorem is_connect_along_north {g : RectGrid} {p q : RectPosition} {c : RectCell}
    (hc : g.cell p = some c) (hn : g.neighbor_pos p .north = some q) :
    g.is_connect_along p .north = c.is_connected_to_north := by
  rw [is_connect_along.eq_def, hc, hn]

theorem is_connect_along_east {g : RectGrid} {p q : RectPosition} {c : RectCell}
    (hc : g.cell p = some c) (hn : g.neighbor_pos p .east = some q) :
    g.is_connect_along p .east = c.is_connected_to_east := by
  rw [is_connect_along.eq_def, hc, hn]

theorem is_connect_along_south {g : RectGrid} {p q : RectPosition} {c : RectCell}
    (hc : g.cell p = some c) (hn : g.neighbor_pos p .south = some q) :
    g.is_connect_along p .south = g.is_connect_along q .north := by
  rw [is_connect_along.eq_def, hc, hn]
  rfl

theorem is_connect_along_west {g : RectGrid} {p q : RectPosition} {c : RectCell}
    (hc : g.cell p = some c) (hn : g.neighbor_pos p .west = some q) :
    g.is_connect_along p .west = g.is_connect_along q .east := by
  rw [is_connect_along.eq_def, hc, hn]
  rfl

theorem connect_along_of_nb_none {g : RectGrid} {p : RectPosition} {d : RectDirection}
    (hn : g.neighbor_pos p d = none) : g.connect_along p d = (false, g) := by
  rw [connect_along.eq_def, hn]

theorem connect_along_north {g : RectGrid} {p q : RectPosition} {c : RectCell}
    (hc : g.cell p = some c) (hn : g.neighbor_pos p .north = some q) :
    g.connect_along p .north =
      (true, g.set_cell_at p { c with is_connected_to_north := true }) := by
  rw [connect_along.eq_def, hc, hn]

theorem connect_along_east {g : RectGrid} {p q : RectPosition} {c : RectCell}
    (hc : g.cell p = some c) (hn : g.neighbor_pos p .east = some q) :
    g.connect_along p .east =
      (true, g.set_cell_at p { c with is_connected_to_east := true }) := by
  rw [connect_along.eq_def, hc, hn]

theorem connect_along_south {g : RectGrid} {p q : RectPosition} {c : RectCell}
    (hc : g.cell p = some c) (hn : g.neighbor_pos p .south = some q) :
    g.connect_along p .south = g.connect_along q .north := by
  rw [connect_along.eq_def, hc, hn]
  rfl

theorem connect_along_west {g : RectGrid} {p q : RectPosition} {c : RectCell}
    (hc : g.cell p = some c) (hn : g.neighbor_pos p .west = some q) :
    g.connect_along p .west = g.connect_along q .east := by
  rw [connect_along.eq_def, hc, hn]
  rfl

end RectGrid

/-! ### Symmetry of the connectivity query and shape preservation -/

namespace RectGrid

theorem is_connect_along_symm {g : RectGrid} {p q : RectPosition} {d : RectDirection}
    (hwf : g.WF) (h : g.neighbor_pos p d = some q) :
    g.is_connect_along p d = g.is_connect_along q d.reverse := by
  have hrev := neighbor_pos_reverse hwf h
  obtain ⟨c, hc⟩ := Option.isSome_iff_exists.1 (neighbor_pos_cell_isSome h)
  obtain ⟨cq, hcq⟩ := Option.isSome_iff_exists.1 (neighbor_pos_cell_isSome hrev)
  cases d
  case north =>
    simp only [RectDirection.reverse] at hrev ⊢
    rw [is_connect_along_north hc h, is_connect_along_south hcq hrev]
    exact (is_connect_along_north hc h).symm
  case south =>
    simp only [RectDirection.reverse] at hrev ⊢
    rw [is_connect_along_south hc h]
  case east =>
    simp only [RectDirection.reverse] at hrev ⊢
    rw [is_connect_along_east hc h, is_connect_along_west hcq hrev]
    exact (is_connect_along_east hc h).symm
  case west =>
    simp only [RectDirection.reverse] at hrev ⊢
    rw [is_connect_along_west hc h]

/-- Shape equality: everything a grid state carries apart from the actual
connectivity bits. -/
def same_shape (g' g : RectGrid) : Prop :=
  g'.width = g.width ∧ g'.height = g.height ∧ g'.mask = g.mask ∧
    g'.cells.length = g.cells.length

theorem same_shape_refl (g : RectGrid) : same_shape g g := ⟨rfl, rfl, rfl, rfl⟩

theorem same_shape_trans {g₁ g₂ g₃ : RectGrid} (h₁ : same_shape g₁ g₂)
    (h₂ : same_shape g₂ g₃) : same_shape g₁ g₃ :=
  ⟨h₁.1.trans h₂.1, h₁.2.1.trans h₂.2.1, h₁.2.2.1.trans h₂.2.2.1, h₁.2.2.2.trans h₂.2.2.2⟩

theorem same_shape_set_cell_at (g : RectGrid) (p : RectPosition) (c : RectCell) :
    same_shape (g.set_cell_at p c) g :=
  ⟨rfl, rfl, rfl, set_cell_at_length g p c⟩

theorem connect_along_shape (g : RectGrid) (p : RectPosition) (d : RectDirection) :
    same_shape (g.connect_along p d).2 g := by
  cases d
  case north =>
    cases hn : g.neighbor_pos p .north with
    | none => rw [connect_along_of_nb_none hn]; exact same_shape_refl g
    | some q =>
      obtain ⟨c, hc⟩ := Option.isSome_iff_exists.1 (neighbor_pos_cell_isSome hn)
      rw [connect_along_north hc hn]
      exact same_shape_set_cell_at g p _
  case east =>
    cases hn : g.neighbor_pos p .east with
    | none => rw [connect_along_of_nb_none hn]; exact same_shape_refl g
    | some q =>
      obtain ⟨c, hc⟩ := Option.isSome_iff_exists.1 (neighbor_pos_cell_isSome hn)
      rw [connect_along_east hc hn]
      exact same_shape_set_cell_at g p _
  case south =>
    cases hn : g.neighbor_pos p .south with
    | none => rw [connect_along_of_nb_none hn]; exact same_shape_refl g
    | some q =>
      obtain ⟨c, hc⟩ := Option.isSome_iff_exists.1 (neighbor_pos_cell_isSome hn)
      rw [connect_along_south hc hn]
      cases hn' : g.neighbor_pos q .north with
      | none => rw [connect_along_of_nb_none hn']; exact same_shape_refl g
      | some r =>
        obtain ⟨cq, hcq⟩ := Option.isSome_iff_exists.1 (neighbor_pos_cell_isSome hn')
        rw [connect_along_north hcq hn']
        exact same_shape_set_cell_at g q _
  case west =>
    cases hn : g.neighbor_pos p .west with
    | none => rw [connect_along_of_nb_none hn]; exact same_shape_refl g
    | some q =>
      obtain ⟨c, hc⟩ := Option.isSome_iff_exists.1 (neighbor_pos_cell_isSome hn)
      rw [connect_along_west hc hn]
      cases hn' : g.neighbor_pos q .east with
      | none => rw [connect_along_of_nb_none hn']; exact same_shape_refl g
      | some r =>
        obtain ⟨cq, hcq⟩ := Option.isSome_iff_exists.1 (neighbor_pos_cell_isSome hn')
        rw [connect_along_east hcq hn']
        exact same_shape_set_cell_at g q _

theorem is_cell_of_same_shape {g' g : RectGrid} (h : same_shape g' g)
    (p : RectPosition) : g'.is_cell p = g.is_cell p := by
  rw [is_cell, is_cell, h.2.2.1, pos_to_ind, pos_to_ind, h.1, h.2.1]

theorem wf_of_same_shape {g' g : RectGrid} (h : same_shape g' g) (hwf : g.WF) :
    g'.WF := by
  constructor
  · rw [h.2.2.2, h.1, h.2.1]
    exact hwf.1
  · intro m hm
    rw [h.1, h.2.1]
    exact hwf.2 m (h.2.2.1 ▸ hm)

end RectGrid

/-! ### The form of a connect result, marking, and idempotence -/

theorem List.set_of_get?_eq {α : Type} {l : List α} {i : Nat} {a : α}
    (h : l.get? i = some a) : l.set i a = l := by
  induction l generalizing i with
  | nil => simp at h
  | cons x xs ih =>
    cases i with
    | zero =>
      obtain rfl : x = a := Option.some.inj h
      rfl
    | succ n =>
      show x :: xs.set n a = x :: xs
      rw [ih (by simpa using h)]

namespace RectGrid

theorem cell_eq_some_elim {g : RectGrid} {p : RectPosition} {c : RectCell}
    (h : g.cell p = some c) :
    g.mask_admits p = true ∧ ∃ i, g.pos_to_ind p = some i ∧ g.cells.get? i = some c := by
  rw [cell] at h
  split at h
  · next hadm =>
    cases hpi : g.pos_to_ind p with
    | none => rw [hpi] at h; simp at h
    | some i =>
      rw [hpi, Option.some_bind] at h
      exact ⟨hadm, i, rfl, h⟩
  · simp at h

theorem set_cell_at_of_cell_eq {g : RectGrid} {p : RectPosition} {c : RectCell}
    (h : g.cell p = some c) : g.set_cell_at p c = g := by
  obtain ⟨-, i, hpi, hget⟩ := cell_eq_some_elim h
  rw [set_cell_at, hpi, Option.getD_some, List.set_of_get?_eq hget]

theorem connect_along_snd_form (g : RectGrid) (p : RectPosition) (d : RectDirection) :
    (g.connect_along p d).2 = g ∨
      ∃ w c', (g.cell w).isSome = true ∧ (g.connect_along p d).2 = g.set_cell_at w c' := by
  cases d
  case north =>
    cases hn : g.neighbor_pos p .north with
    | none => rw [connect_along_of_nb_none hn]; exact Or.inl rfl
    | some q =>
      obtain ⟨c, hc⟩ := Option.isSome_iff_exists.1 (neighbor_pos_cell_isSome hn)
      rw [connect_along_north hc hn]
      exact Or.inr ⟨p, _, by rw [hc]; rfl, rfl⟩
  case east =>
    cases hn : g.neighbor_pos p .east with
    | none => rw [connect_along_of_nb_none hn]; exact Or.inl rfl
    | some q =>
      obtain ⟨c, hc⟩ := Option.isSome_iff_exists.1 (neighbor_pos_cell_isSome hn)
      rw [connect_along_east hc hn]
      exact Or.inr ⟨p, _, by rw [hc]; rfl, rfl⟩
  case south =>
    cases hn : g.neighbor_pos p .south with
    | none => rw [connect_along_of_nb_none hn]; exact Or.inl rfl
    | some q =>
      obtain ⟨c, hc⟩ := Option.isSome_iff_exists.1 (neighbor_pos_cell_isSome hn)
      rw [connect_along_south hc hn]
      cases hn' : g.neighbor_pos q .north with
      | none => rw [connect_along_of_nb_none hn']; exact Or.inl rfl
      | some r =>
        obtain ⟨cq, hcq⟩ := Option.isSome_iff_exists.1 (neighbor_pos_cell_isSome hn')
        rw [connect_along_north hcq hn']
        exact Or.inr ⟨q, _, by rw [hcq]; rfl, rfl⟩
  case west =>
    cases hn : g.neighbor_pos p .west with
    | none => rw [connect_along_of_nb_none hn]; exact Or.inl rfl
    | some q =>
      obtain ⟨c, hc⟩ := Option.isSome_iff_exists.1 (neighbor_pos_cell_isSome hn)
      rw [connect_along_west hc hn]
      cases hn' : g.neighbor_pos q .east with
      | none => rw [connect_along_of_nb_none hn']; exact Or.inl rfl
      | some r =>
        obtain ⟨cq, hcq⟩ := Option.isSome_iff_exists.1 (neighbor_pos_cell_isSome hn')
        rw [connect_along_east hcq hn']
        exact Or.inr ⟨q, _, by rw [hcq]; rfl, rfl⟩

theorem connect_along_cell_isSome (g : RectGrid) (p : RectPosition) (d : RectDirection)
    (r : RectPosition) :
    ((g.connect_along p d).2.cell r).isSome = (g.cell r).isSome := by
  rcases connect_along_snd_form g p d with h | ⟨w, c', -, h⟩
  · rw [h]
  · rw [h, cell_isSome_set_cell_at]

theorem connect_along_neighbor_pos (g : RectGrid) (p : RectPosition) (d : RectDirection)
    (r : RectPosition) (d' : RectDirection) :
    (g.connect_along p d).2.neighbor_pos r d' = g.neighbor_pos r d' := by
  rcases connect_along_snd_form g p d with h | ⟨w, c', -, h⟩
  · rw [h]
  · rw [h, neighbor_pos_set_cell_at]

theorem connect_along_marks_north {g : RectGrid} {p q : RectPosition} (hwf : g.WF)
    (hn : g.neighbor_pos p .north = some q) :
    (g.connect_along p .north).1 = true ∧
      (g.connect_along p .north).2.is_connect_along p .north = true := by
  obtain ⟨c, hc⟩ := Option.isSome_iff_exists.1 (neighbor_pos_cell_isSome hn)
  rw [connect_along_north hc hn]
  refine ⟨rfl, ?_⟩
  have hpcell : g.is_cell p = true := is_cell_of_cell_isSome (by rw [hc]; rfl)
  have hc' := cell_set_cell_at_self hwf hpcell { c with is_connected_to_north := true }
  have hn' : (g.set_cell_at p { c with is_connected_to_north := true }).neighbor_pos
      p .north = some q := by rw [neighbor_pos_set_cell_at]; exact hn
  rw [is_connect_along_north hc' hn']

theorem connect_along_marks_east {g : RectGrid} {p q : RectPosition} (hwf : g.WF)
    (hn : g.neighbor_pos p .east = some q) :
    (g.connect_along p .east).1 = true ∧
      (g.connect_along p .east).2.is_connect_along p .east = true := by
  obtain ⟨c, hc⟩ := Option.isSome_iff_exists.1 (neighbor_pos_cell_isSome hn)
  rw [connect_along_east hc hn]
  refine ⟨rfl, ?_⟩
  have hpcell : g.is_cell p = true := is_cell_of_cell_isSome (by rw [hc]; rfl)
  have hc' := cell_set_cell_at_self hwf hpcell { c with is_connected_to_east := true }
  have hn' : (g.set_cell_at p { c with is_connected_to_east := true }).neighbor_pos
      p .east = some q := by rw [neighbor_pos_set_cell_at]; exact hn
  rw [is_connect_along_east hc' hn']

theorem connect_along_marks {g : RectGrid} {p q : RectPosition} {d : RectDirection}
    (hwf : g.WF) (hn : g.neighbor_pos p d = some q) :
    (g.connect_along p d).1 = true ∧
      (g.connect_along p d).2.is_connect_along p d = true := by
  cases d
  case north => exact connect_along_marks_north hwf hn
  case east => exact connect_along_marks_east hwf hn
  case south =>
    obtain ⟨c, hc⟩ := Option.isSome_iff_exists.1 (neighbor_pos_cell_isSome hn)
    have hrev := neighbor_pos_reverse hwf hn
    simp only [RectDirection.reverse] at hrev
    rw [connect_along_south hc hn]
    obtain ⟨h1, h2⟩ := connect_along_marks_north hwf hrev
    refine ⟨h1, ?_⟩
    obtain ⟨c₂, hc₂⟩ := Option.isSome_iff_exists.1
      ((connect_along_cell_isSome g q .north p).trans (by rw [hc]; rfl))
    have hn₂ : (g.connect_along q .north).2.neighbor_pos p .south = some q := by
      rw [connect_along_neighbor_pos]; exact hn
    rw [is_connect_along_south hc₂ hn₂]
    exact h2
  case west =>
    obtain ⟨c, hc⟩ := Option.isSome_iff_exists.1 (neighbor_pos_cell_isSome hn)
    have hrev := neighbor_pos_reverse hwf hn
    simp only [RectDirection.reverse] at hrev
    rw [connect_along_west hc hn]
    obtain ⟨h1, h2⟩ := connect_along_marks_east hwf hrev
    refine ⟨h1, ?_⟩
    obtain ⟨c₂, hc₂⟩ := Option.isSome_iff_exists.1
      ((connect_along_cell_isSome g q .east p).trans (by rw [hc]; rfl))
    have hn₂ : (g.connect_along q .east).2.neighbor_pos p .west = some q := by
      rw [connect_along_neighbor_pos]; exact hn
    rw [is_connect_along_west hc₂ hn₂]
    exact h2

end RectGrid

/-! ### Idempotence of connecting and the `connect_to` contract -/

namespace RectGrid

theorem connect_along_nb_of_fst_true {g : RectGrid} {p : RectPosition} {d : RectDirection}
    (h : (g.connect_along p d).1 = true) : ∃ q, g.neighbor_pos p d = some q := by
  cases hn : g.neighbor_pos p d with
  | none => rw [connect_along_of_nb_none hn] at h; simp at h
  | some q => exact ⟨q, rfl⟩

theorem connect_along_snd_of_fst_false {g : RectGrid} {p : RectPosition}
    {d : RectDirection} (h : (g.connect_along p d).1 = false) :
    (g.connect_along p d).2 = g := by
  cases d <;> (
    cases hn : g.neighbor_pos p _ with
    | none => rw [connect_along_of_nb_none hn]
    | some q => ?_)
  case north =>
    obtain ⟨c, hc⟩ := Option.isSome_iff_exists.1 (neighbor_pos_cell_isSome hn)
    rw [connect_along_north hc hn] at h
    simp at h
  case east =>
    obtain ⟨c, hc⟩ := Option.isSome_iff_exists.1 (neighbor_pos_cell_isSome hn)
    rw [connect_along_east hc hn] at h
    simp at h
  case south =>
    obtain ⟨c, hc⟩ := Option.isSome_iff_exists.1 (neighbor_pos_cell_isSome hn)
    rw [connect_along_south hc hn] at h ⊢
    cases hn' : g.neighbor_pos q .north with
    | none => rw [connect_along_of_nb_none hn']
    | some r =>
      obtain ⟨cq, hcq⟩ := Option.isSome_iff_exists.1 (neighbor_pos_cell_isSome hn')
      rw [connect_along_north hcq hn'] at h
      simp at h
  case west =>
    obtain ⟨c, hc⟩ := Option.isSome_iff_exists.1 (neighbor_pos_cell_isSome hn)
    rw [connect_along_west hc hn] at h ⊢
    cases hn' : g.neighbor_pos q .east with
    | none => rw [connect_along_of_nb_none hn']
    | some r =>
      obtain ⟨cq, hcq⟩ := Option.isSome_iff_exists.1 (neighbor_pos_cell_isSome hn')
      rw [connect_along_east hcq hn'] at h
      simp at h

theorem connect_along_fst_iff {g : RectGrid} {p : RectPosition} {d : RectDirection}
    (hwf : g.WF) :
    (g.connect_along p d).1 = true ↔ (g.neighbor_pos p d).isSome = true := by
  constructor
  · intro h
    obtain ⟨q, hq⟩ := connect_along_nb_of_fst_true h
    rw [hq]
    rfl
  · intro h
    obtain ⟨q, hq⟩ := Option.isSome_iff_exists.1 h
    exact (connect_along_marks hwf hq).1

theorem connect_along_idem_north {g : RectGrid} {p q : RectPosition} (hwf : g.WF)
    (hn : g.neighbor_pos p .north = some q) :
    (g.connect_along p .north).2.connect_along p .north =
      (true, (g.connect_along p .north).2) := by
  obtain ⟨c, hc⟩ := Option.isSome_iff_exists.1 (neighbor_pos_cell_isSome hn)
  have hpcell : g.is_cell p = true := is_cell_of_cell_isSome (by rw [hc]; rfl)
  rw [connect_along_north hc hn]
  have hc' := cell_set_cell_at_self hwf hpcell { c with is_connected_to_north := true }
  have hn' : (g.set_cell_at p { c with is_connected_to_north := true }).neighbor_pos
      p .north = some q := by rw [neighbor_pos_set_cell_at]; exact hn
  rw [connect_along_north hc' hn']
  rw [set_cell_at_of_cell_eq hc']

theorem connect_along_idem_east {g : RectGrid} {p q : RectPosition} (hwf : g.WF)
    (hn : g.neighbor_pos p .east = some q) :
    (g.connect_along p .east).2.connect_along p .east =
      (true, (g.connect_along p .east).2) := by
  obtain ⟨c, hc⟩ := Option.isSome_iff_exists.1 (neighbor_pos_cell_isSome hn)
  have hpcell : g.is_cell p = true := is_cell_of_cell_isSome (by rw [hc]; rfl)
  rw [connect_along_east hc hn]
  have hc' := cell_set_cell_at_self hwf hpcell { c with is_connected_to_east := true }
  have hn' : (g.set_cell_at p { c with is_connected_to_east := true }).neighbor_pos
      p .east = some q := by rw [neighbor_pos_set_cell_at]; exact hn
  rw [connect_along_east hc' hn']
  rw [set_cell_at_of_cell_eq hc']

theorem connect_along_idem {g : RectGrid} {p : RectPosition} {d : RectDirection}
    (hwf : g.WF) (h : (g.connect_along p d).1 = true) :
    (g.connect_along p d).2.connect_along p d = (true, (g.connect_along p d).2) := by
  obtain ⟨q, hn⟩ := connect_along_nb_of_fst_true h
  cases d
  case north => exact connect_along_idem_north hwf hn
  case east => exact connect_along_idem_east hwf hn
  case south =>
    obtain ⟨c, hc⟩ := Option.isSome_iff_exists.1 (neighbor_pos_cell_isSome hn)
    have hrev := neighbor_pos_reverse hwf hn
    simp only [RectDirection.reverse] at hrev
    rw [connect_along_south hc hn]
    obtain ⟨c₂, hc₂⟩ := Option.isSome_iff_exists.1
      ((connect_along_cell_isSome g q .north p).trans (by rw [hc]; rfl))
    have hn₂ : (g.connect_along q .north).2.neighbor_pos p .south = some q := by
      rw [connect_along_neighbor_pos]; exact hn
    rw [connect_along_south hc₂ hn₂]
    exact connect_along_idem_north hwf hrev
  case west =>
    obtain ⟨c, hc⟩ := Option.isSome_iff_exists.1 (neighbor_pos_cell_isSome hn)
    have hrev := neighbor_pos_reverse hwf hn
    simp only [RectDirection.reverse] at hrev
    rw [connect_along_west hc hn]
    obtain ⟨c₂, hc₂⟩ := Option.isSome_iff_exists.1
      ((connect_along_cell_isSome g q .east p).trans (by rw [hc]; rfl))
    have hn₂ : (g.connect_along q .east).2.neighbor_pos p .west = some q := by
      rw [connect_along_neighbor_pos]; exact hn
    rw [connect_along_west hc₂ hn₂]
    exact connect_along_idem_east hwf hrev

theorem mem_all_dirs (d : RectDirection) : d ∈ RectDirection.all_dirs := by
  cases d <;> simp [RectDirection.all_dirs]

theorem connect_to_fst_iff {g : RectGrid} {a b : RectPosition} (hwf : g.WF) :
    (g.connect_to a b).1 = true ↔
      g.is_cell a = true ∧ g.is_cell b = true ∧ ∃ d, a.neighbor d = some b := by
  rw [connect_to]
  by_cases hab : g.is_cell a = true ∧ g.is_cell b = true
  · rw [if_pos (by simpa using hab)]
    cases hf : RectDirection.all_dirs.find? (fun d => a.neighbor d = some b) with
    | none =>
      simp only [show ((false, g).1 = true) = False by simp, false_iff]
      rintro ⟨-, -, d, hd⟩
      have := List.find?_eq_none.1 hf d (mem_all_dirs d)
      simp [hd] at this
    | some d =>
      have hd : a.neighbor d = some b := by
        have := List.find?_some hf
        simpa using this
      rw [connect_along_fst_iff hwf]
      have hnb : g.neighbor_pos a d = some b :=
        (neighbor_pos_some_iff hwf).2 ⟨hab.1, hab.2, hd⟩
      simp [hnb, hab.1, hab.2]
      exact ⟨d, hd⟩
  · rw [if_neg (by simpa using hab)]
    simp only [show ((false, g).1 = true) = False by simp, false_iff]
    rintro ⟨h1, h2, -⟩
    exact hab ⟨h1, h2⟩

theorem connect_to_snd_of_fst_false {g : RectGrid} {a b : RectPosition}
    (h : (g.connect_to a b).1 = false) : (g.connect_to a b).2 = g := by
  rw [connect_to] at h ⊢
  by_cases hab : g.is_cell a = true ∧ g.is_cell b = true
  · rw [if_pos hab] at h ⊢
    cases hf : RectDirection.all_dirs.find? (fun d => a.neighbor d = some b) with
    | none => rfl
    | some d =>
      rw [hf] at h
      exact connect_along_snd_of_fst_false h
  · rw [if_neg hab]

end RectGrid

/-! ### Final `connect_to` facts -/

namespace RectGrid

theorem connect_to_shape (g : RectGrid) (a b : RectPosition) :
    same_shape (g.connect_to a b).2 g := by
  rw [connect_to]
  by_cases hab : g.is_cell a = true ∧ g.is_cell b = true
  · rw [if_pos hab]
    cases hf : RectDirection.all_dirs.find? (fun d => a.neighbor d = some b) with
    | none => exact same_shape_refl g
    | some d => exact connect_along_shape g a d
  · rw [if_neg hab]
    exact same_shape_refl g

theorem connect_to_marks {g : RectGrid} {a b : RectPosition} (hwf : g.WF)
    (h : (g.connect_to a b).1 = true) :
    ∃ d, a.neighbor d = some b ∧
      (g.connect_to a b).2.is_connect_along a d = true ∧
      (g.connect_to a b).2.is_connect_along b d.reverse = true := by
  rw [connect_to] at h ⊢
  by_cases hab : g.is_cell a = true ∧ g.is_cell b = true
  · rw [if_pos hab] at h ⊢
    cases hf : RectDirection.all_dirs.find? (fun d => a.neighbor d = some b) with
    | none => rw [hf] at h; simp at h
    | some d =>
      rw [hf] at h
      have hd : a.neighbor d = some b := by simpa using List.find?_some hf
      have hnb : g.neighbor_pos a d = some b :=
        (neighbor_pos_some_iff hwf).2 ⟨hab.1, hab.2, hd⟩
      have hm := (connect_along_marks hwf hnb).2
      have hwf' : (g.connect_along a d).2.WF :=
        wf_of_same_shape (connect_along_shape g a d) hwf
      have hnb' : (g.connect_along a d).2.neighbor_pos a d = some b := by
        rw [connect_along_neighbor_pos]; exact hnb
      refine ⟨d, hd, hm, ?_⟩
      rw [← is_connect_along_symm hwf' hnb']
      exact hm
  · rw [if_neg hab] at h
    simp at h

theorem connect_to_idem {g : RectGrid} {a b : RectPosition} (hwf : g.WF)
    (h : (g.connect_to a b).1 = true) :
    (g.connect_to a b).2.connect_to a b = (true, (g.connect_to a b).2) := by
  have hshape := connect_to_shape g a b
  rw [connect_to] at h
  by_cases hab : g.is_cell a = true ∧ g.is_cell b = true
  · rw [if_pos hab] at h
    cases hf : RectDirection.all_dirs.find? (fun d => a.neighbor d = some b) with
    | none => rw [hf] at h; simp at h
    | some d =>
      rw [hf] at h
      have hres : (g.connect_to a b).2 = (g.connect_along a d).2 := by
        rw [connect_to, if_pos hab, hf]
      rw [hres]
      rw [connect_to]
      have ha' : (g.connect_along a d).2.is_cell a = g.is_cell a :=
        is_cell_of_same_shape (connect_along_shape g a d) a
      have hb' : (g.connect_along a d).2.is_cell b = g.is_cell b :=
        is_cell_of_same_shape (connect_along_shape g a d) b
      rw [if_pos (by rw [ha', hb']; exact hab), hf]
      exact connect_along_idem hwf h
  · rw [if_neg hab] at h
    simp at h

theorem connect_along_two_sided {g : RectGrid} {p q : RectPosition} {d : RectDirection}
    (hwf : g.WF) (hn : g.neighbor_pos p d = some q) :
    g.connect_along p d = g.connect_along q d.reverse := by
  have hrev := neighbor_pos_reverse hwf hn
  obtain ⟨c, hc⟩ := Option.isSome_iff_exists.1 (neighbor_pos_cell_isSome hn)
  obtain ⟨cq, hcq⟩ := Option.isSome_iff_exists.1 (neighbor_pos_cell_isSome hrev)
  cases d
  case north =>
    simp only [RectDirection.reverse] at hrev ⊢
    rw [connect_along_south hcq hrev]
  case south =>
    simp only [RectDirection.reverse] at hrev ⊢
    rw [connect_along_south hc hn]
  case east =>
    simp only [RectDirection.reverse] at hrev ⊢
    rw [connect_along_west hcq hrev]
  case west =>
    simp only [RectDirection.reverse] at hrev ⊢
    rw [connect_along_west hc hn]

end RectGrid

/-! ### Constructor well-formedness -/

namespace RectGrid

theorem wf_new (w h : Nat) : (RectGrid.new w h).WF := by
  constructor
  · simp [RectGrid.new]
  · intro m hm
    simp [RectGrid.new] at hm

theorem wf_with_mask {m : RectMask} (hm : m.flags.length = m.width * m.height) :
    (RectGrid.with_mask m).WF := by
  constructor
  · simp [RectGrid.with_mask]
  · intro m' hm'
    simp only [RectGrid.with_mask] at hm'
    cases hm'
    exact ⟨rfl, rfl, hm⟩

end RectGrid

/-! ## Claim C2 -/

/-- Claim C2 (amended): for every well-formed rectangular grid and pair of
positions, `connect_to` succeeds exactly when the two positions are topology
neighbors and both active; on failure the grid is left completely unchanged;
on success the two positions are marked connected when queried from either
side; and the call is idempotent — calling it again on the already-connected
pair succeeds again (returning `true`, not `false`) and leaves the state
unchanged. -/
theorem claim_C2_connect_to_contract (g : RectGrid) (a b : RectPosition)
    (hwf : g.WF) :
    (((g.connect_to a b).1 = true) ↔
      (g.is_cell a = true ∧ g.is_cell b = true ∧ ∃ d, a.neighbor d = some b)) ∧
    ((g.connect_to a b).1 = false → (g.connect_to a b).2 = g) ∧
    ((g.connect_to a b).1 = true →
      ∃ d, a.neighbor d = some b ∧
        (g.connect_to a b).2.is_connect_along a d = true ∧
        (g.connect_to a b).2.is_connect_along b d.reverse = true) ∧
    ((g.connect_to a b).1 = true →
      (g.connect_to a b).2.connect_to a b = (true, (g.connect_to a b).2)) :=
  ⟨RectGrid.connect_to_fst_iff hwf, RectGrid.connect_to_snd_of_fst_false,
    RectGrid.connect_to_marks hwf, RectGrid.connect_to_idem hwf⟩

/-- Witness for C2: on a fresh 2×1 grid, connecting the two adjacent cells
succeeds. -/
theorem claim_C2_witness :
    ((RectGrid.new 2 1).connect_to ⟨0, 0⟩ ⟨0, 1⟩).1 = true :=
  (claim_C2_connect_to_contract (RectGrid.new 2 1) ⟨0, 0⟩ ⟨0, 1⟩
    (RectGrid.wf_new 2 1)).1.2
    ⟨by decide, by decide, ⟨RectDirection.east, rfl⟩⟩

/-- Counterexample for C2 as frozen: the boolean result does not report
whether the connection was newly recorded.  After connecting the two cells of
a 2×1 grid the pair is already connected, yet a second `connect_to` on the
same pair still returns `true` (the source sets the bit again and returns
`true` unconditionally), not `false`. -/
theorem claim_C2_counterexample :
    ((RectGrid.new 2 1).connect_to ⟨0, 0⟩ ⟨0, 1⟩).2.is_connect_along ⟨0, 0⟩
      RectDirection.east = true ∧
    (((RectGrid.new 2 1).connect_to ⟨0, 0⟩ ⟨0, 1⟩).2.connect_to ⟨0, 0⟩ ⟨0, 1⟩).1
      = true := by
  have hwf := RectGrid.wf_new 2 1
  have h1 : ((RectGrid.new 2 1).connect_to ⟨0, 0⟩ ⟨0, 1⟩).1 = true :=
    (RectGrid.connect_to_fst_iff hwf).2 ⟨by decide, by decide, ⟨.east, rfl⟩⟩
  obtain ⟨d, hd, hmark, -⟩ := RectGrid.connect_to_marks hwf h1
  have hde : d = RectDirection.east := by
    cases d <;> simp [RectPosition.neighbor] at hd
    · rfl
  subst hde
  have hidem := RectGrid.connect_to_idem hwf h1
  refine ⟨hmark, ?_⟩
  rw [hidem]

/-! ## Hexagonal topology: `src/maze/hexa.rs` -/

/-- Embeds `HexaDirection` (src/maze/hexa.rs). -/
inductive HexaDirection where
  | north
  | northEast
  | southEast
  | south
  | southWest
  | northWest
deriving DecidableEq, Repr

/-- Direction pairing used by the specification when it speaks of querying a
connection "from the other side"; not a source function. -/
def HexaDirection.reverse : HexaDirection → HexaDirection
  | .north => .south
  | .south => .north
  | .northEast => .southWest
  | .southWest => .northEast
  | .southEast => .northWest
  | .northWest => .southEast

/-- Embeds `HexaPosition` (src/maze/hexa.rs). -/
structure HexaPosition where
  row : Nat
  col : Nat
deriving DecidableEq, Repr

/-- Embeds `HexaPosition::neighbor` including the odd/even column offset
bookkeeping. -/
def HexaPosition.neighbor (p : HexaPosition) : HexaDirection → Option HexaPosition
  | .north => if 0 < p.row then some ⟨p.row - 1, p.col⟩ else none
  | .northEast =>
    if p.col % 2 = 0 ∧ 0 < p.row then some ⟨p.row - 1, p.col + 1⟩
    else if p.col % 2 = 1 then some ⟨p.row, p.col + 1⟩
    else none
  | .southEast =>
    if p.col % 2 = 0 then some ⟨p.row, p.col + 1⟩
    else some ⟨p.row + 1, p.col + 1⟩
  | .south => some ⟨p.row + 1, p.col⟩
  | .southWest =>
    if 0 < p.col ∧ p.col % 2 = 0 then some ⟨p.row, p.col - 1⟩
    else if 0 < p.col ∧ p.col % 2 = 1 then some ⟨p.row + 1, p.col - 1⟩
    else none
  | .northWest =>
    if 0 < p.col ∧ p.col % 2 = 0 ∧ 0 < p.row then some ⟨p.row - 1, p.col - 1⟩
    else if 0 < p.col ∧ p.col % 2 = 1 then some ⟨p.row, p.col - 1⟩
    else none

/-- Embeds `HexaCell` (src/maze/hexa.rs): the three canonical bits. -/
structure HexaCell where
  is_connected_to_north : Bool
  is_connected_to_northwest : Bool
  is_connected_to_southwest : Bool
deriving DecidableEq, Repr

instance : Inhabited HexaCell := ⟨⟨false, false, false⟩⟩

/-- Modelled from the spec: the cell storage `GeneralRectGrid<HexaCell>` used
by `HexaGrid` is not among the provided sources (only its uses are); §3 and
§4.1 describe it as a width/height row-major cell array with an optional
mask, whose `is_cell`/`cell` behave exactly like the rectangular adapter's
(`RectGrid::is_cell`/`cell` in src/maze/rect.rs). -/
structure HexaGrid where
  width : Nat
  height : Nat
  cells : List HexaCell
  mask : Option RectMask
deriving DecidableEq, Repr

namespace HexaGrid

/-- Row-major index of a hexagonal position, as in the modelled storage. -/
def pos_to_ind (g : HexaGrid) (p : HexaPosition) : Option Nat :=
  if p.row < g.height ∧ p.col < g.width then some (p.row * g.width + p.col) else none

/-- Activity of a hexagonal position (mask-aware), as in the modelled storage. -/
def is_cell (g : HexaGrid) (p : HexaPosition) : Bool :=
  match g.mask with
  | some m => m.is_cell ⟨p.row, p.col⟩
  | none => (g.pos_to_ind p).isSome

/-- Cell lookup of the modelled storage. -/
def cell (g : HexaGrid) (p : HexaPosition) : Option HexaCell :=
  if (match g.mask with
      | some m => m.is_cell ⟨p.row, p.col⟩
      | none => true) then
    (g.pos_to_ind p).bind (fun ind => g.cells.get? ind)
  else none

/-- Well-formedness established by the constructors of the hexagonal grid. -/
def WF (g : HexaGrid) : Prop :=
  g.cells.length = g.width * g.height ∧
    ∀ m ∈ g.mask, m.width = g.width ∧ m.height = g.height ∧
      m.flags.length = m.width * m.height

/-- Embeds `HexaMaze::is_connected_to` (src/maze/hexa.rs): North, SouthWest
and NorthWest read the cell's own canonical bit (the source unwraps the cell,
which exists for every active position of a well-formed grid); NorthEast,
SouthEast and South look at the neighbor's canonical bit in reverse. -/
def is_connected_to (g : HexaGrid) (p : HexaPosition) (d : HexaDirection) : Bool :=
  g.is_cell p &&
    match d with
    | .north =>
      match g.cell p with
      | some c => c.is_connected_to_north
      | none => false
    | .southWest =>
      match g.cell p with
      | some c => c.is_connected_to_southwest
      | none => false
    | .northWest =>
      match g.cell p with
      | some c => c.is_connected_to_northwest
      | none => false
    | .northEast =>
      match p.neighbor .northEast with
      | some nb =>
        match g.cell nb with
        | some c => c.is_connected_to_southwest
        | none => false
      | none => false
    | .southEast =>
      match p.neighbor .southEast with
      | some nb =>
        match g.cell nb with
        | some c => c.is_connected_to_northwest
        | none => false
      | none => false
    | .south =>
      match p.neighbor .south with
      | some nb =>
        match g.cell nb with
        | some c => c.is_connected_to_north
        | none => false
      | none => false

theorem mask_is_cell_bounds' {m : RectMask} {r c : Nat}
    (h : m.is_cell ⟨r, c⟩ = true) : r < m.height ∧ c < m.width := by
  have := RectGrid.mask_is_cell_bounds (p := ⟨r, c⟩) h
  exact this

theorem hexa_is_cell_bounds {g : HexaGrid} {p : HexaPosition} (hwf : g.WF)
    (h : g.is_cell p = true) : p.row < g.height ∧ p.col < g.width := by
  rw [is_cell] at h
  cases hm : g.mask with
  | none =>
    rw [hm] at h
    by_cases hb : p.row < g.height ∧ p.col < g.width
    · exact hb
    · simp [pos_to_ind, hb] at h
  | some m =>
    rw [hm] at h
    obtain ⟨hw, hh, -⟩ := hwf.2 m hm
    have hb := mask_is_cell_bounds' h
    exact ⟨hh ▸ hb.1, hw ▸ hb.2⟩

theorem hexa_cell_isSome_of_is_cell {g : HexaGrid} {p : HexaPosition} (hwf : g.WF)
    (h : g.is_cell p = true) : (g.cell p).isSome = true := by
  have hb := hexa_is_cell_bounds hwf h
  have hpi : g.pos_to_ind p = some (p.row * g.width + p.col) := by
    simp [pos_to_ind, hb.1, hb.2]
  have hlt : p.row * g.width + p.col < g.cells.length := by
    rw [hwf.1]
    have := RectPosition.flat_ind_lt (p := ⟨p.row, p.col⟩) hb.1 hb.2
    simpa [RectPosition.flat_ind] using this
  rw [is_cell] at h
  rw [cell]
  cases hm : g.mask with
  | none =>
    rw [if_pos rfl, hpi, Option.some_bind, List.get?_eq_get hlt]
    rfl
  | some m =>
    rw [hm] at h
    rw [if_pos h, hpi, Option.some_bind, List.get?_eq_get hlt]
    rfl

end HexaGrid

/-! ### Hexagonal neighbor inversion and query symmetry -/

namespace HexaPosition

theorem hexa_neighbor_reverse {p q : HexaPosition} {d : HexaDirection}
    (h : p.neighbor d = some q) : q.neighbor d.reverse = some p := by
  cases p with
  | mk pr pc =>
    cases q with
    | mk qr qc =>
      cases d
      case north =>
        simp only [neighbor, HexaDirection.reverse] at h ⊢
        split_ifs at h with h1
        rw [Option.some.injEq, HexaPosition.mk.injEq] at h
        rw [Option.some.injEq, HexaPosition.mk.injEq]
        omega
      case south =>
        simp only [neighbor, HexaDirection.reverse] at h ⊢
        rw [Option.some.injEq, HexaPosition.mk.injEq] at h
        split_ifs with g1
        · rw [Option.some.injEq, HexaPosition.mk.injEq]
          omega
        · exfalso; omega
      case northEast =>
        simp only [neighbor, HexaDirection.reverse] at h ⊢
        split_ifs at h with h1 h2
        · rw [Option.some.injEq, HexaPosition.mk.injEq] at h
          split_ifs with g1 g2
          · exfalso; omega
          · rw [Option.some.injEq, HexaPosition.mk.injEq]
            omega
          · exfalso; omega
        · rw [Option.some.injEq, HexaPosition.mk.injEq] at h
          split_ifs with g1 g2
          · rw [Option.some.injEq, HexaPosition.mk.injEq]
            omega
          · exfalso; omega
          · exfalso; omega
      case southWest =>
        simp only [neighbor, HexaDirection.reverse] at h ⊢
        split_ifs at h with h1 h2
        · rw [Option.some.injEq, HexaPosition.mk.injEq] at h
          split_ifs with g1 g2
          · exfalso; omega
          · rw [Option.some.injEq, HexaPosition.mk.injEq]
            omega
          · exfalso; omega
        · rw [Option.some.injEq, HexaPosition.mk.injEq] at h
          split_ifs with g1 g2
          · rw [Option.some.injEq, HexaPosition.mk.injEq]
            omega
          · exfalso; omega
          · exfalso; omega
      case southEast =>
        simp only [neighbor, HexaDirection.reverse] at h ⊢
        split_ifs at h with h1
        · rw [Option.some.injEq, HexaPosition.mk.injEq] at h
          split_ifs with g1 g2
          · exfalso; omega
          · rw [Option.some.injEq, HexaPosition.mk.injEq]
            omega
          · exfalso; omega
        · rw [Option.some.injEq, HexaPosition.mk.injEq] at h
          split_ifs with g1 g2
          · rw [Option.some.injEq, HexaPosition.mk.injEq]
            omega
          · exfalso; omega
          · exfalso; omega
      case northWest =>
        simp only [neighbor, HexaDirection.reverse] at h ⊢
        split_ifs at h with h1 h2
        · rw [Option.some.injEq, HexaPosition.mk.injEq] at h
          split_ifs with g1
          · exfalso; omega
          · rw [Option.some.injEq, HexaPosition.mk.injEq]
            omega
        · rw [Option.some.injEq, HexaPosition.mk.injEq] at h
          split_ifs with g1
          · rw [Option.some.injEq, HexaPosition.mk.injEq]
            omega
          · exfalso; omega

end HexaPosition

namespace HexaGrid

theorem is_connected_to_symm {g : HexaGrid} {p q : HexaPosition} {d : HexaDirection}
    (hwf : g.WF) (hp : g.is_cell p = true) (hq : g.is_cell q = true)
    (hn : p.neighbor d = some q) :
    g.is_connected_to p d = g.is_connected_to q d.reverse := by
  have hrev := HexaPosition.hexa_neighbor_reverse hn
  obtain ⟨cp, hcp⟩ := Option.isSome_iff_exists.1 (hexa_cell_isSome_of_is_cell hwf hp)
  obtain ⟨cq, hcq⟩ := Option.isSome_iff_exists.1 (hexa_cell_isSome_of_is_cell hwf hq)
  cases d
  case north =>
    simp only [HexaDirection.reverse] at hrev ⊢
    simp only [is_connected_to, hp, hq, hrev, hn, hcp, hcq, Bool.true_and]
  case south =>
    simp only [HexaDirection.reverse] at hrev ⊢
    simp only [is_connected_to, hp, hq, hrev, hn, hcp, hcq, Bool.true_and]
  case northEast =>
    simp only [HexaDirection.reverse] at hrev ⊢
    simp only [is_connected_to, hp, hq, hrev, hn, hcp, hcq, Bool.true_and]
  case southWest =>
    simp only [HexaDirection.reverse] at hrev ⊢
    simp only [is_connected_to, hp, hq, hrev, hn, hcp, hcq, Bool.true_and]
  case southEast =>
    simp only [HexaDirection.reverse] at hrev ⊢
    simp only [is_connected_to, hp, hq, hrev, hn, hcp, hcq, Bool.true_and]
  case northWest =>
    simp only [HexaDirection.reverse] at hrev ⊢
    simp only [is_connected_to, hp, hq, hrev, hn, hcp, hcq, Bool.true_and]

end HexaGrid

/-- Embeds `HexaGrid::<NoMask>::new` via the modelled storage. -/
def HexaGrid.new (width height : Nat) : HexaGrid :=
  ⟨width, height, List.replicate (width * height) default, none⟩

theorem HexaGrid.hexa_wf_new (w h : Nat) : (HexaGrid.new w h).WF := by
  constructor
  · simp [HexaGrid.new]
  · intro m hm
    simp [HexaGrid.new] at hm

/-! ## Claim C6 -/

/-- Claim C6: the connectivity query is symmetric regardless of which side
stores the canonical bit — on any well-formed rectangular grid state (in
particular any state reachable by `connect_to` calls, which preserve
well-formedness), for adjacent active `p`, `q` with `q` the neighbor of `p`
in direction `d`, `is_connect_along p d` equals `is_connect_along q
(reverse d)`; moreover connecting the pair from either side performs exactly
the same single-bit write (the resulting states are identical), so the pair
is represented by exactly one stored bit, never on both sides.  The same
query symmetry holds for the hexagonal `is_connected_to`. -/
theorem claim_C6_query_symmetry :
    (∀ (g : RectGrid), g.WF → ∀ p q d, g.neighbor_pos p d = some q →
      g.is_connect_along p d = g.is_connect_along q d.reverse ∧
      g.connect_along p d = g.connect_along q d.reverse) ∧
    (∀ (g : HexaGrid), g.WF → ∀ p q d, g.is_cell p = true → g.is_cell q = true →
      p.neighbor d = some q →
      g.is_connected_to p d = g.is_connected_to q d.reverse) :=
  ⟨fun _ hwf _ _ _ hn =>
      ⟨RectGrid.is_connect_along_symm hwf hn, RectGrid.connect_along_two_sided hwf hn⟩,
    fun _ hwf _ _ _ hp hq hn => HexaGrid.is_connected_to_symm hwf hp hq hn⟩

/-- Witness for C6 at concrete inputs: a 2×2 rectangular grid with the pair
(1,0)–(0,0) in direction North, and a 2×2 hexagonal grid with the pair
(0,0)–(1,0) in direction South. -/
theorem claim_C6_witness :
    ((RectGrid.new 2 2).is_connect_along ⟨1, 0⟩ .north
      = (RectGrid.new 2 2).is_connect_along ⟨0, 0⟩ RectDirection.north.reverse) ∧
    ((RectGrid.new 2 2).connect_along ⟨1, 0⟩ .north
      = (RectGrid.new 2 2).connect_along ⟨0, 0⟩ RectDirection.north.reverse) ∧
    ((HexaGrid.new 2 2).is_connected_to ⟨0, 0⟩ .south
      = (HexaGrid.new 2 2).is_connected_to ⟨1, 0⟩ HexaDirection.south.reverse) := by
  have h1 := claim_C6_query_symmetry.1 (RectGrid.new 2 2) (RectGrid.wf_new 2 2)
    ⟨1, 0⟩ ⟨0, 0⟩ .north (by decide)
  have h2 := claim_C6_query_symmetry.2 (HexaGrid.new 2 2) (HexaGrid.hexa_wf_new 2 2)
    ⟨0, 0⟩ ⟨1, 0⟩ .south (by decide) (by decide) (by decide)
  exact ⟨h1.1, h1.2, h2⟩

/-! ## Disjoint-set `Union`: `src/gene.rs` -/

namespace Gene

/-- Embeds `Union<T>` (src/gene.rs): the element-to-index map, the parent
array mutated through a `RefCell`, and the live set count. -/
structure Union (T : Type) [DecidableEq T] where
  ele_inds : List (T × Nat)
  set_ids : List Nat
  sets_n : Nat

namespace Union

variable {T : Type} [DecidableEq T]

/-- Embeds `Union::new`. -/
def empty : Union T := ⟨[], [], 0⟩

/-- The `HashMap` lookup `self.ele_inds.get(ele)`. -/
def ele_ind (u : Union T) (e : T) : Option Nat :=
  (u.ele_inds.find? (fun pr => pr.1 = e)).map Prod.snd

/-- Embeds `Union::add`: a known element is ignored; otherwise the element is
registered at the next index, which starts as its own singleton root, and the
set count grows by one. -/
def add (u : Union T) (e : T) : Union T :=
  if (u.ele_ind e).isSome then u
  else
    { ele_inds := u.ele_inds ++ [(e, u.ele_inds.length)],
      set_ids := u.set_ids ++ [u.ele_inds.length],
      sets_n := u.sets_n + 1 }

/-- The parent pointer read `set_ids[ind]` (an in-range read in the source;
out-of-range defaults to a self-loop, which never occurs on well-formed
states). -/
def parent (s : List Nat) (i : Nat) : Nat := s.getD i i

/-- Embeds `Union::set_id` (path-compressing root lookup through the
`RefCell`), with the recursion depth bounded by an explicit fuel; the callers
pass the array length, which suffices because parent pointers strictly
increase. Returns the root and the compressed array. -/
def set_id_aux : Nat → List Nat → Nat → Nat × List Nat
  | 0, s, ind => (ind, s)
  | fuel + 1, s, ind =>
    let p := parent s ind
    if p = ind then (ind, s)
    else
      let r := set_id_aux fuel s p
      (r.1, r.2.set ind r.1)

/-- Pure (non-compressing) root lookup; this is the partition semantics that
the compressing `set_id` is proved to compute and preserve. -/
def root_of_aux : Nat → List Nat → Nat → Nat
  | 0, _, ind => ind
  | fuel + 1, s, ind =>
    let p := parent s ind
    if p = ind then ind else root_of_aux fuel s p

/-- Pure root of an index. -/
def root_of (s : List Nat) (i : Nat) : Nat := root_of_aux s.length s i

/-- Embeds `Union::ele_set_id`. -/
def ele_set_id (u : Union T) (e : T) : Option (Nat × List Nat) :=
  (u.ele_ind e).map (fun ind => set_id_aux u.set_ids.length u.set_ids ind)

/-- Embeds `Union::merge`: unknown elements fail; equal roots fail; otherwise
the lower root is absorbed into the higher and the set count decremented.
The compressed arrays of the two lookups persist (the source compresses
through a shared `RefCell` even when `merge` returns `false`). -/
def merge (u : Union T) (e0 e1 : T) : Bool × Union T :=
  match u.ele_set_id e0 with
  | none => (false, u)
  | some (id0, s0) =>
    let u0 : Union T := { u with set_ids := s0 }
    match u0.ele_set_id e1 with
    | none => (false, u0)
    | some (id1, s1) =>
      let u1 : Union T := { u0 with set_ids := s1 }
      if id0 = id1 then (false, u1)
      else
        (true, { u1 with
          set_ids := u1.set_ids.set (min id0 id1) (max id0 id1),
          sets_n := u1.sets_n - 1 })

/-- Embeds `Union::from_iter` (`FromIterator`): add every element in order. -/
def add_all (u : Union T) (es : List T) : Union T := es.foldl add u

/-- Applies a sequence of merges, counting those that returned `true`. -/
def run_merges : Union T → List (T × T) → Nat × Union T
  | u, [] => (0, u)
  | u, pr :: ps =>
    let r := u.merge pr.1 pr.2
    let rest := run_merges r.2 ps
    ((if r.1 then 1 else 0) + rest.1, rest.2)

/-- Parent pointers never point below their index and stay in range. -/
def PB (s : List Nat) : Prop :=
  ∀ i, i < s.length → i ≤ parent s i ∧ parent s i < s.length

/-- Number of root indices. -/
def roots_n (s : List Nat) : Nat :=
  (List.range s.length).countP (fun i => parent s i = i)

end Union

end Gene

/-! ### Pure-root lemmas for the disjoint set -/

namespace Gene.Union

theorem parent_set {s : List Nat} {i : Nat} (r : Nat) (hi : i < s.length) (j : Nat) :
    parent (s.set i r) j = if j = i then r else parent s j := by
  by_cases hj : j = i
  · subst hj
    rw [if_pos rfl]
    show ((s.set j r).get? j).getD j = r
    rw [List.get?_set_eq_of_lt r hi]
    rfl
  · rw [if_neg hj]
    show ((s.set i r).get? j).getD j = (s.get? j).getD j
    rw [List.get?_set_ne r s (fun he => hj he.symm)]

theorem root_of_aux_fix {s : List Nat} {x : Nat} (h : parent s x = x) :
    ∀ f, root_of_aux f s x = x := by
  intro f
  cases f with
  | zero => rfl
  | succ f => simp [root_of_aux, h]

theorem root_of_fix {s : List Nat} {x : Nat} (h : parent s x = x) :
    root_of s x = x :=
  root_of_aux_fix h _

theorem root_of_aux_fuel {s : List Nat} (hpb : PB s) :
    ∀ f1 f2 ind, ind < s.length → s.length - ind ≤ f1 → s.length - ind ≤ f2 →
      root_of_aux f1 s ind = root_of_aux f2 s ind := by
  intro f1
  induction f1 with
  | zero =>
    intro f2 ind hi h1 h2
    omega
  | succ f ih =>
    intro f2 ind hi h1 h2
    cases f2 with
    | zero => omega
    | succ f2' =>
      simp only [root_of_aux]
      by_cases hp : parent s ind = ind
      · rw [if_pos hp, if_pos hp]
      · rw [if_neg hp, if_neg hp]
        have hb := hpb ind hi
        have hgt : ind < parent s ind := Nat.lt_of_le_of_ne hb.1 (fun he => hp he.symm)
        exact ih f2' (parent s ind) hb.2 (by omega) (by omega)

theorem root_of_aux_props {s : List Nat} (hpb : PB s) :
    ∀ fuel ind, ind < s.length → s.length - ind ≤ fuel →
      parent s (root_of_aux fuel s ind) = root_of_aux fuel s ind ∧
      ind ≤ root_of_aux fuel s ind ∧ root_of_aux fuel s ind < s.length := by
  intro fuel
  induction fuel with
  | zero =>
    intro ind hi hf
    omega
  | succ f ih =>
    intro ind hi hf
    simp only [root_of_aux]
    by_cases hp : parent s ind = ind
    · rw [if_pos hp]
      exact ⟨hp, Nat.le_refl ind, hi⟩
    · rw [if_neg hp]
      have hb := hpb ind hi
      have hgt : ind < parent s ind := Nat.lt_of_le_of_ne hb.1 (fun he => hp he.symm)
      have := ih (parent s ind) hb.2 (by omega)
      exact ⟨this.1, Nat.le_trans (Nat.le_of_lt hgt) this.2.1, this.2.2⟩

theorem root_of_props {s : List Nat} (hpb : PB s) {ind : Nat} (hi : ind < s.length) :
    parent s (root_of s ind) = root_of s ind ∧
    ind ≤ root_of s ind ∧ root_of s ind < s.length :=
  root_of_aux_props hpb s.length ind hi (by omega)

theorem root_of_step {s : List Nat} (hpb : PB s) {ind : Nat} (hi : ind < s.length)
    (hp : parent s ind ≠ ind) : root_of s ind = root_of s (parent s ind) := by
  have hb := hpb ind hi
  have hgt : ind < parent s ind := Nat.lt_of_le_of_ne hb.1 (fun he => hp he.symm)
  rw [root_of, root_of]
  obtain ⟨L, hL⟩ : ∃ L, s.length = L + 1 := ⟨s.length - 1, by omega⟩
  rw [hL]
  simp only [root_of_aux]
  rw [if_neg hp]
  exact root_of_aux_fuel hpb L (L + 1) (parent s ind) hb.2 (by omega) (by omega)

theorem root_of_gt {s : List Nat} (hpb : PB s) {ind : Nat} (hi : ind < s.length)
    (hp : parent s ind ≠ ind) : ind < root_of s ind := by
  have hb := hpb ind hi
  have hgt : ind < parent s ind := Nat.lt_of_le_of_ne hb.1 (fun he => hp he.symm)
  rw [root_of_step hpb hi hp]
  exact Nat.lt_of_lt_of_le hgt (root_of_props hpb hb.2).2.1

end Gene.Union

/-! ### Path compression preserves the partition -/

namespace Gene.Union

theorem set_root_write {s : List Nat} (hpb : PB s) {i r : Nat} (hi : i < s.length)
    (hnr : parent s i ≠ i) (hr : r = root_of s i) :
    PB (s.set i r) ∧
    (∀ j, j < s.length → root_of (s.set i r) j = root_of s j) ∧
    (∀ j, j < s.length → (parent (s.set i r) j = j ↔ parent s j = j)) := by
  have hgt : i < root_of s i := root_of_gt hpb hi hnr
  have hprops := root_of_props hpb hi
  have hir : i < r := hr ▸ hgt
  have hrlen : r < s.length := hr ▸ hprops.2.2
  have hrfix : parent s r = r := hr ▸ hprops.1
  have key : ∀ fuel j, j < s.length → s.length - j ≤ fuel →
      root_of_aux fuel (s.set i r) j = root_of s j := by
    intro fuel
    induction fuel with
    | zero => intro j hj hf; omega
    | succ f ih =>
      intro j hj hf
      by_cases hji : j = i
      · subst hji
        have hpj : parent (s.set j r) j = r := by rw [parent_set r hi j, if_pos rfl]
        simp only [root_of_aux, hpj]
        rw [if_neg (by omega : ¬r = j)]
        have hpr : parent (s.set j r) r = r := by
          rw [parent_set r hi r, if_neg (by omega : ¬r = j)]
          exact hrfix
        rw [root_of_aux_fix hpr f]
        exact hr
      · have hpj : parent (s.set i r) j = parent s j := by
          rw [parent_set r hi j, if_neg hji]
        simp only [root_of_aux, hpj]
        by_cases hp : parent s j = j
        · rw [if_pos hp, root_of_fix hp]
        · rw [if_neg hp]
          have hb := hpb j hj
          have hgt' : j < parent s j := Nat.lt_of_le_of_ne hb.1 (fun he => hp he.symm)
          rw [ih (parent s j) hb.2 (by omega)]
          exact (root_of_step hpb hj hp).symm
  refine ⟨?_, ?_, ?_⟩
  · intro j hj
    rw [List.length_set] at hj
    rw [parent_set r hi j]
    by_cases hji : j = i
    · rw [if_pos hji, List.length_set]
      subst hji
      exact ⟨Nat.le_of_lt hir, hrlen⟩
    · rw [if_neg hji, List.length_set]
      exact hpb j hj
  · intro j hj
    rw [root_of, List.length_set]
    exact key s.length j hj (by omega)
  · intro j hj
    rw [parent_set r hi j]
    by_cases hji : j = i
    · subst hji
      rw [if_pos rfl]
      constructor
      · intro he; omega
      · intro he; exact absurd he hnr
    · rw [if_neg hji]

theorem set_id_aux_spec {s : List Nat} (hpb : PB s) :
    ∀ fuel ind, ind < s.length → s.length - ind ≤ fuel →
      (set_id_aux fuel s ind).1 = root_of s ind ∧
      (set_id_aux fuel s ind).2.length = s.length ∧
      PB (set_id_aux fuel s ind).2 ∧
      (∀ j, j < s.length → root_of (set_id_aux fuel s ind).2 j = root_of s j) ∧
      (∀ j, j < s.length → (parent (set_id_aux fuel s ind).2 j = j ↔ parent s j = j)) ∧
      (∀ j, j < ind → parent (set_id_aux fuel s ind).2 j = parent s j) := by
  intro fuel
  induction fuel with
  | zero => intro ind hi hf; omega
  | succ f ih =>
    intro ind hi hf
    by_cases hp : parent s ind = ind
    · have hres : set_id_aux (f + 1) s ind = (ind, s) := by
        simp [set_id_aux, hp]
      rw [hres]
      exact ⟨(root_of_fix hp).symm, rfl, hpb, fun j _ => rfl, fun j _ => Iff.rfl,
        fun j _ => rfl⟩
    · have hb := hpb ind hi
      have hgt : ind < parent s ind := Nat.lt_of_le_of_ne hb.1 (fun he => hp he.symm)
      obtain ⟨ih1, ih2, ih3, ih4, ih5, ih6⟩ := ih (parent s ind) hb.2 (by omega)
      have hres : set_id_aux (f + 1) s ind =
          ((set_id_aux f s (parent s ind)).1,
            (set_id_aux f s (parent s ind)).2.set ind (set_id_aux f s (parent s ind)).1) := by
        simp [set_id_aux, hp]
      rw [hres]
      set s₁ := (set_id_aux f s (parent s ind)).2 with hs₁
      set r := (set_id_aux f s (parent s ind)).1 with hrdef
      have hr_root : r = root_of s ind := by
        rw [ih1, root_of_step hpb hi hp]
      have hi₁ : ind < s₁.length := by rw [ih2]; exact hi
      have hp₁ : parent s₁ ind = parent s ind := ih6 ind hgt
      have hnr₁ : parent s₁ ind ≠ ind := by rw [hp₁]; exact hp
      have hr₁ : r = root_of s₁ ind := by
        rw [hr_root, ih4 ind hi]
      obtain ⟨w1, w2, w3⟩ := set_root_write ih3 hi₁ hnr₁ hr₁
      refine ⟨hr_root, ?_, ?_, ?_, ?_, ?_⟩
      · rw [List.length_set, ih2]
      · exact w1
      · intro j hj
        rw [w2 j (by rw [ih2]; exact hj), ih4 j hj]
      · intro j hj
        rw [w3 j (by rw [ih2]; exact hj), ih5 j hj]
      · intro j hj
        rw [parent_set r hi₁ j, if_neg (by omega : ¬j = ind)]
        exact ih6 j (by omega)
end Gene.Union

/-! ### Root counting -/

namespace Gene.Union

theorem roots_n_congr {s' s : List Nat} (hlen : s'.length = s.length)
    (hiff : ∀ j, j < s.length → (parent s' j = j ↔ parent s j = j)) :
    roots_n s' = roots_n s := by
  rw [roots_n, roots_n, hlen]
  apply List.countP_congr
  intro j hj
  have hjlt : j < s.length := List.mem_range.1 hj
  simpa using hiff j hjlt

theorem countP_range_diff {n i : Nat} (hi : i < n) {p q : Nat → Bool}
    (hne : ∀ j, j < n → j ≠ i → p j = q j) (hpi : p i = true) (hqi : q i = false) :
    (List.range n).countP q + 1 = (List.range n).countP p := by
  induction n with
  | zero => omega
  | succ m ih =>
    rw [List.range_succ, List.countP_append, List.countP_append]
    by_cases him : i = m
    · subst him
      have hcongr : (List.range i).countP q = (List.range i).countP p := by
        apply List.countP_congr
        intro j hj
        have hjlt : j < i := List.mem_range.1 hj
        rw [hne j (by omega) (by omega)]
      simp only [List.countP_cons, List.countP_nil]
      rw [hcongr, hpi, hqi]
      simp
    · have hi' : i < m := by omega
      have hm := hne m (by omega) (fun he => him he.symm)
      have := ih hi' (fun j hj hji => hne j (by omega) hji)
      simp only [List.countP_cons, List.countP_nil, hm]
      omega

theorem roots_n_set_nonroot {s : List Nat} {i t : Nat} (hi : i < s.length)
    (hroot : parent s i = i) (hne : t ≠ i) :
    roots_n (s.set i t) + 1 = roots_n s := by
  rw [roots_n, roots_n, List.length_set]
  apply countP_range_diff hi
  · intro j hj hji
    simp only [decide_eq_decide]
    rw [parent_set t hi j, if_neg hji]
  · simp [hroot]
  · simp only [decide_eq_false_iff_not]
    rw [parent_set t hi i, if_pos rfl]
    exact hne

theorem parent_append_lt {s : List Nat} {v j : Nat} (hj : j < s.length) :
    parent (s ++ [v]) j = parent s j := by
  show ((s ++ [v]).get? j).getD j = (s.get? j).getD j
  rw [List.get?_append hj]

theorem parent_append_self (s : List Nat) :
    parent (s ++ [s.length]) s.length = s.length := by
  show ((s ++ [s.length]).get? s.length).getD s.length = s.length
  have : (s ++ [s.length]).get? s.length = some s.length := by
    rw [List.get?_append_right (Nat.le_refl _)]
    simp
  rw [this]
  rfl

theorem pb_append_root {s : List Nat} (hpb : PB s) : PB (s ++ [s.length]) := by
  intro i hi
  rw [List.length_append, List.length_singleton] at hi
  by_cases his : i < s.length
  · rw [parent_append_lt his]
    have := hpb i his
    constructor
    · exact this.1
    · rw [List.length_append, List.length_singleton]
      omega
  · have : i = s.length := by omega
    subst this
    rw [parent_append_self]
    constructor
    · exact Nat.le_refl _
    · rw [List.length_append, List.length_singleton]
      omega

theorem roots_n_append_root {s : List Nat} :
    roots_n (s ++ [s.length]) = roots_n s + 1 := by
  rw [roots_n, roots_n, List.length_append, List.length_singleton,
    List.range_succ, List.countP_append]
  have h1 : (List.range s.length).countP
      (fun i => decide (parent (s ++ [s.length]) i = i)) =
      (List.range s.length).countP (fun i => decide (parent s i = i)) := by
    apply List.countP_congr
    intro j hj
    have hjlt : j < s.length := List.mem_range.1 hj
    rw [parent_append_lt hjlt]
  rw [h1]
  have h2 : List.countP (fun i => decide (parent (s ++ [s.length]) i = i)) [s.length] = 1 := by
    simp [List.countP_cons, parent_append_self]
  rw [h2]

end Gene.Union

/-! ### The union invariant and the merge bookkeeping -/

namespace Gene.Union

variable {T : Type} [DecidableEq T]

/-- State invariant established by construction and preserved by `add` and
`merge`: parent array and element map have equal length, parent pointers
point upward and in range, `sets_n` counts the roots, and registered indices
are in range. -/
structure Inv (u : Union T) : Prop where
  len_eq : u.set_ids.length = u.ele_inds.length
  pb : PB u.set_ids
  count : u.sets_n = roots_n u.set_ids
  ind_lt : ∀ pr ∈ u.ele_inds, pr.2 < u.ele_inds.length

theorem inv_empty : Inv (empty (T := T)) := by
  refine ⟨rfl, ?_, ?_, ?_⟩
  · intro i hi
    simp [empty] at hi
  · simp [empty, roots_n]
  · intro pr hpr
    simp [empty] at hpr

theorem ele_ind_lt {u : Union T} (hinv : Inv u) {e : T} {i : Nat}
    (h : u.ele_ind e = some i) : i < u.set_ids.length := by
  rw [ele_ind] at h
  cases hf : u.ele_inds.find? (fun pr => pr.1 = e) with
  | none => rw [hf] at h; simp at h
  | some pr =>
    rw [hf] at h
    have hmem := List.mem_of_find?_eq_some hf
    have := hinv.ind_lt pr hmem
    rw [hinv.len_eq]
    cases h
    exact this

theorem ele_ind_add_ne {u : Union T} {e e' : T} (hne : e' ≠ e) :
    (u.add e).ele_ind e' = u.ele_ind e' := by
  rw [add]
  split
  · rfl
  · rw [ele_ind, ele_ind]
    show ((u.ele_inds ++ [(e, u.ele_inds.length)]).find? (fun pr => pr.1 = e')).map
      Prod.snd = _
    rw [List.find?_append]
    cases hf : u.ele_inds.find? (fun pr => pr.1 = e') with
    | some pr => simp
    | none =>
      simp only [Option.none_or]
      have : ((e, u.ele_inds.length)).1 ≠ e' := fun he => hne he.symm
      simp [List.find?, this]

theorem add_inv {u : Union T} (hinv : Inv u) (e : T) :
    Inv (u.add e) ∧
      ((u.ele_ind e).isSome = true → u.add e = u) ∧
      (u.ele_ind e = none → (u.add e).sets_n = u.sets_n + 1 ∧
        (u.add e).ele_inds.length = u.ele_inds.length + 1) := by
  rw [add]
  by_cases hk : (u.ele_ind e).isSome = true
  · rw [if_pos hk]
    exact ⟨hinv, fun _ => rfl, fun hn => by rw [hn] at hk; simp at hk⟩
  · rw [if_neg hk]
    have hlen : u.ele_inds.length = u.set_ids.length := hinv.len_eq.symm
    refine ⟨⟨?_, ?_, ?_, ?_⟩, fun hs => absurd hs hk, fun _ => by simp⟩
    · simp [hinv.len_eq]
    · show PB (u.set_ids ++ [u.ele_inds.length])
      rw [hlen]
      exact pb_append_root hinv.pb
    · show u.sets_n + 1 = roots_n (u.set_ids ++ [u.ele_inds.length])
      rw [hlen, roots_n_append_root, hinv.count]
    · intro pr hpr
      simp only [List.length_append, List.length_singleton]
      rcases List.mem_append.1 hpr with hm | hm
      · have := hinv.ind_lt pr hm
        omega
      · simp at hm
        rw [hm]
        simp

theorem add_all_spec {es : List T} :
    ∀ {u : Union T}, Inv u → es.Nodup → (∀ e ∈ es, u.ele_ind e = none) →
      Inv (add_all u es) ∧ (add_all u es).sets_n = u.sets_n + es.length := by
  induction es with
  | nil => intro u hinv _ _; exact ⟨hinv, rfl⟩
  | cons e es ih =>
    intro u hinv hnd hfresh
    have hfe : u.ele_ind e = none := hfresh e (List.mem_cons_self e es)
    obtain ⟨hinv', -, hcount⟩ := add_inv hinv e
    obtain ⟨hc1, hc2⟩ := hcount hfe
    have hfresh' : ∀ e' ∈ es, (u.add e).ele_ind e' = none := by
      intro e' he'
      have hne : e' ≠ e := by
        intro he
        subst he
        exact (List.nodup_cons.1 hnd).1 he'
      rw [ele_ind_add_ne hne]
      exact hfresh e' (List.mem_cons_of_mem e he')
    have hnd' : es.Nodup := (List.nodup_cons.1 hnd).2
    obtain ⟨hi, hs⟩ := ih hinv' hnd' hfresh'
    refine ⟨hi, ?_⟩
    show (add_all (u.add e) es).sets_n = u.sets_n + (es.length + 1)
    rw [hs, hc1]
    omega

end Gene.Union

/-! ### Closed forms of `merge` and the merge bookkeeping -/

namespace Gene.Union

variable {T : Type} [DecidableEq T]

theorem ele_ind_set_ids (u : Union T) (x : List Nat) (n : Nat) (e : T) :
    (Union.mk u.ele_inds x n).ele_ind e = u.ele_ind e := rfl

theorem merge_eq_unknown0 {u : Union T} {e0 e1 : T} (h : u.ele_ind e0 = none) :
    u.merge e0 e1 = (false, u) := by
  simp only [merge, ele_set_id, h, Option.map_none']

theorem merge_eq_unknown1 {u : Union T} {e0 e1 : T} {ind0 : Nat}
    (h0 : u.ele_ind e0 = some ind0) (h1 : u.ele_ind e1 = none) :
    u.merge e0 e1 =
      (false, { u with set_ids := (set_id_aux u.set_ids.length u.set_ids ind0).2 }) := by
  simp only [merge, ele_set_id, ele_ind_set_ids, h0, h1, Option.map_some',
    Option.map_none']

theorem merge_eq_known {u : Union T} {e0 e1 : T} {ind0 ind1 : Nat}
    (h0 : u.ele_ind e0 = some ind0) (h1 : u.ele_ind e1 = some ind1) :
    u.merge e0 e1 =
      (if (set_id_aux u.set_ids.length u.set_ids ind0).1 =
          (set_id_aux (set_id_aux u.set_ids.length u.set_ids ind0).2.length
            (set_id_aux u.set_ids.length u.set_ids ind0).2 ind1).1 then
        (false, { u with
          set_ids := (set_id_aux (set_id_aux u.set_ids.length u.set_ids ind0).2.length
            (set_id_aux u.set_ids.length u.set_ids ind0).2 ind1).2 })
      else
        (true, { u with
          set_ids :=
            ((set_id_aux (set_id_aux u.set_ids.length u.set_ids ind0).2.length
              (set_id_aux u.set_ids.length u.set_ids ind0).2 ind1).2).set
              (min (set_id_aux u.set_ids.length u.set_ids ind0).1
                (set_id_aux (set_id_aux u.set_ids.length u.set_ids ind0).2.length
                  (set_id_aux u.set_ids.length u.set_ids ind0).2 ind1).1)
              (max (set_id_aux u.set_ids.length u.set_ids ind0).1
                (set_id_aux (set_id_aux u.set_ids.length u.set_ids ind0).2.length
                  (set_id_aux u.set_ids.length u.set_ids ind0).2 ind1).1),
          sets_n := u.sets_n - 1 })) := by
  simp only [merge, ele_set_id, ele_ind_set_ids, h0, h1, Option.map_some']

end Gene.Union

namespace Gene.Union

variable {T : Type} [DecidableEq T]

theorem merge_spec {u : Union T} (hinv : Inv u) (e0 e1 : T) :
    Inv (u.merge e0 e1).2 ∧
    (u.merge e0 e1).2.ele_inds = u.ele_inds ∧
    ((u.merge e0 e1).1 = true → (u.merge e0 e1).2.sets_n + 1 = u.sets_n) ∧
    ((u.merge e0 e1).1 = false → (u.merge e0 e1).2.sets_n = u.sets_n) ∧
    ((u.merge e0 e1).1 = true ↔
      ∃ i0 i1, u.ele_ind e0 = some i0 ∧ u.ele_ind e1 = some i1 ∧
        root_of u.set_ids i0 ≠ root_of u.set_ids i1) := by
  cases he0 : u.ele_ind e0 with
  | none =>
    rw [merge_eq_unknown0 he0]
    refine ⟨hinv, rfl, by simp, fun _ => rfl, ?_⟩
    constructor
    · intro ht
      simp at ht
    · rintro ⟨i0, i1, hi0, -, -⟩
      exact absurd hi0 (by simp)
  | some ind0 =>
    have hind0 := ele_ind_lt hinv he0
    obtain ⟨sp1, sp2, sp3, sp4, sp5, sp6⟩ :=
      set_id_aux_spec hinv.pb u.set_ids.length ind0 hind0 (by omega)
    cases he1 : u.ele_ind e1 with
    | none =>
      rw [merge_eq_unknown1 he0 he1]
      set A := set_id_aux u.set_ids.length u.set_ids ind0 with hA
      refine ⟨⟨sp2.trans hinv.len_eq, sp3, ?_, hinv.ind_lt⟩, rfl, by simp,
        fun _ => rfl, ?_⟩
      · show u.sets_n = roots_n A.2
        rw [hinv.count]
        exact (roots_n_congr sp2 sp5).symm
      · constructor
        · intro ht
          simp at ht
        · rintro ⟨i0, i1, -, hi1, -⟩
          exact absurd hi1 (by simp)
    | some ind1 =>
      have hind1u : ind1 < u.set_ids.length := ele_ind_lt hinv he1
      rw [merge_eq_known he0 he1]
      set A := set_id_aux u.set_ids.length u.set_ids ind0 with hA
      have hind1 : ind1 < A.2.length := by
        rw [sp2]
        exact hind1u
      obtain ⟨sq1, sq2, sq3, sq4, sq5, sq6⟩ :=
        set_id_aux_spec sp3 A.2.length ind1 hind1 (by omega)
      set B := set_id_aux A.2.length A.2 ind1 with hB
      have hid0 : A.1 = root_of u.set_ids ind0 := sp1
      have hid1 : B.1 = root_of u.set_ids ind1 := by
        rw [sq1, sp4 ind1 hind1u]
      have hid0lt : A.1 < u.set_ids.length := by
        rw [hid0]
        exact (root_of_props hinv.pb hind0).2.2
      have hid1lt : B.1 < u.set_ids.length := by
        rw [hid1]
        exact (root_of_props hinv.pb hind1u).2.2
      have hroot0 : parent B.2 A.1 = A.1 := by
        rw [sq5 A.1 (by rw [sp2]; exact hid0lt), sp5 A.1 hid0lt, hid0]
        exact (root_of_props hinv.pb hind0).1
      have hroot1 : parent B.2 B.1 = B.1 := by
        rw [sq5 B.1 (by rw [sp2]; exact hid1lt), sp5 B.1 hid1lt, hid1]
        exact (root_of_props hinv.pb hind1u).1
      have hlenB : B.2.length = u.set_ids.length := sq2.trans sp2
      have hrootsB : roots_n B.2 = roots_n u.set_ids := by
        have h1 : roots_n B.2 = roots_n A.2 := roots_n_congr sq2 sq5
        have h2 : roots_n A.2 = roots_n u.set_ids := roots_n_congr sp2 sp5
        exact h1.trans h2
      by_cases heq : A.1 = B.1
      · rw [if_pos heq]
        refine ⟨⟨hlenB.trans hinv.len_eq, sq3, ?_, hinv.ind_lt⟩, rfl, by simp,
          fun _ => rfl, ?_⟩
        · show u.sets_n = roots_n B.2
          rw [hinv.count, hrootsB]
        · constructor
          · intro ht
            simp at ht
          · rintro ⟨i0, i1, hi0, hi1, hne⟩
            obtain rfl : ind0 = i0 := Option.some.inj hi0
            obtain rfl : ind1 = i1 := Option.some.inj hi1
            rw [← hid0, ← hid1] at hne
            exact absurd heq hne
      · rw [if_neg heq]
        have hminmax : min A.1 B.1 < max A.1 B.1 := by omega
        have hminlt : min A.1 B.1 < B.2.length := by
          rw [hlenB]
          omega
        have hminroot : parent B.2 (min A.1 B.1) = min A.1 B.1 := by
          by_cases hab : A.1 ≤ B.1
          · rw [Nat.min_eq_left hab]
            exact hroot0
          · rw [Nat.min_eq_right (Nat.le_of_not_le hab)]
            exact hroot1
        have hcnt : roots_n (B.2.set (min A.1 B.1) (max A.1 B.1)) + 1 = roots_n B.2 :=
          roots_n_set_nonroot hminlt hminroot (by omega)
        have hpos : 0 < roots_n B.2 := by
          rw [roots_n, List.countP_pos]
          exact ⟨min A.1 B.1, List.mem_range.2 hminlt, by simp [hminroot]⟩
        have hsets : u.sets_n = roots_n B.2 := by rw [hinv.count, hrootsB]
        refine ⟨⟨?_, ?_, ?_, hinv.ind_lt⟩, rfl, ?_, ?_, ?_⟩
        · show (B.2.set _ _).length = u.ele_inds.length
          rw [List.length_set, hlenB, hinv.len_eq]
        · show PB (B.2.set (min A.1 B.1) (max A.1 B.1))
          intro j hj
          rw [List.length_set] at hj
          rw [parent_set _ hminlt j]
          by_cases hjm : j = min A.1 B.1
          · rw [if_pos hjm, List.length_set]
            subst hjm
            constructor
            · omega
            · rw [hlenB]
              omega
          · rw [if_neg hjm, List.length_set]
            exact sq3 j hj
        · show u.sets_n - 1 = roots_n (B.2.set (min A.1 B.1) (max A.1 B.1))
          omega
        · intro ht
          show u.sets_n - 1 + 1 = u.sets_n
          omega
        · intro hf
          simp at hf
        · constructor
          · rintro -
            exact ⟨ind0, ind1, rfl, rfl, by rw [← hid0, ← hid1]; exact heq⟩
          · rintro -
            rfl

end Gene.Union

namespace Gene.Union

variable {T : Type} [DecidableEq T]

theorem run_merges_spec :
    ∀ (ps : List (T × T)) {u : Union T}, Inv u →
      (run_merges u ps).2.sets_n + (run_merges u ps).1 = u.sets_n ∧
        Inv (run_merges u ps).2 := by
  intro ps
  induction ps with
  | nil =>
    intro u hinv
    exact ⟨rfl, hinv⟩
  | cons pr ps ih =>
    intro u hinv
    obtain ⟨mi, -, mt, mf, -⟩ := merge_spec hinv pr.1 pr.2
    obtain ⟨ihs, ihinv⟩ := ih mi
    constructor
    · by_cases hb : (u.merge pr.1 pr.2).1 = true
      · have hdec := mt hb
        simp only [run_merges, hb, if_true]
        omega
      · have hb' : (u.merge pr.1 pr.2).1 = false := by
          simpa using hb
        have hkeep := mf hb'
        simp only [run_merges, hb']
        simp only [Bool.false_eq_true, if_false]
        omega
    · exact ihinv

end Gene.Union

/-! ## Claim C3 -/

/-- Claim C3: after adding `n` distinct elements and performing any sequence
of merge calls, `sets_n` equals `n` minus the number of merges that returned
`true` (stated additively: remaining sets plus successful merges equal `n`);
at the resulting state, a further `merge a b` returns `true` exactly when both
elements are known and their roots differ — so it returns `false` and leaves
`sets_n` unchanged whenever the elements are already in the same set or one
was never added — and every merge that returns `true` decrements `sets_n` by
exactly one. -/
theorem claim_C3_disjoint_set_bookkeeping {T : Type} [DecidableEq T]
    (es : List T) (hnd : es.Nodup) (ps : List (T × T)) :
    ((Gene.Union.run_merges (Gene.Union.add_all Gene.Union.empty es) ps).2.sets_n +
      (Gene.Union.run_merges (Gene.Union.add_all Gene.Union.empty es) ps).1 =
        es.length) ∧
    (∀ a b : T,
      (((Gene.Union.run_merges (Gene.Union.add_all Gene.Union.empty es) ps).2.merge
          a b).1 = true ↔
        ∃ i0 i1,
          (Gene.Union.run_merges (Gene.Union.add_all Gene.Union.empty es)
            ps).2.ele_ind a = some i0 ∧
          (Gene.Union.run_merges (Gene.Union.add_all Gene.Union.empty es)
            ps).2.ele_ind b = some i1 ∧
          Gene.Union.root_of
            (Gene.Union.run_merges (Gene.Union.add_all Gene.Union.empty es)
              ps).2.set_ids i0 ≠
          Gene.Union.root_of
            (Gene.Union.run_merges (Gene.Union.add_all Gene.Union.empty es)
              ps).2.set_ids i1) ∧
      (((Gene.Union.run_merges (Gene.Union.add_all Gene.Union.empty es) ps).2.merge
          a b).1 = false →
        ((Gene.Union.run_merges (Gene.Union.add_all Gene.Union.empty es) ps).2.merge
          a b).2.sets_n =
        (Gene.Union.run_merges (Gene.Union.add_all Gene.Union.empty es)
          ps).2.sets_n) ∧
      (((Gene.Union.run_merges (Gene.Union.add_all Gene.Union.empty es) ps).2.merge
          a b).1 = true →
        ((Gene.Union.run_merges (Gene.Union.add_all Gene.Union.empty es) ps).2.merge
          a b).2.sets_n + 1 =
        (Gene.Union.run_merges (Gene.Union.add_all Gene.Union.empty es)
          ps).2.sets_n)) := by
  obtain ⟨hinv0, hcount0⟩ :=
    Gene.Union.add_all_spec Gene.Union.inv_empty hnd (fun e _ => rfl)
  obtain ⟨hrs, hrinv⟩ := Gene.Union.run_merges_spec ps hinv0
  constructor
  · rw [hrs, hcount0]
    show 0 + es.length = es.length
    omega
  · intro a b
    obtain ⟨-, -, mt, mf, miff⟩ := Gene.Union.merge_spec hrinv a b
    exact ⟨miff, mf, mt⟩

/-- Witness for C3: three distinct elements, one repeated merge and one
fresh merge; the final set count plus the successful merges equal three. -/
theorem claim_C3_witness :
    (Gene.Union.run_merges (Gene.Union.add_all Gene.Union.empty [0, 1, 2])
      [(0, 1), (0, 1), (1, 2)]).2.sets_n +
    (Gene.Union.run_merges (Gene.Union.add_all Gene.Union.empty [0, 1, 2])
      [(0, 1), (0, 1), (1, 2)]).1 = 3 :=
  (claim_C3_disjoint_set_bookkeeping [0, 1, 2] (by decide)
    [(0, 1), (0, 1), (1, 2)]).1

/-! ## Ring (circular) topology: `src/maze/circ.rs` -/

/-- Embeds `CircDirection` (src/maze/circ.rs). -/
inductive CircDirection where
  | inward
  | clockwise
  | counterclockwise
  | outward
deriving DecidableEq, Repr

/-- Embeds `CircPosition` (src/maze/circ.rs): ring index and cell index. -/
structure CircPosition where
  ring : Nat
  cell : Nat
deriving DecidableEq, Repr

/-- Embeds `CircCell` (src/maze/circ.rs). -/
structure CircCell where
  is_connect_inward : Bool
  is_connect_clockwise : Bool
deriving DecidableEq, Repr

instance : Inhabited CircCell := ⟨⟨false, false⟩⟩

/-- The rounded ring ratio `(2·π·k / last).round()` of `CircGrid::make_rings`,
computed exactly: the `f32` constant `consts::PI` equals 13176795/4194304,
and rounding half away from zero of the positive value `2·(13176795/4194304)·k
/ last` equals the integer division below. The source computes this in `f32`;
at the magnitudes involved the intermediate `f32` roundings cannot move a
value across a rounding boundary, so the rounded integer ratios coincide
(the repository's own `test_grid_make_rings` pins the same values). -/
def ring_ratio (k last : Nat) : Nat :=
  (4 * 13176795 * k + 4194304 * last) / (2 * 4194304 * last)

/-- Cell count of ring `k` as computed by `CircGrid::make_rings`: ring 0 has
one cell, and each further ring multiplies the previous count by the rounded
ratio `round(2π·k / previous)` so the arc length stays near-constant. -/
def ring_size : Nat → Nat
  | 0 => 1
  | k + 1 => ring_size k * ring_ratio (k + 1) (ring_size k)

/-- Running prefix sums, mirroring the accumulation loop of `make_rings`. -/
def prefix_sums : List Nat → Nat → List Nat
  | [], _ => []
  | x :: xs, acc => (acc + x) :: prefix_sums xs (acc + x)

/-- Embeds the `rings_end_ind` array produced by `CircGrid::make_rings`:
per-ring cell counts accumulated into cumulative boundaries. -/
def make_rings_end_inds (rings_n : Nat) : List Nat :=
  prefix_sums ((List.range rings_n).map ring_size) 0

/-- Embeds `CircGrid` (src/maze/circ.rs). -/
structure CircGrid where
  rings_n : Nat
  ring_end_inds : List Nat
  cells : List CircCell
deriving DecidableEq, Repr

namespace CircGrid

/-- First cell index of a ring: the previous ring's cumulative boundary
(`ring.checked_sub(1) ... unwrap_or(0)` in the source). -/
def ring_start (g : CircGrid) (r : Nat) : Nat :=
  match r with
  | 0 => 0
  | r' + 1 => g.ring_end_inds.getD r' 0

/-- Embeds `CircGrid::new`. -/
def new (rings_n : Nat) : CircGrid :=
  ⟨rings_n, make_rings_end_inds rings_n,
    List.replicate ((make_rings_end_inds rings_n).getLast?.getD 0) default⟩

/-- Embeds `CircGrid::cells_n` (the `Grid2d` implementation): the last
cumulative boundary, or 0 for no rings. -/
def cells_n (g : CircGrid) : Nat := g.ring_end_inds.getLast?.getD 0

/-- Embeds `CircGrid::ring_cells_n`: the boundary at `ring` minus the
boundary below it. -/
def ring_cells_n (g : CircGrid) (ring : Nat) : Option Nat :=
  (g.ring_end_inds.get? ring).map (fun ring_end => ring_end - g.ring_start ring)

/-- Embeds `CircGrid::pos_to_ind`. -/
def pos_to_ind (g : CircGrid) (p : CircPosition) : Option Nat :=
  if g.rings_n ≤ p.ring then none
  else if g.ring_start p.ring + p.cell < g.ring_end_inds.getD p.ring 0 then
    some (g.ring_start p.ring + p.cell)
  else none

/-- Embeds `CircGrid::ind_to_pos`. The source runs `binary_search` on the
strictly increasing boundary array; on such an array `Ok(j)` (a boundary
equal to `ind`) yields ring `j+1` and `Err(r)` yields the insertion point
`r`, and in both cases the chosen ring equals the number of boundaries that
are `≤ ind`, which is how the search is embedded here. -/
def ind_to_pos (g : CircGrid) (ind : Nat) : Option CircPosition :=
  if g.cells.length ≤ ind then none
  else
    let ring := g.ring_end_inds.countP (fun e => e ≤ ind)
    some ⟨ring, ind - g.ring_start ring⟩

/-- Embeds `CircGrid::neighbor_pos_iter`, with the yielded iterator
materialised as a list: one inward neighbor via the integer ratio for rings
above 0, one clockwise/counterclockwise neighbor for rings above 0, and a
ratio-sized range of outward neighbors when an outer ring exists. -/
def neighbor_list (g : CircGrid) (p : CircPosition) (d : CircDirection) :
    List CircPosition :=
  if (g.pos_to_ind p).isSome then
    match g.ring_cells_n p.ring with
    | none => []
    | some rc =>
      let last_rc :=
        match p.ring with
        | 0 => 0
        | r + 1 => (g.ring_cells_n r).getD 0
      match d with
      | .inward =>
        if 0 < p.ring then
          [⟨p.ring - 1, if last_rc < rc then p.cell / (rc / last_rc) else p.cell⟩]
        else []
      | .clockwise =>
        if 0 < p.ring then [⟨p.ring, (p.cell + 1) % rc⟩] else []
      | .counterclockwise =>
        if 0 < p.ring then [⟨p.ring, (p.cell + rc - 1) % rc⟩] else []
      | .outward =>
        match g.ring_cells_n (p.ring + 1) with
        | some next_rc =>
          (List.range (next_rc / rc)).map
            (fun i => ⟨p.ring + 1, p.cell * (next_rc / rc) + i⟩)
        | none => []
  else []

/-- Embeds `CircGrid::random_cell_pos` (the `Grid2d` implementation):
`(0..cells_n).choose(rng)` is `None` exactly on an empty range, and the
chosen index is converted through `ind_to_pos`. -/
def random_cell_pos (g : CircGrid) (oracle : Nat) : Option CircPosition :=
  if g.cells_n = 0 then none
  else g.ind_to_pos (oracle % g.cells_n)

end CircGrid

/-! ## Claim C7 -/

/-- Claim C7: a circular grid with 7 rings has per-ring cell counts exactly
[1, 6, 12, 24, 24, 24, 48], cumulative ring boundaries exactly
[1, 7, 19, 43, 67, 91, 139], and therefore 139 cells in total. -/
theorem claim_C7_seven_ring_counts :
    make_rings_end_inds 7 = [1, 7, 19, 43, 67, 91, 139] ∧
    (CircGrid.new 7).ring_end_inds = [1, 7, 19, 43, 67, 91, 139] ∧
    (List.range 7).map (fun r => (CircGrid.new 7).ring_cells_n r) =
      [some 1, some 6, some 12, some 24, some 24, some 24, some 48] ∧
    (CircGrid.new 7).cells_n = 139 := by
  refine ⟨by decide, by decide, by decide, by decide⟩

/-! ### Ring-size invariant of the circular grid -/

namespace CircGrid

/-- Cell count of a ring, as a total function. -/
def sz (g : CircGrid) (r : Nat) : Nat :=
  g.ring_end_inds.getD r 0 - g.ring_start r

/-- Structural invariant of the boundary array established by `make_rings`
whenever every rounded ratio is at least 1 (as for the shipped ring counts):
one boundary per ring, every ring nonempty, and each ring's cell count an
exact multiple of the previous ring's. -/
def WFsizes (g : CircGrid) : Prop :=
  g.ring_end_inds.length = g.rings_n ∧
  ∀ r, r < g.rings_n →
    0 < g.sz r ∧ (r + 1 < g.rings_n → g.sz r ∣ g.sz (r + 1))

theorem ring_cells_n_eq {g : CircGrid} (hlen : g.ring_end_inds.length = g.rings_n)
    {r : Nat} (hr : r < g.rings_n) : g.ring_cells_n r = some (g.sz r) := by
  have hrlen : r < g.ring_end_inds.length := by rw [hlen]; exact hr
  rw [ring_cells_n, List.get?_eq_get hrlen, Option.map_some']
  have hgetD : g.ring_end_inds.getD r 0 = g.ring_end_inds.get ⟨r, hrlen⟩ := by
    show (g.ring_end_inds.get? r).getD 0 = _
    rw [List.get?_eq_get hrlen]
    rfl
  rw [sz, hgetD]

theorem end_eq {g : CircGrid} (hwf : g.WFsizes) {r : Nat} (hr : r < g.rings_n) :
    g.ring_end_inds.getD r 0 = g.ring_start r + g.sz r := by
  have hpos := (hwf.2 r hr).1
  rw [sz] at hpos ⊢
  omega

theorem pos_valid_iff {g : CircGrid} (hwf : g.WFsizes) (p : CircPosition) :
    (g.pos_to_ind p).isSome = true ↔ p.ring < g.rings_n ∧ p.cell < g.sz p.ring := by
  rw [pos_to_ind]
  by_cases hr : g.rings_n ≤ p.ring
  · rw [if_pos hr]
    constructor
    · intro h
      simp at h
    · rintro ⟨h1, -⟩
      exact absurd h1 (by omega)
  · rw [if_neg hr]
    have hrlt : p.ring < g.rings_n := by omega
    rw [end_eq hwf hrlt]
    by_cases hc : g.ring_start p.ring + p.cell < g.ring_start p.ring + g.sz p.ring
    · rw [if_pos hc]
      simp only [Option.isSome_some, true_iff]
      omega
    · rw [if_neg hc]
      constructor
      · intro h
        simp at h
      · rintro ⟨-, h2⟩
        exact absurd h2 (by omega)

theorem inward_eq {g : CircGrid} (hwf : g.WFsizes) {p : CircPosition}
    (hp : (g.pos_to_ind p).isSome = true) (hr : 0 < p.ring) :
    g.neighbor_list p .inward =
      [⟨p.ring - 1, p.cell / (g.sz p.ring / g.sz (p.ring - 1))⟩] := by
  obtain ⟨hring, hcell⟩ := (pos_valid_iff hwf p).1 hp
  obtain ⟨r', hr'⟩ : ∃ r', p.ring = r' + 1 := ⟨p.ring - 1, by omega⟩
  have hr'lt : r' < g.rings_n := by omega
  rw [neighbor_list, if_pos hp, ring_cells_n_eq hwf.1 hring, hr']
  show (if 0 < r' + 1 then _ else []) = _
  rw [if_pos (Nat.succ_pos r')]
  have hlast : (g.ring_cells_n r').getD 0 = g.sz r' := by
    rw [ring_cells_n_eq hwf.1 hr'lt]
    rfl
  show [(⟨r' + 1 - 1,
      if (g.ring_cells_n r').getD 0 < g.sz (r' + 1) then
        p.cell / (g.sz (r' + 1) / (g.ring_cells_n r').getD 0)
      else p.cell⟩ : CircPosition)] =
    [⟨r' + 1 - 1, p.cell / (g.sz (r' + 1) / g.sz (r' + 1 - 1))⟩]
  rw [hlast]
  simp only [Nat.add_sub_cancel]
  have hdvd : g.sz r' ∣ g.sz (r' + 1) := (hwf.2 r' hr'lt).2 (by omega)
  have hpos' := (hwf.2 r' hr'lt).1
  by_cases hlt : g.sz r' < g.sz (r' + 1)
  · rw [if_pos hlt]
  · rw [if_neg hlt]
    have heq : g.sz (r' + 1) = g.sz r' := by
      obtain ⟨m, hm⟩ := hdvd
      rcases Nat.eq_zero_or_pos m with hm0 | hmpos
      · rw [hm0, Nat.mul_zero] at hm
        have hposn := (hwf.2 (r' + 1) (by omega)).1
        omega
      · have : g.sz r' ≤ g.sz r' * m := Nat.le_mul_of_pos_right _ hmpos
        omega
    rw [heq, Nat.div_self hpos', Nat.div_one]

theorem outward_eq {g : CircGrid} (hwf : g.WFsizes) {q : CircPosition}
    (hq : (g.pos_to_ind q).isSome = true) (hnext : q.ring + 1 < g.rings_n) :
    g.neighbor_list q .outward =
      (List.range (g.sz (q.ring + 1) / g.sz q.ring)).map
        (fun i => ⟨q.ring + 1, q.cell * (g.sz (q.ring + 1) / g.sz q.ring) + i⟩) := by
  obtain ⟨hring, hcell⟩ := (pos_valid_iff hwf q).1 hq
  rw [neighbor_list, if_pos hq, ring_cells_n_eq hwf.1 hring,
    ring_cells_n_eq hwf.1 hnext]

theorem outward_eq_nil {g : CircGrid} (hwf : g.WFsizes) {q : CircPosition}
    (hnext : ¬q.ring + 1 < g.rings_n) :
    g.neighbor_list q .outward = [] := by
  rw [neighbor_list]
  by_cases hq : (g.pos_to_ind q).isSome = true
  · obtain ⟨hring, hcell⟩ := (pos_valid_iff hwf q).1 hq
    rw [if_pos hq, ring_cells_n_eq hwf.1 hring]
    have hnone : g.ring_cells_n (q.ring + 1) = none := by
      rw [ring_cells_n]
      have : g.ring_end_inds.get? (q.ring + 1) = none := by
        rw [List.get?_eq_none]
        rw [hwf.1]
        omega
      rw [this]
      rfl
    rw [hnone]
  · rw [if_neg hq]

end CircGrid

/-! ## Claim C10 -/

/-- Claim C10: in a circular grid whose boundary array satisfies the
structural invariant established by construction (one boundary per ring,
positive ring sizes, each ring size an exact multiple of the previous), the
inward and outward neighbor enumerations are mutually consistent: every valid
position on a ring above 0 has exactly one inward neighbor, that neighbor is
valid, the position appears among the neighbor's outward neighbors, and
conversely every outward neighbor of a valid position has that position as
its unique inward neighbor. -/
theorem claim_C10_circ_inward_outward (g : CircGrid) (hwf : g.WFsizes) :
    (∀ p : CircPosition, (g.pos_to_ind p).isSome = true → 0 < p.ring →
      ∃ q : CircPosition,
        g.neighbor_list p .inward = [q] ∧ (g.pos_to_ind q).isSome = true ∧
          p ∈ g.neighbor_list q .outward) ∧
    (∀ q r : CircPosition, (g.pos_to_ind q).isSome = true →
      r ∈ g.neighbor_list q .outward → g.neighbor_list r .inward = [q]) := by
  have houtmem : ∀ q r : CircPosition, (g.pos_to_ind q).isSome = true →
      r ∈ g.neighbor_list q .outward →
      q.ring + 1 < g.rings_n ∧ r.ring = q.ring + 1 ∧
        ∃ i < g.sz (q.ring + 1) / g.sz q.ring,
          r.cell = q.cell * (g.sz (q.ring + 1) / g.sz q.ring) + i := by
    intro q r hq hmem
    by_cases hnext : q.ring + 1 < g.rings_n
    · rw [CircGrid.outward_eq hwf hq hnext] at hmem
      obtain ⟨i, hi, hri⟩ := List.mem_map.1 hmem
      have hilt := List.mem_range.1 hi
      refine ⟨hnext, ?_, i, hilt, ?_⟩
      · rw [← hri]
      · rw [← hri]
    · rw [CircGrid.outward_eq_nil hwf hnext] at hmem
      simp at hmem
  constructor
  · intro p hp hr
    obtain ⟨hring, hcell⟩ := (CircGrid.pos_valid_iff hwf p).1 hp
    have hr'lt : p.ring - 1 < g.rings_n := by omega
    have hsucc : p.ring - 1 + 1 = p.ring := by omega
    have hdvd : g.sz (p.ring - 1) ∣ g.sz p.ring := by
      have := (hwf.2 (p.ring - 1) hr'lt).2 (by omega)
      rw [hsucc] at this
      exact this
    have hpos' := (hwf.2 (p.ring - 1) hr'lt).1
    have hposn := (hwf.2 p.ring hring).1
    obtain ⟨m, hm⟩ := hdvd
    have hmpos : 0 < m := by
      rcases Nat.eq_zero_or_pos m with h0 | h
      · rw [h0, Nat.mul_zero] at hm
        omega
      · exact h
    have hmdiv : g.sz p.ring / g.sz (p.ring - 1) = m := by
      rw [hm, Nat.mul_div_cancel_left _ hpos']
    refine ⟨⟨p.ring - 1, p.cell / m⟩, ?_, ?_, ?_⟩
    · rw [CircGrid.inward_eq hwf hp hr, hmdiv]
    · rw [CircGrid.pos_valid_iff hwf]
      refine ⟨?_, ?_⟩
      · show p.ring - 1 < g.rings_n
        omega
      · show p.cell / m < g.sz (p.ring - 1)
        rw [Nat.div_lt_iff_lt_mul hmpos]
        rw [hm] at hcell
        exact hcell
    · have hq : (g.pos_to_ind (⟨p.ring - 1, p.cell / m⟩ : CircPosition)).isSome
          = true := by
        rw [CircGrid.pos_valid_iff hwf]
        refine ⟨?_, ?_⟩
        · show p.ring - 1 < g.rings_n
          omega
        · show p.cell / m < g.sz (p.ring - 1)
          rw [Nat.div_lt_iff_lt_mul hmpos]
          rw [hm] at hcell
          exact hcell
      rw [CircGrid.outward_eq hwf hq (by show p.ring - 1 + 1 < g.rings_n; omega)]
      rw [List.mem_map]
      refine ⟨p.cell % m, List.mem_range.2 ?_, ?_⟩
      · show p.cell % m < g.sz (p.ring - 1 + 1) / g.sz (p.ring - 1)
        rw [hsucc, hmdiv]
        exact Nat.mod_lt _ hmpos
      · show (⟨p.ring - 1 + 1,
            p.cell / m * (g.sz (p.ring - 1 + 1) / g.sz (p.ring - 1)) + p.cell % m⟩
            : CircPosition) = p
        rw [hsucc, hmdiv]
        have hdm : p.cell / m * m + p.cell % m = p.cell := by
          rw [Nat.mul_comm]
          exact Nat.div_add_mod p.cell m
        rw [hdm]
  · intro q r hq hmem
    obtain ⟨hnext, hrring, i, hilt, hrcell⟩ := houtmem q r hq hmem
    obtain ⟨hqring, hqcell⟩ := (CircGrid.pos_valid_iff hwf q).1 hq
    have hdvd : g.sz q.ring ∣ g.sz (q.ring + 1) := (hwf.2 q.ring hqring).2 hnext
    have hpos' := (hwf.2 q.ring hqring).1
    obtain ⟨m, hm⟩ := hdvd
    have hmdiv : g.sz (q.ring + 1) / g.sz q.ring = m := by
      rw [hm, Nat.mul_div_cancel_left _ hpos']
    have hmpos : 0 < m := by
      rcases Nat.eq_zero_or_pos m with h0 | h
      · rw [h0, Nat.mul_zero] at hm
        have hposn := (hwf.2 (q.ring + 1) hnext).1
        omega
      · exact h
    rw [hmdiv] at hilt hrcell
    have hrvalid : (g.pos_to_ind r).isSome = true := by
      rw [CircGrid.pos_valid_iff hwf, hrring, hrcell]
      refine ⟨hnext, ?_⟩
      rw [hm]
      calc q.cell * m + i < q.cell * m + m := Nat.add_lt_add_left hilt _
        _ = (q.cell + 1) * m := by ring
        _ ≤ g.sz q.ring * m := Nat.mul_le_mul_right m (by omega)
    have hrpos : 0 < r.ring := by omega
    rw [CircGrid.inward_eq hwf hrvalid hrpos, hrring]
    have h1 : q.ring + 1 - 1 = q.ring := by omega
    have hcelldiv : r.cell / (g.sz (q.ring + 1) / g.sz q.ring) = q.cell := by
      rw [hmdiv, hrcell, Nat.mul_comm q.cell m, Nat.mul_add_div hmpos,
        Nat.div_eq_of_lt hilt]
      omega
    rw [h1, hcelldiv]

/-- Witness for C10 on the shipped 7-ring grid at position (2, 11): its
inward neighbor is unique, valid, and lists (2, 11) among its outward
neighbors. -/
theorem claim_C10_witness :
    (CircGrid.new 7).WFsizes ∧
    ∃ q : CircPosition,
      (CircGrid.new 7).neighbor_list ⟨2, 11⟩ .inward = [q] ∧
      ((CircGrid.new 7).pos_to_ind q).isSome = true ∧
      (⟨2, 11⟩ : CircPosition) ∈ (CircGrid.new 7).neighbor_list q .outward :=
  ⟨⟨by decide, by decide⟩,
    (claim_C10_circ_inward_outward (CircGrid.new 7) ⟨by decide, by decide⟩).1
      ⟨2, 11⟩ (by decide) (by decide)⟩

/-! ## Random cell selection: `random_cell_pos` -/

/-- Embeds `rand`'s `Rng::random_range(lo..hi)`: the call panics on an empty
range (modelled as an error) and otherwise returns an element of the range,
selected here by the oracle. -/
def rand_range (oracle lo hi : Nat) : Except String Nat :=
  if lo < hi then .ok (lo + oracle % (hi - lo))
  else .error "cannot sample empty range"

/-- Embeds `RectGrid::random_cell_pos` (the `Grid2d` implementation): with a
mask, `mask.cell_pos_iter().choose(&mut rng)` returns `None` exactly when the
iterator is empty and otherwise one of its elements (chosen here by the
oracle); without a mask the position is built from `random_range(0..height)`
and `random_range(0..width)`, which panic when the dimension is zero. -/
def RectGrid.random_cell_pos (g : RectGrid) (o1 o2 : Nat) :
    Except String (Option RectPosition) :=
  match g.mask with
  | some m => .ok (m.cell_pos_iter.get? (o1 % m.cell_pos_iter.length))
  | none =>
    (rand_range o1 0 g.height).bind fun row =>
      (rand_range o2 0 g.width).map fun col => some ⟨row, col⟩

/-! ### Supporting lemmas for the mask path -/

theorem List.self_eq_map_getD {α : Type} (L : List α) (d : α) :
    L = (List.range L.length).map (fun j => L.getD j d) := by
  apply List.ext_get
  · simp
  · intro i h1 h2
    have hgd : L.getD i d = L.get ⟨i, h1⟩ := by
      show (L.get? i).getD d = _
      rw [List.get?_eq_get h1]
      rfl
    rw [List.get_map]
    simp only [List.get_range]
    rw [hgd]

namespace RectMask

theorem mem_cell_pos_iter {m : RectMask}
    (hm : m.flags.length = m.width * m.height) {p : RectPosition}
    (hp : p ∈ m.cell_pos_iter) : m.is_cell p = true := by
  rw [cell_pos_iter] at hp
  obtain ⟨ind, hind, hmap⟩ := List.mem_filterMap.1 hp
  obtain ⟨hr, hflagb⟩ := List.mem_filter.1 hind
  have hlt : ind < m.flags.length := List.mem_range.1 hr
  have hflag : m.flags.getD ind false = true := by simpa using hflagb
  rw [ind_to_pos, if_pos hlt] at hmap
  obtain rfl : (⟨ind / m.width, ind % m.width⟩ : RectPosition) = p :=
    Option.some.inj hmap
  have hwpos : 0 < m.width := by
    rcases Nat.eq_zero_or_pos m.width with h0 | h0
    · rw [hm, h0, Nat.zero_mul] at hlt
      omega
    · exact h0
  have hrow : ind / m.width < m.height := by
    rw [Nat.div_lt_iff_lt_mul hwpos, Nat.mul_comm]
    rw [hm] at hlt
    exact hlt
  have hcol : ind % m.width < m.width := Nat.mod_lt _ hwpos
  have hpti : m.pos_to_ind ⟨ind / m.width, ind % m.width⟩ = some ind := by
    rw [pos_to_ind, if_pos ⟨hrow, hcol⟩]
    show some (ind / m.width * m.width + ind % m.width) = some ind
    rw [Nat.mul_comm, Nat.div_add_mod]
  rw [is_cell, hpti]
  exact hflag

theorem cell_pos_iter_eq_nil_iff (m : RectMask) :
    m.cell_pos_iter = [] ↔ m.cells_n = 0 := by
  rw [cell_pos_iter, List.filterMap_eq_nil]
  constructor
  · intro h
    have hfil : (List.range m.flags.length).filter
        (fun ind => m.flags.getD ind false) = [] := by
      rw [List.eq_nil_iff_forall_not_mem]
      intro a ha
      have hlt : a < m.flags.length := List.mem_range.1 (List.mem_filter.1 ha).1
      have hnone := h a ha
      rw [ind_to_pos, if_pos hlt] at hnone
      exact absurd hnone (by simp)
    rw [cells_n]
    have h0 := List.self_eq_map_getD m.flags false
    conv_lhs => rw [h0]
    rw [List.countP_map, List.countP_eq_zero]
    intro a ha
    have := List.filter_eq_nil.1 hfil a ha
    simpa using this
  · intro hc a ha
    obtain ⟨hr, hflagb⟩ := List.mem_filter.1 ha
    have hlt : a < m.flags.length := List.mem_range.1 hr
    have hflag : m.flags.getD a false = true := by simpa using hflagb
    exfalso
    rw [cells_n, List.countP_eq_zero] at hc
    have hgd : m.flags.getD a false = m.flags.get ⟨a, hlt⟩ := by
      show (m.flags.get? a).getD false = _
      rw [List.get?_eq_get hlt]
      rfl
    have hmem : m.flags.get ⟨a, hlt⟩ ∈ m.flags := List.get_mem _ _ _
    rw [hgd] at hflag
    exact absurd hflag (hc _ hmem)

end RectMask

/-! ### Supporting lemmas for the circular path -/

theorem countP_range_downward {P : Nat → Bool} :
    ∀ n : Nat, (∀ i j, i ≤ j → j < n → P j = true → P i = true) →
      ∀ j, j < n → (P j = true ↔ j < (List.range n).countP P) := by
  intro n
  induction n with
  | zero =>
    intro _ j hj
    omega
  | succ m ih =>
    intro hdc j hj
    rw [List.range_succ, List.countP_append]
    by_cases hm : P m = true
    · have hall : ∀ i, i ≤ m → P i = true := fun i hi => hdc i m hi (by omega) hm
      have hcount : (List.range m).countP P = m := by
        have hiff := List.countP_eq_length (p := P) (l := List.range m)
        rw [List.length_range] at hiff
        exact hiff.2 (fun a ha => hall a (by
          have := List.mem_range.1 ha
          omega))
      have hone : List.countP P [m] = 1 := by
        simp [hm]
      rw [hcount, hone]
      constructor
      · intro _
        omega
      · intro _
        exact hall j (by omega)
    · have hzero : List.countP P [m] = 0 := by
        simp [hm]
      rw [hzero, Nat.add_zero]
      rcases Nat.lt_or_ge j m with hjm | hjm
      · exact ih (fun i j hij hjn hpj => hdc i j hij (by omega) hpj) j hjm
      · have hj_eq : j = m := by omega
        subst hj_eq
        have hle := List.countP_le_length (p := P) (l := List.range j)
        rw [List.length_range] at hle
        constructor
        · intro hpj
          exact absurd hpj hm
        · intro hlt
          omega

namespace CircGrid

theorem boundary_mono {g : CircGrid} (hwf : g.WFsizes) :
    ∀ d i, i + d < g.rings_n →
      g.ring_end_inds.getD i 0 ≤ g.ring_end_inds.getD (i + d) 0 := by
  intro d
  induction d with
  | zero =>
    intro i _
    exact Nat.le_refl _
  | succ d ih =>
    intro i hi
    have h1 : g.ring_end_inds.getD (i + d) 0 ≤
        g.ring_end_inds.getD (i + d + 1) 0 := by
      have he := end_eq hwf (r := i + d + 1) (by omega)
      rw [he]
      show _ ≤ g.ring_start (i + d + 1) + _
      rw [ring_start]
      omega
    have h2 := ih i (by omega)
    have : i + (d + 1) = i + d + 1 := by omega
    rw [this]
    exact Nat.le_trans h2 h1

theorem boundary_iff {g : CircGrid} (hwf : g.WFsizes) (ind : Nat) :
    ∀ j, j < g.rings_n →
      (g.ring_end_inds.getD j 0 ≤ ind ↔
        j < g.ring_end_inds.countP (fun e => e ≤ ind)) := by
  have h0 : g.ring_end_inds =
      (List.range g.rings_n).map (fun j => g.ring_end_inds.getD j 0) := by
    rw [← hwf.1]
    exact List.self_eq_map_getD _ 0
  have hmap : g.ring_end_inds.countP (fun e => e ≤ ind) =
      (List.range g.rings_n).countP (fun j => g.ring_end_inds.getD j 0 ≤ ind) := by
    conv_lhs => rw [h0]
    rw [List.countP_map]
    rfl
  intro j hj
  rw [hmap]
  have h := @countP_range_downward
    (fun j => decide (g.ring_end_inds.getD j 0 ≤ ind)) g.rings_n
    (fun i j2 hij hjn hpj => by
      have hmono := boundary_mono hwf (j2 - i) i (by omega)
      have heq : i + (j2 - i) = j2 := by omega
      rw [heq] at hmono
      simp only [decide_eq_true_eq] at hpj ⊢
      omega)
    j hj
  simpa using h

theorem ind_to_pos_valid {g : CircGrid} (hwf : g.WFsizes)
    (hclen : g.cells.length = g.cells_n) {ind : Nat} (hind : ind < g.cells_n) :
    ∃ p, g.ind_to_pos ind = some p ∧ g.pos_to_ind p = some ind := by
  have hne : g.ring_end_inds ≠ [] := by
    intro hnil
    rw [cells_n, hnil] at hind
    simp at hind
  have hnpos : 0 < g.rings_n := by
    rw [← hwf.1]
    exact List.length_pos.2 hne
  have hlast : g.cells_n = g.ring_end_inds.getD (g.rings_n - 1) 0 := by
    rw [cells_n, List.getLast?_eq_get? , ← hwf.1]
    rfl
  set k := g.ring_end_inds.countP (fun e => e ≤ ind) with hk
  have hklt : k < g.rings_n := by
    have hiff := boundary_iff hwf ind (g.rings_n - 1) (by omega)
    have hnotle : ¬(g.ring_end_inds.getD (g.rings_n - 1) 0 ≤ ind) := by
      rw [← hlast]
      omega
    rw [hiff] at hnotle
    omega
  have hstart : g.ring_start k ≤ ind := by
    rcases k with _ | k'
    · rw [ring_start]
      omega
    · rw [ring_start]
      have hiff := boundary_iff hwf ind k' (by omega)
      exact hiff.2 (by omega)
  have hend : ind < g.ring_end_inds.getD k 0 := by
    have hiff := boundary_iff hwf ind k hklt
    by_contra hge
    have : k < k := hiff.1 (by omega)
    omega
  refine ⟨⟨k, ind - g.ring_start k⟩, ?_, ?_⟩
  · rw [ind_to_pos, if_neg (by omega), ← hk]
  · rw [pos_to_ind]
    show (if g.rings_n ≤ k then none
      else if g.ring_start k + (ind - g.ring_start k) <
          g.ring_end_inds.getD k 0 then some (g.ring_start k + (ind - g.ring_start k))
      else none) = some ind
    rw [if_neg (by omega), if_pos (by omega)]
    congr 1
    omega

end CircGrid

/-! ## Claim C9 -/

/-- Claim C9 (amended): `random_cell_pos` returns `None` exactly on an empty
grid and otherwise `Some` of an active position — except for an unmasked
rectangular grid, where the claim holds only when both dimensions are
positive: there the positions are drawn with `random_range`, which panics on
a zero dimension instead of returning `None`.  For a masked rectangular grid
the choice over `cell_pos_iter` is total, `None` exactly when no cell is
active, and any returned position is an active cell; for a circular grid
(under the boundary invariant of `make_rings` and a cell store sized by
`cells_n`) the result is `None` exactly when the grid has no cells and any
returned position is valid. -/
theorem claim_C9_random_cell_pos (o1 o2 : Nat) :
    (∀ (g : RectGrid) (m : RectMask), g.WF → g.mask = some m →
      ∃ res, g.random_cell_pos o1 o2 = .ok res ∧
        (res = none ↔ g.cells_n = 0) ∧
        (∀ p, res = some p → g.is_cell p = true)) ∧
    (∀ g : RectGrid, g.mask = none → 0 < g.width → 0 < g.height →
      ∃ p, g.random_cell_pos o1 o2 = .ok (some p) ∧ g.is_cell p = true) ∧
    (∀ g : CircGrid, g.WFsizes → g.cells.length = g.cells_n →
      (g.random_cell_pos o1 = none ↔ g.cells_n = 0) ∧
      (∀ p, g.random_cell_pos o1 = some p → (g.pos_to_ind p).isSome = true)) := by
  refine ⟨?_, ?_, ?_⟩
  · rintro ⟨gw, gh, gc, gm⟩ m hwf hmask
    obtain rfl : gm = some m := hmask
    obtain ⟨hmw, hmh, hmlen⟩ := hwf.2 m rfl
    refine ⟨m.cell_pos_iter.get? (o1 % m.cell_pos_iter.length), rfl, ?_, ?_⟩
    · show _ ↔ m.cells_n = 0
      rw [← RectMask.cell_pos_iter_eq_nil_iff]
      constructor
      · intro hnone
        by_contra hne
        have hpos : 0 < m.cell_pos_iter.length :=
          List.length_pos.2 hne
        have hlt : o1 % m.cell_pos_iter.length < m.cell_pos_iter.length :=
          Nat.mod_lt _ hpos
        rw [List.get?_eq_get hlt] at hnone
        exact absurd hnone (by simp)
      · intro hnil
        rw [hnil]
        rfl
    · intro p hp
      obtain ⟨hlt, hget⟩ := List.get?_eq_some.1 hp
      have hmem : p ∈ m.cell_pos_iter := hget ▸ List.get_mem _ _ _
      show m.is_cell p = true
      exact RectMask.mem_cell_pos_iter (by rw [hmlen]) hmem
  · rintro ⟨gw, gh, gc, gm⟩ hmask hw hh
    obtain rfl : gm = none := hmask
    have hw' : 0 < gw := hw
    have hh' : 0 < gh := hh
    have h1 : rand_range o1 0 gh = .ok (0 + o1 % (gh - 0)) := by
      rw [rand_range, if_pos (by omega)]
    have h2 : rand_range o2 0 gw = .ok (0 + o2 % (gw - 0)) := by
      rw [rand_range, if_pos (by omega)]
    refine ⟨⟨o1 % gh, o2 % gw⟩, ?_, ?_⟩
    · show ((rand_range o1 0 gh).bind fun row =>
        Except.map (fun col => some (⟨row, col⟩ : RectPosition))
          (rand_range o2 0 gw)) =
        Except.ok (some ⟨o1 % gh, o2 % gw⟩)
      rw [h1, h2]
      show Except.ok
        (some (⟨0 + o1 % (gh - 0), 0 + o2 % (gw - 0)⟩ : RectPosition)) = _
      simp
    · show (RectGrid.pos_to_ind _ _).isSome = true
      rw [RectGrid.pos_to_ind,
        if_pos ⟨Nat.mod_lt _ hh', Nat.mod_lt _ hw'⟩]
      rfl
  · intro g hwf hclen
    rw [CircGrid.random_cell_pos]
    by_cases hc : g.cells_n = 0
    · rw [if_pos hc]
      exact ⟨by simp [hc], by simp⟩
    · rw [if_neg hc]
      have hind : o1 % g.cells_n < g.cells_n := Nat.mod_lt _ (by omega)
      obtain ⟨q, hq, hqv⟩ := CircGrid.ind_to_pos_valid hwf hclen hind
      rw [hq]
      refine ⟨⟨fun h => absurd h (by simp), fun h => absurd h hc⟩, ?_⟩
      intro p hp
      obtain rfl : q = p := Option.some.inj hp
      rw [hqv]
      rfl

set_option maxRecDepth 10000 in
/-- Witness for C9: the three proved branches evaluated on concrete grids —
a 2×2 masked grid with three active cells, an unmasked 3×2 grid, and the
7-ring circular grid. -/
theorem claim_C9_witness :
    (∃ res, (RectGrid.with_mask ⟨2, 2, [true, false, true, true]⟩).random_cell_pos
        5 3 = .ok res ∧
      (res = none ↔
        (RectGrid.with_mask ⟨2, 2, [true, false, true, true]⟩).cells_n = 0) ∧
      (∀ p, res = some p →
        (RectGrid.with_mask ⟨2, 2, [true, false, true, true]⟩).is_cell p = true)) ∧
    (∃ p, (RectGrid.new 3 2).random_cell_pos 5 3 = .ok (some p) ∧
      (RectGrid.new 3 2).is_cell p = true) ∧
    ((CircGrid.new 7).random_cell_pos 5 = none ↔ (CircGrid.new 7).cells_n = 0) ∧
    (∀ p, (CircGrid.new 7).random_cell_pos 5 = some p →
      ((CircGrid.new 7).pos_to_ind p).isSome = true) :=
  ⟨(claim_C9_random_cell_pos 5 3).1 _ ⟨2, 2, [true, false, true, true]⟩
      (RectGrid.wf_with_mask (by decide)) rfl,
    (claim_C9_random_cell_pos 5 3).2.1 _ rfl (by decide) (by decide),
    (claim_C9_random_cell_pos 5 3).2.2 _ ⟨by decide, by decide⟩ (by decide)⟩

/-- Counterexample for C9 as frozen: an unmasked rectangular grid with zero
width and height is empty, yet `random_cell_pos` does not return `None` — it
panics, because `random_range(0..0)` is called on an empty range. -/
theorem claim_C9_counterexample :
    (RectGrid.new 0 0).cells_n = 0 ∧
    (RectGrid.new 0 0).random_cell_pos 0 0 =
      .error "cannot sample empty range" :=
  ⟨rfl, rfl⟩

/-! ## Binary-Tree generator: `src/gene/rect.rs` -/

/-- Embeds `DiagonalDirection` (src/gene/rect.rs). -/
inductive DiagonalDirection where
  | northeast
  | southeast
  | southwest
  | northwest
deriving DecidableEq, Repr

/-- Embeds `DiagonalDirection::hv_dirs`: the (horizontal, vertical) connect
directions of each diagonal bias. -/
def DiagonalDirection.hv_dirs : DiagonalDirection → RectDirection × RectDirection
  | .northeast => (.east, .north)
  | .southeast => (.east, .south)
  | .southwest => (.west, .south)
  | .northwest => (.west, .north)

/-- One loop-body iteration of `BTreeMazeGenerator::generate` at position `p`:
at the horizontal border connect vertically (unless also at the vertical
border), at the vertical border connect horizontally, otherwise connect along
`connect_dirs[rng.random_range(0..2)]` — `choice` stands for that draw, `true`
selecting entry 0 (the horizontal direction).  The generator's
`grid.connect_to(&pos, dir)` connects the cell at `pos` along `dir`, embedded
by `connect_along`. -/
def btreeStep (horz vert : RectDirection) (choice : Bool) (g : RectGrid)
    (p : RectPosition) : RectGrid :=
  if g.is_at_border p horz then
    (if ¬g.is_at_border p vert then (g.connect_along p vert).2 else g)
  else if g.is_at_border p vert then (g.connect_along p horz).2
  else (g.connect_along p (if choice then horz else vert)).2

/-- Row-major traversal order of the generator's two nested loops
(`for r_ind in 0..height { for c_ind in 0..width { ... } }`). -/
def cellOrder (height width : Nat) : List RectPosition :=
  (List.range height).bind (fun r => (List.range width).map (fun c => ⟨r, c⟩))

/-- Embeds `BTreeMazeGenerator::generate`, with the oracle supplying the
per-cell random draw of the interior branch. -/
def BTreeMazeGenerator.generate (con_dir : DiagonalDirection)
    (oracle : RectPosition → Bool) (g : RectGrid) : RectGrid :=
  (cellOrder g.height g.width).foldl
    (fun acc p => btreeStep con_dir.hv_dirs.1 con_dir.hv_dirs.2 (oracle p) acc p) g

/-! ### Geometry of an unmasked grid -/

namespace RectGrid

theorem is_cell_unmasked_iff {g : RectGrid} (hmask : g.mask = none)
    (p : RectPosition) :
    g.is_cell p = true ↔ (p.row < g.height ∧ p.col < g.width) := by
  rw [is_cell, hmask]
  show (g.pos_to_ind p).isSome = true ↔ _
  rw [pos_to_ind]
  by_cases h : p.row < g.height ∧ p.col < g.width
  · rw [if_pos h]
    simpa using h
  · rw [if_neg h]
    simpa using h

theorem cell_some_unmasked {g : RectGrid} (hwf : g.WF) (hmask : g.mask = none)
    {p : RectPosition} (hr : p.row < g.height) (hc : p.col < g.width) :
    ∃ c, g.cell p = some c :=
  Option.isSome_iff_exists.1
    (cell_isSome_of_is_cell hwf ((is_cell_unmasked_iff hmask p).2 ⟨hr, hc⟩))

theorem neighbor_pos_east_unmasked {g : RectGrid} (hwf : g.WF)
    (hmask : g.mask = none) {p : RectPosition} (hr : p.row < g.height)
    (hc : p.col < g.width) :
    g.neighbor_pos p .east =
      (if p.col + 1 < g.width then some ⟨p.row, p.col + 1⟩ else none) := by
  obtain ⟨c, hcp⟩ := cell_some_unmasked hwf hmask hr hc
  rw [neighbor_pos, if_pos (by rw [hcp]; rfl)]
  show Option.filter (fun q => g.is_cell q) (some ⟨p.row, p.col + 1⟩) = _
  rw [Option.filter_some]
  by_cases hlt : p.col + 1 < g.width
  · rw [if_pos (show g.is_cell ⟨p.row, p.col + 1⟩ = true from
      (is_cell_unmasked_iff hmask ⟨p.row, p.col + 1⟩).2 ⟨hr, hlt⟩), if_pos hlt]
  · rw [if_neg hlt]
    have : g.is_cell ⟨p.row, p.col + 1⟩ = false := by
      by_contra hne
      have := (is_cell_unmasked_iff hmask ⟨p.row, p.col + 1⟩).1
        (by revert hne; cases g.is_cell (⟨p.row, p.col + 1⟩ : RectPosition) <;> simp)
      exact hlt this.2
    rw [this]
    rfl

theorem neighbor_pos_north_unmasked {g : RectGrid} (hwf : g.WF)
    (hmask : g.mask = none) {p : RectPosition} (hr : p.row < g.height)
    (hc : p.col < g.width) :
    g.neighbor_pos p .north =
      (if 0 < p.row then some ⟨p.row - 1, p.col⟩ else none) := by
  obtain ⟨c, hcp⟩ := cell_some_unmasked hwf hmask hr hc
  rw [neighbor_pos, if_pos (by rw [hcp]; rfl)]
  show Option.filter (fun q => g.is_cell q)
    (if 0 < p.row then some ⟨p.row - 1, p.col⟩ else none) = _
  by_cases hrow : 0 < p.row
  · rw [if_pos hrow, Option.filter_some,
      if_pos (show g.is_cell ⟨p.row - 1, p.col⟩ = true from
        (is_cell_unmasked_iff hmask ⟨p.row - 1, p.col⟩).2
          ⟨show p.row - 1 < g.height by omega, hc⟩)]
  · rw [if_neg hrow]
    rfl

theorem is_at_border_east_unmasked {g : RectGrid} (hwf : g.WF)
    (hmask : g.mask = none) {p : RectPosition} (hr : p.row < g.height)
    (hc : p.col < g.width) :
    (g.is_at_border p .east = true ↔ p.col + 1 = g.width) := by
  obtain ⟨c, hcp⟩ := cell_some_unmasked hwf hmask hr hc
  rw [is_at_border, neighbor_pos_east_unmasked hwf hmask hr hc, hcp]
  by_cases hlt : p.col + 1 < g.width
  · rw [if_pos hlt]
    simp only [Option.isSome_some, Option.isNone_some]
    constructor
    · intro h
      simp at h
    · intro h
      omega
  · rw [if_neg hlt]
    simp only [Option.isSome_some, Option.isNone_none]
    constructor
    · intro _
      omega
    · intro _
      rfl

theorem is_at_border_north_unmasked {g : RectGrid} (hwf : g.WF)
    (hmask : g.mask = none) {p : RectPosition} (hr : p.row < g.height)
    (hc : p.col < g.width) :
    (g.is_at_border p .north = true ↔ p.row = 0) := by
  obtain ⟨c, hcp⟩ := cell_some_unmasked hwf hmask hr hc
  rw [is_at_border, neighbor_pos_north_unmasked hwf hmask hr hc, hcp]
  by_cases hrow : 0 < p.row
  · rw [if_pos hrow]
    simp only [Option.isSome_some, Option.isNone_some]
    constructor
    · intro h
      simp at h
    · intro h
      omega
  · rw [if_neg hrow]
    simp only [Option.isSome_some, Option.isNone_none]
    constructor
    · intro _
      omega
    · intro _
      rfl

theorem cell_new {w h : Nat} {p : RectPosition} (hr : p.row < h) (hc : p.col < w) :
    (RectGrid.new w h).cell p = some ⟨false, false⟩ := by
  rw [cell, if_pos (show (RectGrid.new w h).mask_admits p = true from rfl),
    pos_to_ind, if_pos ⟨hr, hc⟩, Option.some_bind]
  show (List.replicate (w * h) (default : RectCell)).get? (p.flat_ind w) = _
  have hlt : p.flat_ind w < w * h := RectPosition.flat_ind_lt hr hc
  rw [List.get?_eq_get (by simpa using hlt)]
  simp [List.get_replicate]
  rfl

end RectGrid

/-! ### Per-cell effect of a Northeast-bias pass -/

/-- Modelled from the spec: the north/east bits the claim predicts for a cell
after a Northeast-bias Binary-Tree pass, as a function of the grid width, the
cell's prior content and the interior random draw (`true` = East). -/
def btreeSpecNE (width : Nat) (b : Bool) (p : RectPosition) (c : RectCell) :
    RectCell :=
  if p.col + 1 = width then
    (if p.row = 0 then c else { c with is_connected_to_north := true })
  else if p.row = 0 then { c with is_connected_to_east := true }
  else if b then { c with is_connected_to_east := true }
  else { c with is_connected_to_north := true }

namespace RectGrid

theorem btreeStep_shape (horz vert : RectDirection) (b : Bool) (g : RectGrid)
    (q : RectPosition) : same_shape (btreeStep horz vert b g q) g := by
  rw [btreeStep]
  split_ifs <;>
    first
      | exact connect_along_shape _ _ _
      | exact same_shape_refl g

theorem connect_along_ne_cell {g : RectGrid} {q : RectPosition} {d : RectDirection}
    (hd : d = RectDirection.north ∨ d = RectDirection.east)
    {p : RectPosition} (hne : q ≠ p) :
    ((g.connect_along q d).2).cell p = g.cell p := by
  rcases hd with rfl | rfl
  · cases hn : g.neighbor_pos q .north with
    | none => rw [connect_along_of_nb_none hn]
    | some r =>
      obtain ⟨c, hcq⟩ := Option.isSome_iff_exists.1 (neighbor_pos_cell_isSome hn)
      rw [connect_along_north hcq hn]
      exact cell_set_cell_at_other hne _
  · cases hn : g.neighbor_pos q .east with
    | none => rw [connect_along_of_nb_none hn]
    | some r =>
      obtain ⟨c, hcq⟩ := Option.isSome_iff_exists.1 (neighbor_pos_cell_isSome hn)
      rw [connect_along_east hcq hn]
      exact cell_set_cell_at_other hne _

theorem btreeStep_cell_other {g : RectGrid} {q p : RectPosition} (hne : q ≠ p)
    (b : Bool) : (btreeStep .east .north b g q).cell p = g.cell p := by
  rw [btreeStep]
  split_ifs
  · rfl
  · exact connect_along_ne_cell (Or.inl rfl) hne
  · exact connect_along_ne_cell (Or.inr rfl) hne
  · exact connect_along_ne_cell (Or.inr rfl) hne
  · exact connect_along_ne_cell (Or.inl rfl) hne

theorem btreeStep_cell_self {g : RectGrid} (hwf : g.WF) (hmask : g.mask = none)
    {p : RectPosition} (hr : p.row < g.height) (hc : p.col < g.width) (b : Bool)
    {c : RectCell} (hcp : g.cell p = some c) :
    (btreeStep .east .north b g p).cell p = some (btreeSpecNE g.width b p c) := by
  have hisc : g.is_cell p = true := (is_cell_unmasked_iff hmask p).2 ⟨hr, hc⟩
  have hbE := is_at_border_east_unmasked hwf hmask hr hc
  have hbN := is_at_border_north_unmasked hwf hmask hr hc
  rw [btreeStep, btreeSpecNE]
  by_cases hce : p.col + 1 = g.width
  · rw [if_pos (hbE.2 hce), if_pos hce]
    by_cases hr0 : p.row = 0
    · rw [if_neg (by
        intro hnb
        exact hnb (hbN.2 hr0)), if_pos hr0]
      exact hcp
    · have hnb : g.neighbor_pos p .north = some ⟨p.row - 1, p.col⟩ := by
        rw [neighbor_pos_north_unmasked hwf hmask hr hc, if_pos (by omega)]
      rw [if_pos (by
        intro hb
        exact hr0 (hbN.1 hb)), if_neg hr0, connect_along_north hcp hnb]
      exact cell_set_cell_at_self hwf hisc _
  · have hclt : p.col + 1 < g.width := by omega
    have hne : g.neighbor_pos p .east = some ⟨p.row, p.col + 1⟩ := by
      rw [neighbor_pos_east_unmasked hwf hmask hr hc, if_pos hclt]
    rw [if_neg (by
      intro hb
      exact hce (hbE.1 hb)), if_neg hce]
    by_cases hr0 : p.row = 0
    · rw [if_pos (hbN.2 hr0), if_pos hr0, connect_along_east hcp hne]
      exact cell_set_cell_at_self hwf hisc _
    · rw [if_neg (by
        intro hb
        exact hr0 (hbN.1 hb)), if_neg hr0]
      cases b
      · have hnb : g.neighbor_pos p .north = some ⟨p.row - 1, p.col⟩ := by
          rw [neighbor_pos_north_unmasked hwf hmask hr hc, if_pos (by omega)]
        show ((g.connect_along p .north).2).cell p = _
        rw [connect_along_north hcp hnb]
        exact cell_set_cell_at_self hwf hisc _
      · show ((g.connect_along p .east).2).cell p = _
        rw [connect_along_east hcp hne]
        exact cell_set_cell_at_self hwf hisc _

end RectGrid

/-! ### The generator's fold -/

namespace RectGrid

theorem btreeFold_shape (horz vert : RectDirection) (oracle : RectPosition → Bool)
    (ps : List RectPosition) (g : RectGrid) :
    same_shape
      (ps.foldl (fun acc q => btreeStep horz vert (oracle q) acc q) g) g := by
  induction ps generalizing g with
  | nil => exact same_shape_refl g
  | cons q ps ih =>
    exact same_shape_trans (ih (btreeStep horz vert (oracle q) g q))
      (btreeStep_shape horz vert (oracle q) g q)

theorem btreeFold_cell_not_mem (oracle : RectPosition → Bool)
    {ps : List RectPosition} {p : RectPosition} (hp : p ∉ ps) (g : RectGrid) :
    (ps.foldl (fun acc q => btreeStep .east .north (oracle q) acc q) g).cell p =
      g.cell p := by
  induction ps generalizing g with
  | nil => rfl
  | cons q ps ih =>
    have hqp : q ≠ p := fun he => hp (he ▸ List.mem_cons_self q ps)
    have hpp : p ∉ ps := fun hm => hp (List.mem_cons_of_mem _ hm)
    show (ps.foldl _ (btreeStep .east .north (oracle q) g q)).cell p = _
    rw [ih hpp (btreeStep .east .north (oracle q) g q)]
    exact btreeStep_cell_other hqp _

theorem btreeFold_cell_mem (oracle : RectPosition → Bool)
    {ps : List RectPosition} (hnd : ps.Nodup) {p : RectPosition} (hp : p ∈ ps)
    {g : RectGrid} (hwf : g.WF) (hmask : g.mask = none)
    (hr : p.row < g.height) (hc : p.col < g.width) {c : RectCell}
    (hcp : g.cell p = some c) :
    (ps.foldl (fun acc q => btreeStep .east .north (oracle q) acc q) g).cell p =
      some (btreeSpecNE g.width (oracle p) p c) := by
  induction ps generalizing g with
  | nil => exact absurd hp (List.not_mem_nil p)
  | cons q ps ih =>
    rcases List.mem_cons.1 hp with rfl | hmem
    · have hnot : p ∉ ps := (List.nodup_cons.1 hnd).1
      show (ps.foldl _ (btreeStep .east .north (oracle p) g p)).cell p = _
      rw [btreeFold_cell_not_mem oracle hnot _]
      exact btreeStep_cell_self hwf hmask hr hc (oracle p) hcp
    · have hsh := btreeStep_shape .east .north (oracle q) g q
      have hqp : q ≠ p := by
        rintro rfl
        exact (List.nodup_cons.1 hnd).1 hmem
      have hres := ih (List.nodup_cons.1 hnd).2 hmem
        (wf_of_same_shape hsh hwf)
        (by rw [hsh.2.2.1, hmask])
        (by rw [hsh.2.1]; exact hr)
        (by rw [hsh.1]; exact hc)
        (by rw [btreeStep_cell_other hqp (oracle q)]; exact hcp)
      show (ps.foldl _ (btreeStep .east .north (oracle q) g q)).cell p = _
      rw [hres, hsh.1]

end RectGrid

theorem mem_cellOrder {h w : Nat} {p : RectPosition} :
    p ∈ cellOrder h w ↔ (p.row < h ∧ p.col < w) := by
  rw [cellOrder, List.mem_bind]
  constructor
  · rintro ⟨r, hr, hmem⟩
    obtain ⟨cc, hcc, rfl⟩ := List.mem_map.1 hmem
    exact ⟨List.mem_range.1 hr, List.mem_range.1 hcc⟩
  · rintro ⟨hr, hc⟩
    exact ⟨p.row, List.mem_range.2 hr,
      List.mem_map.2 ⟨p.col, List.mem_range.2 hc, rfl⟩⟩

theorem nodup_cellOrder (h w : Nat) : (cellOrder h w).Nodup := by
  rw [cellOrder, List.nodup_bind]
  constructor
  · intro r hr
    exact (List.nodup_range w).map
      (fun a b hab => congrArg RectPosition.col hab)
  · have hpw := List.pairwise_lt_range h
    refine hpw.imp ?_
    intro r1 r2 hlt q hq1 hq2
    obtain ⟨c1, hc1, rfl⟩ := List.mem_map.1 hq1
    obtain ⟨c2, hc2, heq⟩ := List.mem_map.1 hq2
    have h1 : r2 = r1 := congrArg RectPosition.row heq
    omega

/-! ## Claim C8 -/

/-- Claim C8: after a Northeast-bias Binary-Tree pass over an unmasked 5×4
grid (width 5, height 4), whatever the random draws: every cell that is
neither in the top row nor in the rightmost column has exactly one of its own
north/east connection bits set; every top-row cell except the northeast
corner has exactly its east bit set; every rightmost-column cell except the
corner has exactly its north bit set; and the northeast corner cell has
neither bit set — it initiates no connection. -/
theorem claim_C8_btree_northeast_bias (oracle : RectPosition → Bool)
    (p : RectPosition) (hr : p.row < 4) (hcol : p.col < 5) :
    ∃ c, (BTreeMazeGenerator.generate .northeast oracle
        (RectGrid.new 5 4)).cell p = some c ∧
      (0 < p.row → p.col + 1 < 5 →
        c.is_connected_to_north = !c.is_connected_to_east) ∧
      (p.row = 0 → p.col + 1 < 5 →
        c.is_connected_to_east = true ∧ c.is_connected_to_north = false) ∧
      (0 < p.row → p.col + 1 = 5 →
        c.is_connected_to_north = true ∧ c.is_connected_to_east = false) ∧
      (p.row = 0 → p.col + 1 = 5 →
        c.is_connected_to_north = false ∧ c.is_connected_to_east = false) := by
  have hcell : (RectGrid.new 5 4).cell p = some ⟨false, false⟩ :=
    RectGrid.cell_new hr hcol
  have hres := RectGrid.btreeFold_cell_mem oracle (nodup_cellOrder 4 5)
    (mem_cellOrder.2 ⟨hr, hcol⟩) (RectGrid.wf_new 5 4) rfl hr hcol hcell
  refine ⟨btreeSpecNE 5 (oracle p) p ⟨false, false⟩, hres, ?_, ?_, ?_, ?_⟩
  · intro h0 hlt
    rw [btreeSpecNE, if_neg (show ¬(p.col + 1 = 5) by omega),
      if_neg (show ¬(p.row = 0) by omega)]
    cases oracle p <;> rfl
  · intro h0 hlt
    rw [btreeSpecNE, if_neg (show ¬(p.col + 1 = 5) by omega), if_pos h0]
    exact ⟨rfl, rfl⟩
  · intro h0 he
    rw [btreeSpecNE, if_pos he, if_neg (show ¬(p.row = 0) by omega)]
    exact ⟨rfl, rfl⟩
  · intro h0 he
    rw [btreeSpecNE, if_pos he, if_pos h0]
    exact ⟨rfl, rfl⟩

/-- Witness for C8: the characterization applied to the interior cell (1,1)
with a concrete oracle. -/
theorem claim_C8_witness :
    ∃ c, (BTreeMazeGenerator.generate .northeast (fun q => q.col % 2 == 0)
        (RectGrid.new 5 4)).cell ⟨1, 1⟩ = some c ∧
      ((0 : Nat) < 1 → 1 + 1 < 5 →
        c.is_connected_to_north = !c.is_connected_to_east) ∧
      ((1 : Nat) = 0 → 1 + 1 < 5 →
        c.is_connected_to_east = true ∧ c.is_connected_to_north = false) ∧
      ((0 : Nat) < 1 → 1 + 1 = 5 →
        c.is_connected_to_north = true ∧ c.is_connected_to_east = false) ∧
      ((1 : Nat) = 0 → 1 + 1 = 5 →
        c.is_connected_to_north = false ∧ c.is_connected_to_east = false) :=
  claim_C8_btree_northeast_bias (fun q => q.col % 2 == 0) ⟨1, 1⟩
    (by decide) (by decide)

/-! ## Wilson's algorithm: the walk's loop erasure (src/gene.rs) -/

namespace Gene.Wilson

/-- Association-list model of the walk's `HashMap<Position, usize>`:
`find?` mirrors `HashMap::get`. -/
def lookupKV {P : Type} [DecidableEq P] (m : List (P × Nat)) (x : P) : Option Nat :=
  (m.find? (fun e => e.1 == x)).map Prod.snd

/-- `HashMap::remove`. -/
def eraseKV {P : Type} [DecidableEq P] (m : List (P × Nat)) (x : P) :
    List (P × Nat) :=
  m.filter (fun e => !(e.1 == x))

/-- `HashMap::insert` (overwriting). -/
def insertKV {P : Type} [DecidableEq P] (m : List (P × Nat)) (x : P) (i : Nat) :
    List (P × Nat) :=
  (x, i) :: eraseKV m x

/-- The loop-cut `for _ in path_ind..cur_path.len() { pop; remove }` of
`WilsonMazeGenerator::generate_2d`, with the pop count as fuel.  The source's
`pop().unwrap()` never sees an empty path because the stored index is always
below the path length; the `none` arm is dead code kept for totality. -/
def popLoop {P : Type} [DecidableEq P] :
    Nat → List P × List (P × Nat) → List P × List (P × Nat)
  | 0, s => s
  | k + 1, (path, vis) =>
    match path.getLast? with
    | none => (path, vis)
    | some last => popLoop k (path.dropLast, eraseKV vis last)

/-- The walk loop of `WilsonMazeGenerator::generate_2d`: each iteration
inserts the current position into the map, pushes it on the path, commits
`path ++ [candidate]` when the candidate is already visited, erases the loop
back to the candidate's stored index when the candidate is on the path, and
steps to the candidate otherwise.  The candidates chosen by
`neighbors.iter().choose(&mut rng)` are supplied by the oracle list; an
exhausted oracle means the walk is still running, so nothing is committed. -/
def wilsonWalk {P : Type} [DecidableEq P] (unvisited : P → Bool) :
    List P → P → List P → List (P × Nat) → Option (List P)
  | [], _, _, _ => none
  | cand :: rest, cur, path, vis =>
    if unvisited cand = false then some ((path ++ [cur]) ++ [cand])
    else
      match lookupKV (insertKV vis cur path.length) cand with
      | some path_ind =>
        wilsonWalk unvisited rest cand
          (popLoop ((path ++ [cur]).length - path_ind)
            (path ++ [cur], insertKV vis cur path.length)).1
          (popLoop ((path ++ [cur]).length - path_ind)
            (path ++ [cur], insertKV vis cur path.length)).2
      | none =>
        wilsonWalk unvisited rest cand (path ++ [cur])
          (insertKV vis cur path.length)

/-- The map is in sync with the path: it maps a position to an index exactly
when the path holds that position there. -/
def Sync {P : Type} [DecidableEq P] (path : List P) (vis : List (P × Nat)) :
    Prop :=
  path.Nodup ∧ ∀ x i, lookupKV vis x = some i ↔ path.get? i = some x

theorem find?_filter_of_imp {α : Type} (l : List α) (p q : α → Bool)
    (h : ∀ e, p e = true → q e = true) :
    (l.filter q).find? p = l.find? p := by
  induction l with
  | nil => rfl
  | cons a l ih =>
    cases hq : q a with
    | true =>
      rw [List.filter_cons_of_pos hq, List.find?_cons, List.find?_cons]
      cases hp : p a
      · exact ih
      · rfl
    | false =>
      have hp : p a = false := by
        cases hpa : p a
        · rfl
        · rw [h a hpa] at hq
          exact absurd hq (by simp)
      rw [List.filter_cons_of_neg (by simp [hq]), List.find?_cons, hp]
      exact ih

theorem lookupKV_erase_self {P : Type} [DecidableEq P] (m : List (P × Nat))
    (x : P) : lookupKV (eraseKV m x) x = none := by
  rw [lookupKV, eraseKV]
  rw [List.find?_eq_none.2]
  · rfl
  · intro e he
    have := List.of_mem_filter he
    revert this
    cases hx : (e.1 == x) <;> simp

theorem lookupKV_erase_other {P : Type} [DecidableEq P] (m : List (P × Nat))
    {x y : P} (hne : y ≠ x) : lookupKV (eraseKV m x) y = lookupKV m y := by
  rw [lookupKV, eraseKV, lookupKV, find?_filter_of_imp]
  intro e he
  have h1 : e.1 = y := by simpa using he
  rw [h1]
  simpa using hne

theorem lookupKV_insert_self {P : Type} [DecidableEq P] (m : List (P × Nat))
    (x : P) (i : Nat) : lookupKV (insertKV m x i) x = some i := by
  rw [lookupKV, insertKV, List.find?_cons]
  have : ((x, i).1 == x) = true := by simp
  rw [this]
  rfl

theorem lookupKV_insert_other {P : Type} [DecidableEq P] (m : List (P × Nat))
    {x y : P} (hne : y ≠ x) (i : Nat) :
    lookupKV (insertKV m x i) y = lookupKV m y := by
  rw [lookupKV, insertKV, List.find?_cons]
  have : ((x, i).1 == y) = false := by
    simpa using fun he => hne he.symm
  rw [this]
  exact lookupKV_erase_other m hne

theorem get?_inj_of_nodup {α : Type} {l : List α} (h : l.Nodup) {i j : Nat}
    {a : α} (hi : l.get? i = some a) (hj : l.get? j = some a) : i = j := by
  have hi' : i < l.length := by
    by_contra hge
    rw [List.get?_eq_none.2 (by omega)] at hi
    exact absurd hi (by simp)
  have hj' : j < l.length := by
    by_contra hge
    rw [List.get?_eq_none.2 (by omega)] at hj
    exact absurd hj (by simp)
  rw [List.get?_eq_get hi'] at hi
  rw [List.get?_eq_get hj'] at hj
  have hg : l.get ⟨i, hi'⟩ = l.get ⟨j, hj'⟩ := by
    rw [Option.some.inj hi, Option.some.inj hj]
  have := (List.Nodup.get_inj_iff h).1 hg
  exact congrArg Fin.val this

theorem sync_push {P : Type} [DecidableEq P] {path : List P}
    {vis : List (P × Nat)} (h : Sync path vis) {cur : P} (hcur : cur ∉ path) :
    Sync (path ++ [cur]) (insertKV vis cur path.length) := by
  constructor
  · exact h.1.append (List.nodup_singleton cur)
      (fun a ha hb => by
        rw [List.mem_singleton.1 hb] at ha
        exact hcur ha)
  · intro x i
    by_cases hx : x = cur
    · subst hx
      rw [lookupKV_insert_self]
      constructor
      · intro he
        obtain rfl : path.length = i := Option.some.inj he
        exact List.get?_concat_length path x
      · intro hg
        rcases Nat.lt_trichotomy i path.length with hlt | heq | hgt
        · rw [List.get?_append hlt] at hg
          exact absurd (List.get?_mem hg) hcur
        · rw [heq]
        · rw [List.get?_eq_none.2 (by simp; omega)] at hg
          exact absurd hg (by simp)
    · rw [lookupKV_insert_other vis hx]
      rw [h.2 x i]
      rcases Nat.lt_trichotomy i path.length with hlt | heq | hgt
      · rw [List.get?_append hlt]
      · subst heq
        rw [List.get?_eq_none.2 (Nat.le_refl _), List.get?_concat_length]
        constructor
        · intro he
          exact absurd he (by simp)
        · intro he
          exact absurd (Option.some.inj he).symm hx
      · rw [List.get?_eq_none.2 (by omega), List.get?_eq_none.2 (by simp; omega)]

theorem sync_pop {P : Type} [DecidableEq P] {path : List P}
    {vis : List (P × Nat)} (h : Sync path vis) {last : P}
    (hlast : path.getLast? = some last) :
    Sync path.dropLast (eraseKV vis last) := by
  have hne : path ≠ [] := by
    intro hnil
    rw [hnil] at hlast
    exact absurd hlast (by simp)
  have hlen : 0 < path.length := List.length_pos.2 hne
  have hgl : path.get? (path.length - 1) = some last := by
    rw [← List.getLast?_eq_get? ]
    exact hlast
  have hdl : path.dropLast = path.take (path.length - 1) := by
    rw [List.dropLast_eq_take]
  constructor
  · exact h.1.sublist (List.dropLast_sublist path)
  · intro x i
    by_cases hx : x = last
    · subst hx
      rw [lookupKV_erase_self]
      constructor
      · intro he
        exact absurd he (by simp)
      · intro hg
        exfalso
        have hilt : i < path.dropLast.length := by
          by_contra hge
          rw [List.get?_eq_none.2 (by omega)] at hg
          exact absurd hg (by simp)
        rw [List.length_dropLast] at hilt
        rw [hdl, List.get?_take (by omega)] at hg
        have := get?_inj_of_nodup h.1 hg hgl
        omega
    · rw [lookupKV_erase_other vis hx, h.2 x i]
      rcases Nat.lt_trichotomy i (path.length - 1) with hlt | heq | hgt
      · rw [hdl, List.get?_take hlt]
      · subst heq
        rw [hgl, List.get?_eq_none.2 (by rw [List.length_dropLast])]
        constructor
        · intro he
          exact absurd (Option.some.inj he).symm hx
        · intro he
          exact absurd he (by simp)
      · rw [List.get?_eq_none.2 (by omega),
          List.get?_eq_none.2 (by rw [List.length_dropLast]; omega)]

theorem popLoop_spec {P : Type} [DecidableEq P] :
    ∀ (k : Nat) (path : List P) (vis : List (P × Nat)), Sync path vis →
      k ≤ path.length →
      (popLoop k (path, vis)).1 = path.take (path.length - k) ∧
      Sync (popLoop k (path, vis)).1 (popLoop k (path, vis)).2 := by
  intro k
  induction k with
  | zero =>
    intro path vis h _
    rw [popLoop]
    exact ⟨by rw [Nat.sub_zero, List.take_length], h⟩
  | succ k ih =>
    intro path vis h hk
    have hne : path ≠ [] := by
      intro hnil
      rw [hnil] at hk
      simp at hk
    obtain ⟨last, hlast⟩ :=
      Option.isSome_iff_exists.1 (List.getLast?_isSome.2 hne)
    rw [popLoop, hlast]
    have hdl : path.dropLast = path.take (path.length - 1) := by
      rw [List.dropLast_eq_take]
    have hlen : path.dropLast.length = path.length - 1 := List.length_dropLast path
    obtain ⟨h1, h2⟩ := ih path.dropLast (eraseKV vis last)
      (sync_pop h hlast) (by omega)
    refine ⟨?_, h2⟩
    rw [h1, hlen, hdl, List.take_take]
    congr 1
    omega

theorem wilsonWalk_spec {P : Type} [DecidableEq P] (unvisited : P → Bool) :
    ∀ (cands : List P) (cur : P) (path : List P) (vis : List (P × Nat)),
      Sync path vis → (∀ x ∈ path, unvisited x = true) →
      unvisited cur = true → cur ∉ path →
      ∀ committed, wilsonWalk unvisited cands cur path vis = some committed →
        committed.Nodup ∧
        (∀ x ∈ committed.dropLast, unvisited x = true) ∧
        (∃ last, committed.getLast? = some last ∧ unvisited last = false) ∧
        2 ≤ committed.length := by
  intro cands
  induction cands with
  | nil =>
    intro cur path vis _ _ _ _ committed h
    exact absurd h (by rw [wilsonWalk]; simp)
  | cons cand rest ih =>
    intro cur path vis hsync hunv hcur hnotin committed hrun
    have hsync' : Sync (path ++ [cur]) (insertKV vis cur path.length) :=
      sync_push hsync hnotin
    have hunv' : ∀ x ∈ path ++ [cur], unvisited x = true := by
      intro x hx
      rcases List.mem_append.1 hx with hx1 | hx2
      · exact hunv x hx1
      · rw [List.mem_singleton.1 hx2]
        exact hcur
    rw [wilsonWalk] at hrun
    by_cases hc : unvisited cand = false
    · rw [if_pos hc] at hrun
      obtain rfl : (path ++ [cur]) ++ [cand] = committed := Option.some.inj hrun
      have hcnotin : cand ∉ path ++ [cur] := by
        intro hmem
        rw [hunv' cand hmem] at hc
        exact absurd hc (by simp)
      refine ⟨?_, ?_, ?_, ?_⟩
      · exact hsync'.1.append (List.nodup_singleton cand)
          (fun a ha hb => by
            rw [List.mem_singleton.1 hb] at ha
            exact hcnotin ha)
      · rw [List.dropLast_concat]
        exact hunv'
      · exact ⟨cand, List.getLast?_concat _, hc⟩
      · rw [List.length_append, List.length_append]
        simp
    · rw [if_neg hc] at hrun
      have hcand : unvisited cand = true := by
        revert hc
        cases unvisited cand <;> simp
      cases hlook : lookupKV (insertKV vis cur path.length) cand with
      | some path_ind =>
        rw [hlook] at hrun
        have hget : (path ++ [cur]).get? path_ind = some cand :=
          (hsync'.2 cand path_ind).1 hlook
        have hlt : path_ind < (path ++ [cur]).length := by
          by_contra hge
          rw [List.get?_eq_none.2 (by omega)] at hget
          exact absurd hget (by simp)
        obtain ⟨hp1, hp2⟩ := popLoop_spec ((path ++ [cur]).length - path_ind)
          (path ++ [cur]) (insertKV vis cur path.length) hsync' (by omega)
        have htake : (popLoop ((path ++ [cur]).length - path_ind)
            (path ++ [cur], insertKV vis cur path.length)).1 =
            (path ++ [cur]).take path_ind := by
          rw [hp1]
          congr 1
          omega
        rw [htake] at hp2
        have hrun' : wilsonWalk unvisited rest cand
            ((path ++ [cur]).take path_ind)
            (popLoop ((path ++ [cur]).length - path_ind)
              (path ++ [cur], insertKV vis cur path.length)).2 = some committed := by
          rw [← htake]
          exact hrun
        refine ih cand _ _ hp2 ?_ hcand ?_ committed hrun'
        · intro x hx
          exact hunv' x ((List.take_sublist _ _).mem hx)
        · intro hmem
          obtain ⟨j, hj⟩ := List.mem_iff_get?.1 hmem
          have hjlt : j < ((path ++ [cur]).take path_ind).length := by
            by_contra hge
            rw [List.get?_eq_none.2 (by omega)] at hj
            exact absurd hj (by simp)
          rw [List.length_take] at hjlt
          rw [List.get?_take (by omega)] at hj
          have := get?_inj_of_nodup hsync'.1 hj hget
          omega
      | none =>
        rw [hlook] at hrun
        have hrun' : wilsonWalk unvisited rest cand (path ++ [cur])
            (insertKV vis cur path.length) = some committed := hrun
        have hnotin' : cand ∉ path ++ [cur] := by
          intro hmem
          obtain ⟨j, hj⟩ := List.mem_iff_get?.1 hmem
          have := (hsync'.2 cand j).2 hj
          rw [hlook] at this
          exact absurd this (by simp)
        exact ih cand _ _ hsync' hunv' hcand hnotin' committed hrun'

end Gene.Wilson

/-! ## Claim C5 -/

/-- Claim C5: whenever the Wilson walk loop commits a path (for any start
position, any unvisited set and any sequence of candidate draws), the
committed path contains no repeated position; moreover every committed
position except the last is unvisited, the walk ended on an
already-visited position, and the path connects at least one pair. -/
theorem claim_C5_wilson_loop_erasure {P : Type} [DecidableEq P]
    (unvisited : P → Bool) (cands : List P) (start : P)
    (hstart : unvisited start = true) (committed : List P)
    (hrun : Gene.Wilson.wilsonWalk unvisited cands start [] [] = some committed) :
    committed.Nodup ∧
    (∀ x ∈ committed.dropLast, unvisited x = true) ∧
    (∃ last, committed.getLast? = some last ∧ unvisited last = false) ∧
    2 ≤ committed.length :=
  Gene.Wilson.wilsonWalk_spec unvisited cands start [] []
    ⟨List.nodup_nil, by
      intro x i
      rw [Gene.Wilson.lookupKV]
      simp⟩
    (by intro x hx; exact absurd hx (List.not_mem_nil x))
    hstart (List.not_mem_nil start) committed hrun

/-- Witness for C5: a concrete walk over `Nat` with unvisited set `{0..4}`
whose draws form a loop `0 → 1 → 2 → 1` that is erased before the walk ends
at the visited position 7; the committed path is `[0, 1, 3, 7]`. -/
theorem claim_C5_witness :
    ([0, 1, 3, 7] : List Nat).Nodup ∧
    (∀ x ∈ ([0, 1, 3, 7] : List Nat).dropLast, decide (x < 5) = true) ∧
    (∃ last, ([0, 1, 3, 7] : List Nat).getLast? = some last ∧
      decide (last < 5) = false) ∧
    2 ≤ ([0, 1, 3, 7] : List Nat).length :=
  claim_C5_wilson_loop_erasure (fun x => decide (x < 5)) [1, 2, 1, 3, 7] 0
    (by decide) [0, 1, 3, 7] (by decide)

/-! ## Mask isolation check: `RectMask::check_isolation` -/

namespace RectMask

/-- Topology adjacency between two active cells of the mask: the relation the
BFS of `check_isolation` explores. -/
def adjStep (m : RectMask) (p q : RectPosition) : Prop :=
  m.is_cell p = true ∧ m.is_cell q = true ∧ ∃ d, p.neighbor d = some q

/-- The enqueue of one BFS iteration:
`all_dirs().iter().filter_map(|dir| cur.neighbor(dir)).filter(|pos| self.is_cell(pos) && !visited.contains(pos))`. -/
def bfs_next (m : RectMask) (visited : Finset RectPosition)
    (cur : RectPosition) : List RectPosition :=
  (RectDirection.all_dirs.filterMap cur.neighbor).filter
    (fun pos => m.is_cell pos && !(decide (pos ∈ visited)))

/-- The BFS loop of `check_isolation` (`while let Some(cur) = pop_front()`),
with an explicit fuel; the fuel passed by `check_isolation` below is proved
never to run out, so the first arm is dead code kept for totality. -/
def bfsAux (m : RectMask) :
    Nat → List RectPosition → Finset RectPosition → Finset RectPosition
  | 0, _, visited => visited
  | _ + 1, [], visited => visited
  | fuel + 1, cur :: rest, visited =>
    if cur ∈ visited then bfsAux m fuel rest visited
    else bfsAux m fuel (rest ++ m.bfs_next visited cur) (insert cur visited)

/-- Embeds `RectMask::check_isolation`: find the first active cell in
row-major order (`Ok` when there is none), flood-fill from it, and fail with
the isolation error when the visit count differs from the active count. -/
def check_isolation (m : RectMask) : Except String Unit :=
  match (cellOrder m.height m.width).find? (fun p => m.is_cell p) with
  | none => .ok ()
  | some start_pos =>
    if (m.bfsAux (5 * m.cells_n + 1) [start_pos] ∅).card = m.cells_n then
      .ok ()
    else .error "IsolatedAreaInRectMask"

/-- The set of active cells. -/
def activeFinset (m : RectMask) : Finset RectPosition :=
  m.cell_pos_iter.toFinset

end RectMask

theorem filterMap_eq_map_of_some {α β : Type} (f : α → Option β) (g : α → β) :
    ∀ l : List α, (∀ a ∈ l, f a = some (g a)) → l.filterMap f = l.map g := by
  intro l
  induction l with
  | nil => intro _; rfl
  | cons a l ih =>
    intro h
    rw [List.filterMap_cons, h a (List.mem_cons_self a l), List.map_cons,
      ih (fun b hb => h b (List.mem_cons_of_mem a hb))]

namespace RectMask

theorem cell_pos_iter_eq_map (m : RectMask) :
    m.cell_pos_iter =
      ((List.range m.flags.length).filter (fun ind => m.flags.getD ind false)).map
        (fun ind => ⟨ind / m.width, ind % m.width⟩) := by
  rw [cell_pos_iter]
  apply filterMap_eq_map_of_some
  intro a ha
  have hlt : a < m.flags.length := List.mem_range.1 (List.mem_filter.1 ha).1
  rw [ind_to_pos, if_pos hlt]

theorem width_pos_of_flag {m : RectMask}
    (hm : m.flags.length = m.width * m.height) {ind : Nat}
    (hlt : ind < m.flags.length) : 0 < m.width := by
  rcases Nat.eq_zero_or_pos m.width with h0 | h0
  · rw [hm, h0, Nat.zero_mul] at hlt
    omega
  · exact h0

theorem nodup_cell_pos_iter {m : RectMask}
    (hm : m.flags.length = m.width * m.height) : m.cell_pos_iter.Nodup := by
  rw [cell_pos_iter_eq_map]
  apply List.Nodup.map_on
  · intro a ha b hb heq
    have hla : a < m.flags.length := List.mem_range.1 (List.mem_filter.1 ha).1
    have hlb : b < m.flags.length := List.mem_range.1 (List.mem_filter.1 hb).1
    have hw := width_pos_of_flag hm hla
    have h1 : a / m.width = b / m.width := congrArg RectPosition.row heq
    have h2 : a % m.width = b % m.width := congrArg RectPosition.col heq
    have ha' : m.width * (a / m.width) + a % m.width = a := Nat.div_add_mod a m.width
    have hb' : m.width * (b / m.width) + b % m.width = b := Nat.div_add_mod b m.width
    rw [h1, h2] at ha'
    omega
  · exact (List.nodup_range _).filter _

theorem mem_cell_pos_iter_iff {m : RectMask}
    (hm : m.flags.length = m.width * m.height) {p : RectPosition} :
    p ∈ m.cell_pos_iter ↔ m.is_cell p = true := by
  constructor
  · exact mem_cell_pos_iter hm
  · intro hp
    rw [is_cell] at hp
    cases hpi : m.pos_to_ind p with
    | none =>
      rw [hpi] at hp
      exact absurd hp (by simp)
    | some ind =>
      rw [hpi] at hp
      rw [pos_to_ind] at hpi
      by_cases hb : p.row < m.height ∧ p.col < m.width
      · rw [if_pos hb] at hpi
        obtain rfl : p.flat_ind m.width = ind := Option.some.inj hpi
        have hpflag : m.flags.getD (p.flat_ind m.width) false = true := hp
        have hlt : p.flat_ind m.width < m.flags.length := by
          by_contra hge
          rw [List.getD_eq_default] at hpflag
          · exact absurd hpflag (by simp)
          · omega
        have hw : 0 < m.width := width_pos_of_flag hm hlt
        rw [cell_pos_iter_eq_map]
        apply List.mem_map.2
        refine ⟨p.flat_ind m.width, List.mem_filter.2
          ⟨List.mem_range.2 hlt, by simpa using hpflag⟩, ?_⟩
        show (⟨(p.row * m.width + p.col) / m.width,
          (p.row * m.width + p.col) % m.width⟩ : RectPosition) = p
        have hdiv : (p.row * m.width + p.col) / m.width = p.row := by
          rw [Nat.mul_comm p.row m.width, Nat.mul_add_div hw,
            Nat.div_eq_of_lt hb.2]
          omega
        have hmod : (p.row * m.width + p.col) % m.width = p.col := by
          rw [Nat.add_comm, Nat.add_mul_mod_self_right,
            Nat.mod_eq_of_lt hb.2]
        rw [hdiv, hmod]
      · rw [if_neg hb] at hpi
        exact absurd hpi (by simp)

theorem mem_activeFinset {m : RectMask}
    (hm : m.flags.length = m.width * m.height) {p : RectPosition} :
    p ∈ m.activeFinset ↔ m.is_cell p = true := by
  rw [activeFinset, List.mem_toFinset]
  exact mem_cell_pos_iter_iff hm

theorem length_cell_pos_iter (m : RectMask) :
    m.cell_pos_iter.length = m.cells_n := by
  rw [cell_pos_iter_eq_map, List.length_map, cells_n]
  have h0 := List.self_eq_map_getD m.flags false
  conv_rhs => rw [h0]
  rw [List.countP_map, ← List.countP_eq_length_filter]
  rfl

theorem card_activeFinset {m : RectMask}
    (hm : m.flags.length = m.width * m.height) :
    m.activeFinset.card = m.cells_n := by
  rw [activeFinset, List.toFinset_card_of_nodup (nodup_cell_pos_iter hm)]
  exact length_cell_pos_iter m

end RectMask

namespace RectMask

theorem length_bfs_next (m : RectMask) (visited : Finset RectPosition)
    (cur : RectPosition) : (m.bfs_next visited cur).length ≤ 4 := by
  rw [bfs_next]
  calc (List.filter _ (RectDirection.all_dirs.filterMap cur.neighbor)).length
      ≤ (RectDirection.all_dirs.filterMap cur.neighbor).length :=
        List.length_filter_le _ _
    _ ≤ RectDirection.all_dirs.length := List.length_filterMap_le _ _
    _ = 4 := rfl

theorem mem_bfs_next {m : RectMask} {visited : Finset RectPosition}
    {cur q : RectPosition} :
    q ∈ m.bfs_next visited cur ↔
      (∃ d, cur.neighbor d = some q) ∧ m.is_cell q = true ∧ ¬q ∈ visited := by
  rw [bfs_next, List.mem_filter, List.mem_filterMap]
  constructor
  · rintro ⟨⟨d, hd, hq⟩, hfil⟩
    rw [Bool.and_eq_true] at hfil
    refine ⟨⟨d, hq⟩, hfil.1, ?_⟩
    have h2 := hfil.2
    simpa using h2
  · rintro ⟨⟨d, hq⟩, hcell, hnv⟩
    refine ⟨⟨d, RectGrid.mem_all_dirs d, hq⟩, ?_⟩
    rw [Bool.and_eq_true]
    exact ⟨hcell, by simpa using hnv⟩

theorem bfsAux_spec (m : RectMask)
    (hm : m.flags.length = m.width * m.height) :
    ∀ (fuel : Nat) (queue : List RectPosition) (visited : Finset RectPosition),
      (∀ q ∈ queue, m.is_cell q = true) →
      (∀ v ∈ visited, m.is_cell v = true) →
      (∀ x ∈ visited, ∀ y, m.adjStep x y → y ∈ visited ∨ y ∈ queue) →
      5 * (m.activeFinset \ visited).card + queue.length ≤ fuel →
      (visited ⊆ m.bfsAux fuel queue visited) ∧
      (∀ x ∈ m.bfsAux fuel queue visited, m.is_cell x = true) ∧
      (∀ q ∈ queue, q ∈ m.bfsAux fuel queue visited) ∧
      (∀ x ∈ m.bfsAux fuel queue visited, ∀ y, m.adjStep x y →
        y ∈ m.bfsAux fuel queue visited) ∧
      (∀ P : RectPosition → Prop, (∀ q ∈ queue, P q) → (∀ v ∈ visited, P v) →
        (∀ x y, P x → m.adjStep x y → P y) →
        ∀ x ∈ m.bfsAux fuel queue visited, P x) := by
  intro fuel
  induction fuel with
  | zero =>
    intro queue visited hq hv hinv hfuel
    have hq0 : queue = [] := by
      cases queue with
      | nil => rfl
      | cons a l =>
        rw [List.length_cons] at hfuel
        omega
    subst hq0
    have heq : m.bfsAux 0 [] visited = visited := rfl
    rw [heq]
    refine ⟨Finset.Subset.refl _, hv, by simp, ?_, ?_⟩
    · intro x hx y hadj
      rcases hinv x hx y hadj with h | h
      · exact h
      · exact absurd h (List.not_mem_nil y)
    · intro P hPq hPv hstep x hx
      exact hPv x hx
  | succ fuel ih =>
    intro queue visited hq hv hinv hfuel
    cases queue with
    | nil =>
      have heq : m.bfsAux (fuel + 1) [] visited = visited := rfl
      rw [heq]
      refine ⟨Finset.Subset.refl _, hv, by simp, ?_, ?_⟩
      · intro x hx y hadj
        rcases hinv x hx y hadj with h | h
        · exact h
        · exact absurd h (List.not_mem_nil y)
      · intro P hPq hPv hstep x hx
        exact hPv x hx
    | cons cur rest =>
      have heq : m.bfsAux (fuel + 1) (cur :: rest) visited =
          (if cur ∈ visited then m.bfsAux fuel rest visited
           else m.bfsAux fuel (rest ++ m.bfs_next visited cur)
             (insert cur visited)) := rfl
      rw [heq]
      rw [List.length_cons] at hfuel
      by_cases hcv : cur ∈ visited
      · rw [if_pos hcv]
        have hinv' : ∀ x ∈ visited, ∀ y, m.adjStep x y →
            y ∈ visited ∨ y ∈ rest := by
          intro x hx y hadj
          rcases hinv x hx y hadj with h | h
          · exact Or.inl h
          · rcases List.mem_cons.1 h with rfl | h'
            · exact Or.inl hcv
            · exact Or.inr h'
        obtain ⟨s1, s2, s3, s4, s5⟩ := ih rest visited
          (fun q hq' => hq q (List.mem_cons_of_mem _ hq')) hv hinv' (by omega)
        refine ⟨s1, s2, ?_, s4, ?_⟩
        · intro q hq'
          rcases List.mem_cons.1 hq' with rfl | h
          · exact s1 hcv
          · exact s3 q h
        · intro P hPq hPv hstep x hx
          exact s5 P (fun q hq' => hPq q (List.mem_cons_of_mem _ hq')) hPv
            hstep x hx
      · rw [if_neg hcv]
        have hcur : m.is_cell cur = true := hq cur (List.mem_cons_self _ _)
        have hcact : cur ∈ m.activeFinset := (mem_activeFinset hm).2 hcur
        have hcin : cur ∈ m.activeFinset \ visited :=
          Finset.mem_sdiff.2 ⟨hcact, hcv⟩
        have hcard : (m.activeFinset \ insert cur visited).card + 1 =
            (m.activeFinset \ visited).card := by
          rw [Finset.sdiff_insert, Finset.card_erase_of_mem hcin]
          have : 0 < (m.activeFinset \ visited).card :=
            Finset.card_pos.2 ⟨cur, hcin⟩
          omega
        have hlen := length_bfs_next m visited cur
        have hq' : ∀ q ∈ rest ++ m.bfs_next visited cur, m.is_cell q = true := by
          intro q hq'
          rcases List.mem_append.1 hq' with h | h
          · exact hq q (List.mem_cons_of_mem _ h)
          · exact (mem_bfs_next.1 h).2.1
        have hv' : ∀ v ∈ insert cur visited, m.is_cell v = true := by
          intro v hv'
          rcases Finset.mem_insert.1 hv' with rfl | h
          · exact hcur
          · exact hv v h
        have hinv' : ∀ x ∈ insert cur visited, ∀ y, m.adjStep x y →
            y ∈ insert cur visited ∨ y ∈ rest ++ m.bfs_next visited cur := by
          intro x hx y hadj
          rcases Finset.mem_insert.1 hx with rfl | hxv
          · by_cases hy : y ∈ insert x visited
            · exact Or.inl hy
            · refine Or.inr (List.mem_append_right _ (mem_bfs_next.2
                ⟨hadj.2.2, hadj.2.1, ?_⟩))
              intro hyv
              exact hy (Finset.mem_insert_of_mem hyv)
          · rcases hinv x hxv y hadj with h | h
            · exact Or.inl (Finset.mem_insert_of_mem h)
            · rcases List.mem_cons.1 h with rfl | h'
              · exact Or.inl (Finset.mem_insert_self y visited)
              · exact Or.inr (List.mem_append_left _ h')
        obtain ⟨s1, s2, s3, s4, s5⟩ := ih (rest ++ m.bfs_next visited cur)
          (insert cur visited) hq' hv' hinv'
          (by rw [List.length_append]; omega)
        refine ⟨(Finset.subset_insert cur visited).trans s1, s2, ?_, s4, ?_⟩
        · intro q hq''
          rcases List.mem_cons.1 hq'' with rfl | h
          · exact s1 (Finset.mem_insert_self q visited)
          · exact s3 q (List.mem_append_left _ h)
        · intro P hPq hPv hstep x hx
          refine s5 P ?_ ?_ hstep x hx
          · intro q hq''
            rcases List.mem_append.1 hq'' with h | h
            · exact hPq q (List.mem_cons_of_mem _ h)
            · obtain ⟨⟨d, hd⟩, hcell, -⟩ := mem_bfs_next.1 h
              exact hstep cur q (hPq cur (List.mem_cons_self _ _))
                ⟨hcur, hcell, d, hd⟩
          · intro v hv''
            rcases Finset.mem_insert.1 hv'' with rfl | h
            · exact hPq v (List.mem_cons_self _ _)
            · exact hPv v h

end RectMask

/-! ## Claim C4 -/

/-- Claim C4: for a mask whose flag row-count matches its dimensions, the
isolation check succeeds exactly when the active cells form one connected
region under topology adjacency (it also succeeds for an empty mask); it can
only succeed or fail with the isolation error; and the number of active cells
equals `cells_n`. -/
theorem claim_C4_mask_isolation (m : RectMask)
    (hm : m.flags.length = m.width * m.height) :
    (m.check_isolation = .ok () ↔
      ∀ p q, m.is_cell p = true → m.is_cell q = true →
        Relation.ReflTransGen m.adjStep p q) ∧
    (m.check_isolation = .ok () ∨
      m.check_isolation = .error "IsolatedAreaInRectMask") ∧
    m.activeFinset.card = m.cells_n := by
  have hsymm : Symmetric m.adjStep := by
    rintro a b ⟨ha, hb, d, hd⟩
    exact ⟨hb, ha, d.reverse, RectPosition.neighbor_reverse hd⟩
  have hbounds : ∀ p : RectPosition, m.is_cell p = true →
      p.row < m.height ∧ p.col < m.width := by
    intro p hp
    rw [RectMask.is_cell] at hp
    cases hpi : m.pos_to_ind p with
    | none =>
      rw [hpi] at hp
      exact absurd hp (by simp)
    | some ind =>
      rw [RectMask.pos_to_ind] at hpi
      by_cases hbb : p.row < m.height ∧ p.col < m.width
      · exact hbb
      · rw [if_neg hbb] at hpi
        exact absurd hpi (by simp)
  cases hfind : (cellOrder m.height m.width).find? (fun p => m.is_cell p) with
  | none =>
    have hok : m.check_isolation = .ok () := by
      rw [RectMask.check_isolation, hfind]
    have hno : ∀ p : RectPosition, ¬m.is_cell p = true := by
      intro p hp
      have hmem : p ∈ cellOrder m.height m.width :=
        mem_cellOrder.2 (hbounds p hp)
      have := List.find?_eq_none.1 hfind p hmem
      exact this hp
    refine ⟨⟨fun _ p q hp _ => absurd hp (hno p), fun _ => hok⟩,
      Or.inl hok, RectMask.card_activeFinset hm⟩
  | some start =>
    have hstart_cell : m.is_cell start = true := by
      have := List.find?_some hfind
      simpa using this
    have hval : m.check_isolation =
        (if (m.bfsAux (5 * m.cells_n + 1) [start] ∅).card = m.cells_n then
          Except.ok () else Except.error "IsolatedAreaInRectMask") := by
      rw [RectMask.check_isolation, hfind]
    obtain ⟨s1, s2, s3, s4, s5⟩ := m.bfsAux_spec hm (5 * m.cells_n + 1)
      [start] ∅
      (by
        intro q hq
        rw [List.mem_singleton.1 hq]
        exact hstart_cell)
      (by intro v hv; exact absurd hv (Finset.not_mem_empty v))
      (by intro x hx; exact absurd hx (Finset.not_mem_empty x))
      (by
        rw [Finset.sdiff_empty, RectMask.card_activeFinset hm, List.length_singleton])
    have hRsub : m.bfsAux (5 * m.cells_n + 1) [start] ∅ ⊆ m.activeFinset :=
      fun x hx => (RectMask.mem_activeFinset hm).2 (s2 x hx)
    have hstartR : start ∈ m.bfsAux (5 * m.cells_n + 1) [start] ∅ :=
      s3 start (List.mem_singleton_self start)
    have hreach : ∀ x ∈ m.bfsAux (5 * m.cells_n + 1) [start] ∅,
        Relation.ReflTransGen m.adjStep start x := by
      refine s5 (fun x => Relation.ReflTransGen m.adjStep start x) ?_ ?_ ?_
      · intro q hq
        rw [List.mem_singleton.1 hq]
      · intro v hv
        exact absurd hv (Finset.not_mem_empty v)
      · intro x y hx hadj
        exact hx.tail hadj
    have hcomplete : ∀ x, Relation.ReflTransGen m.adjStep start x →
        x ∈ m.bfsAux (5 * m.cells_n + 1) [start] ∅ := by
      intro x hrt
      induction hrt with
      | refl => exact hstartR
      | tail h₁ h₂ ih => exact s4 _ ih _ h₂
    refine ⟨⟨?_, ?_⟩, ?_, RectMask.card_activeFinset hm⟩
    · intro hok p q hp hq
      by_cases hc : (m.bfsAux (5 * m.cells_n + 1) [start] ∅).card = m.cells_n
      · have hRcard : m.activeFinset.card ≤
            (m.bfsAux (5 * m.cells_n + 1) [start] ∅).card := by
          rw [hc, RectMask.card_activeFinset hm]
        have hReq : m.bfsAux (5 * m.cells_n + 1) [start] ∅ = m.activeFinset :=
          Finset.eq_of_subset_of_card_le hRsub hRcard
        have hps : Relation.ReflTransGen m.adjStep start p :=
          hreach p (by rw [hReq]; exact (RectMask.mem_activeFinset hm).2 hp)
        have hqs : Relation.ReflTransGen m.adjStep start q :=
          hreach q (by rw [hReq]; exact (RectMask.mem_activeFinset hm).2 hq)
        exact (Relation.ReflTransGen.symmetric hsymm hps).trans hqs
      · rw [hval, if_neg hc] at hok
        exact absurd hok (by simp)
    · intro hall
      have hsub : m.activeFinset ⊆ m.bfsAux (5 * m.cells_n + 1) [start] ∅ := by
        intro x hx
        exact hcomplete x (hall start x hstart_cell ((RectMask.mem_activeFinset hm).1 hx))
      have hReq : m.bfsAux (5 * m.cells_n + 1) [start] ∅ = m.activeFinset :=
        Finset.Subset.antisymm hRsub hsub
      rw [hval, if_pos (by rw [hReq, RectMask.card_activeFinset hm])]
    · rw [hval]
      by_cases hc : (m.bfsAux (5 * m.cells_n + 1) [start] ∅).card = m.cells_n
      · exact Or.inl (by rw [if_pos hc])
      · exact Or.inr (by rw [if_neg hc])

/-- Witness for C4: a 2×2 mask with three active cells forming one connected
region. -/
theorem claim_C4_witness :
    ((⟨2, 2, [true, true, false, true]⟩ : RectMask).check_isolation =
        Except.ok () ↔
      ∀ p q, (⟨2, 2, [true, true, false, true]⟩ : RectMask).is_cell p = true →
        (⟨2, 2, [true, true, false, true]⟩ : RectMask).is_cell q = true →
        Relation.ReflTransGen
          (⟨2, 2, [true, true, false, true]⟩ : RectMask).adjStep p q) ∧
    ((⟨2, 2, [true, true, false, true]⟩ : RectMask).check_isolation =
        Except.ok () ∨
      (⟨2, 2, [true, true, false, true]⟩ : RectMask).check_isolation =
        Except.error "IsolatedAreaInRectMask") ∧
    (⟨2, 2, [true, true, false, true]⟩ : RectMask).activeFinset.card =
      (⟨2, 2, [true, true, false, true]⟩ : RectMask).cells_n :=
  claim_C4_mask_isolation ⟨2, 2, [true, true, false, true]⟩ (by decide)

/-! ## Generator contract and Aldous-Broder: src/gene.rs -/

/-- Undirected adjacency induced by a recorded connection list. -/
def edgeAdj {P : Type} (edges : List (P × P)) (x y : P) : Prop :=
  (x, y) ∈ edges ∨ (y, x) ∈ edges

/-- Embeds `AldousBroderMazeGenerator::generate_2d`'s main loop over the
`Grid2d` contract: the grid is abstracted by its neighbor enumeration
(`append_neighbors`) and the connections recorded by `connect_to` are
accumulated as a list of directed pairs.  Each iteration draws the
`choose`-index into the neighbor list from the oracle; an exhausted oracle
(walk still running) or an empty neighbor list (where the source would
`expect`-panic) yields `none`. -/
def aldousBroder {P : Type} [DecidableEq P] (neighbors : P → List P) :
    List Nat → P → Finset P → Nat → List (P × P) → Option (List (P × P))
  | [], _, _, un, edges => if un = 0 then some edges else none
  | o :: rest, cur, visited, un, edges =>
    if un = 0 then some edges
    else
      match (neighbors cur).get? (o % (neighbors cur).length) with
      | none => none
      | some cand =>
        if cand ∈ visited then aldousBroder neighbors rest cand visited un edges
        else aldousBroder neighbors rest cand (insert cand visited) (un - 1)
          ((cur, cand) :: edges)

theorem edgeAdj_mono {P : Type} {edges : List (P × P)} (e : P × P) {x y : P}
    (h : edgeAdj edges x y) : edgeAdj (e :: edges) x y := by
  rcases h with h | h
  · exact Or.inl (List.mem_cons_of_mem e h)
  · exact Or.inr (List.mem_cons_of_mem e h)

theorem aldousBroder_spec {P : Type} [DecidableEq P]
    (cells : Finset P) (neighbors : P → List P)
    (hnb : ∀ p q, q ∈ neighbors p → q ∈ cells) :
    ∀ (oracle : List Nat) (cur : P) (visited : Finset P) (un : Nat)
      (edges : List (P × P)),
      visited ⊆ cells → cur ∈ visited →
      visited.card + un = cells.card →
      edges.length + 1 = visited.card →
      (∀ e ∈ edges, e.1 ∈ visited ∧ e.2 ∈ visited ∧ e.2 ∈ neighbors e.1) →
      (∀ x ∈ visited, ∀ y ∈ visited,
        Relation.ReflTransGen (edgeAdj edges) x y) →
      ∀ final_edges,
        aldousBroder neighbors oracle cur visited un edges = some final_edges →
        final_edges.length + 1 = cells.card ∧
        (∀ p ∈ cells, ∀ q ∈ cells,
          Relation.ReflTransGen (edgeAdj final_edges) p q) ∧
        (∀ e ∈ final_edges,
          e.1 ∈ cells ∧ e.2 ∈ cells ∧ e.2 ∈ neighbors e.1) := by
  intro oracle
  induction oracle with
  | nil =>
    intro cur visited un edges hsub hcur hcard hlen hends hconn final hrun
    rw [aldousBroder] at hrun
    by_cases hun : un = 0
    · rw [if_pos hun] at hrun
      obtain rfl : edges = final := Option.some.inj hrun
      have hveq : visited = cells := by
        apply Finset.eq_of_subset_of_card_le hsub
        omega
      subst hveq
      exact ⟨by omega, hconn,
        fun e he => ⟨(hends e he).1, (hends e he).2.1, (hends e he).2.2⟩⟩
    · rw [if_neg hun] at hrun
      exact absurd hrun (by simp)
  | cons o rest ih =>
    intro cur visited un edges hsub hcur hcard hlen hends hconn final hrun
    rw [aldousBroder] at hrun
    by_cases hun : un = 0
    · rw [if_pos hun] at hrun
      obtain rfl : edges = final := Option.some.inj hrun
      have hveq : visited = cells := by
        apply Finset.eq_of_subset_of_card_le hsub
        omega
      subst hveq
      exact ⟨by omega, hconn,
        fun e he => ⟨(hends e he).1, (hends e he).2.1, (hends e he).2.2⟩⟩
    · rw [if_neg hun] at hrun
      cases hget : (neighbors cur).get? (o % (neighbors cur).length) with
      | none =>
        rw [hget] at hrun
        exact absurd hrun (by simp)
      | some cand =>
        rw [hget] at hrun
        have hrun' : (if cand ∈ visited then
            aldousBroder neighbors rest cand visited un edges
          else aldousBroder neighbors rest cand (insert cand visited) (un - 1)
            ((cur, cand) :: edges)) = some final := hrun
        have hcand_nb : cand ∈ neighbors cur := List.get?_mem hget
        have hcand_cells : cand ∈ cells := hnb cur cand hcand_nb
        by_cases hcv : cand ∈ visited
        · rw [if_pos hcv] at hrun'
          exact ih cand visited un edges hsub hcv hcard hlen hends hconn
            final hrun'
        · rw [if_neg hcv] at hrun'
          have hsub' : insert cand visited ⊆ cells := by
            intro x hx
            rcases Finset.mem_insert.1 hx with rfl | hx'
            · exact hcand_cells
            · exact hsub hx'
          have hcardv : (insert cand visited).card = visited.card + 1 :=
            Finset.card_insert_of_not_mem hcv
          have hunpos : 0 < un := by omega
          have hends' : ∀ e ∈ (cur, cand) :: edges,
              e.1 ∈ insert cand visited ∧ e.2 ∈ insert cand visited ∧
              e.2 ∈ neighbors e.1 := by
            intro e he
            rcases List.mem_cons.1 he with rfl | he'
            · exact ⟨Finset.mem_insert_of_mem hcur,
                Finset.mem_insert_self cand visited, hcand_nb⟩
            · exact ⟨Finset.mem_insert_of_mem (hends e he').1,
                Finset.mem_insert_of_mem (hends e he').2.1,
                (hends e he').2.2⟩
          have hstepcc : Relation.ReflTransGen (edgeAdj ((cur, cand) :: edges))
              cand cur :=
            Relation.ReflTransGen.single
              (Or.inr (List.mem_cons_self (cur, cand) edges))
          have hstepcc' : Relation.ReflTransGen (edgeAdj ((cur, cand) :: edges))
              cur cand :=
            Relation.ReflTransGen.single
              (Or.inl (List.mem_cons_self (cur, cand) edges))
          have hconn' : ∀ x ∈ insert cand visited, ∀ y ∈ insert cand visited,
              Relation.ReflTransGen (edgeAdj ((cur, cand) :: edges)) x y := by
            intro x hx y hy
            rcases Finset.mem_insert.1 hx with rfl | hx' <;>
              rcases Finset.mem_insert.1 hy with h' | hy'
            · rw [h']
            · exact hstepcc.trans
                ((hconn cur hcur y hy').mono (fun a b h => edgeAdj_mono _ h))
            · rw [h']
              exact ((hconn x hx' cur hcur).mono
                (fun a b h => edgeAdj_mono _ h)).trans hstepcc'
            · exact (hconn x hx' y hy').mono (fun a b h => edgeAdj_mono _ h)
          exact ih cand (insert cand visited) (un - 1) ((cur, cand) :: edges)
            hsub' (Finset.mem_insert_self cand visited)
            (by omega) (by rw [List.length_cons]; omega) hends' hconn'
            final hrun'

/-! ## Recursive Division: src/gene/rect.rs -/

/-- Embeds `RecursiveDivisionMazeGenerator::is_room`. -/
def RecursiveDivisionMazeGenerator.is_room
    (room_max_rows_n room_max_cols_n rows_n cols_n : Nat) : Bool :=
  rows_n ≤ 1 || cols_n ≤ 1 ||
    (rows_n ≤ room_max_rows_n && cols_n ≤ room_max_cols_n)

/-- Embeds `RecursiveDivisionMazeGenerator::connect_all`: break every internal
wall of the given row/column ranges.  The generator's
`grid.connect_to(&pos, dir)` connects the cell at `pos` along `dir`, embedded
by `connect_along`. -/
def RecursiveDivisionMazeGenerator.connect_all (g : RectGrid)
    (row_start row_end col_start col_end : Nat) : RectGrid :=
  if row_start < row_end ∧ col_start < col_end then
    ((List.range (row_end - row_start)).map (fun i => row_start + i)).foldl
      (fun acc_r row =>
        ((List.range (col_end - col_start)).map (fun j => col_start + j)).foldl
          (fun acc col =>
            let acc1 := if row ≠ row_end - 1 then
              (acc.connect_along ⟨row, col⟩ .south).2 else acc
            if col ≠ col_end - 1 then
              (acc1.connect_along ⟨row, col⟩ .east).2 else acc1)
          acc_r)
      g
  else g

/-- The value drawn by `rng.random_range(lo..hi)` at the two division call
sites, where the range is never empty (`rows_n`/`cols_n` are at least 2 in a
non-room region and the cross range is the non-empty other dimension). -/
def rand_range_val (oracle lo hi : Nat) : Nat := lo + oracle % (hi - lo)

/-- Embeds `RecursiveDivisionMazeGenerator::divide`, drawing the two random
values of each division from the oracle list; the fuel bounds the recursion
depth (each division strictly shrinks one range, so `rows + cols` suffices)
and the fuel-exhausted arm is dead code kept for totality. -/
def RecursiveDivisionMazeGenerator.divide (rmr rmc : Nat) :
    Nat → RectGrid → Nat → Nat → Nat → Nat → List Nat → RectGrid × List Nat
  | 0, g, _, _, _, _, oracle => (g, oracle)
  | fuel + 1, g, row_start, row_end, col_start, col_end, oracle =>
    let rows_n := row_end - row_start
    let cols_n := col_end - col_start
    if RecursiveDivisionMazeGenerator.is_room rmr rmc rows_n cols_n then
      (RecursiveDivisionMazeGenerator.connect_all g row_start row_end
        col_start col_end, oracle)
    else if cols_n < rows_n then
      let upper_last_row :=
        row_start + rand_range_val (oracle.headD 0) 0 (rows_n - 1)
      let break_col := rand_range_val ((oracle.drop 1).headD 0)
        col_start col_end
      let g1 := (g.connect_along ⟨upper_last_row, break_col⟩ .south).2
      let res1 := RecursiveDivisionMazeGenerator.divide rmr rmc fuel g1
        row_start (upper_last_row + 1) col_start col_end (oracle.drop 2)
      RecursiveDivisionMazeGenerator.divide rmr rmc fuel res1.1
        (upper_last_row + 1) row_end col_start col_end res1.2
    else
      let left_last_col :=
        col_start + rand_range_val (oracle.headD 0) 0 (cols_n - 1)
      let break_row := rand_range_val ((oracle.drop 1).headD 0)
        row_start row_end
      let g1 := (g.connect_along ⟨break_row, left_last_col⟩ .east).2
      let res1 := RecursiveDivisionMazeGenerator.divide rmr rmc fuel g1
        row_start row_end col_start (left_last_col + 1) (oracle.drop 2)
      RecursiveDivisionMazeGenerator.divide rmr rmc fuel res1.1
        row_start row_end (left_last_col + 1) col_end res1.2

/-- Embeds `RecursiveDivisionMazeGenerator::generate`
(`self.divide(&mut grid, 0..height, 0..width, &mut rng)`). -/
def RecursiveDivisionMazeGenerator.generate (rmr rmc : Nat) (g : RectGrid)
    (oracle : List Nat) : RectGrid :=
  (RecursiveDivisionMazeGenerator.divide rmr rmc (g.height + g.width + 1) g
    0 g.height 0 g.width oracle).1

/-- Modelled from the spec: the number of recorded connections of a
rectangular grid — each pair of connected adjacent cells is stored as exactly
one canonical north/east bit, so counting set bits counts connections. -/
def RectGrid.connections_n (g : RectGrid) : Nat :=
  (g.cells.map (fun c =>
    (if c.is_connected_to_north then 1 else 0) +
    (if c.is_connected_to_east then 1 else 0))).sum

/-! ## Claim C1 -/

/-- Claim C1 (amended to the algorithms without rooms; see the
counterexample): partial correctness of the cited `AldousBroderMazeGenerator`
over the abstract `Grid2d` contract — for every grid (any topology, any
mask) presented through its neighbor enumeration, every start cell and every
random sequence, if the walk terminates then the recorded connections number
exactly `cells_n - 1`, they connect every active cell to every other, and
every connection joins two active, adjacent cells. -/
theorem claim_C1_spanning_tree {P : Type} [DecidableEq P]
    (cells : Finset P) (neighbors : P → List P)
    (hnb : ∀ p q, q ∈ neighbors p → q ∈ cells)
    (start : P) (hstart : start ∈ cells) (oracle : List Nat)
    (final_edges : List (P × P))
    (hrun : aldousBroder neighbors oracle start {start} (cells.card - 1) [] =
      some final_edges) :
    final_edges.length + 1 = cells.card ∧
    (∀ p ∈ cells, ∀ q ∈ cells,
      Relation.ReflTransGen (edgeAdj final_edges) p q) ∧
    (∀ e ∈ final_edges, e.1 ∈ cells ∧ e.2 ∈ cells ∧ e.2 ∈ neighbors e.1) :=
  aldousBroder_spec cells neighbors hnb oracle start {start} (cells.card - 1)
    []
    (by
      intro x hx
      rw [Finset.mem_singleton.1 hx]
      exact hstart)
    (Finset.mem_singleton_self start)
    (by
      rw [Finset.card_singleton]
      have := Finset.card_pos.2 ⟨start, hstart⟩
      omega)
    (by rw [Finset.card_singleton, List.length_nil])
    (by intro e he; exact absurd he (List.not_mem_nil e))
    (by
      intro x hx y hy
      rw [Finset.mem_singleton.1 hx, Finset.mem_singleton.1 hy])
    final_edges hrun

/-- Witness for C1: a three-cell path graph, walked to completion by a
concrete oracle; the two recorded connections form its spanning tree. -/
theorem claim_C1_witness :
    ([((1 : Nat), (2 : Nat)), (0, 1)] : List (Nat × Nat)).length + 1 =
      ({0, 1, 2} : Finset Nat).card ∧
    (∀ p ∈ ({0, 1, 2} : Finset Nat), ∀ q ∈ ({0, 1, 2} : Finset Nat),
      Relation.ReflTransGen (edgeAdj [((1 : Nat), 2), (0, 1)]) p q) ∧
    (∀ e ∈ ([((1 : Nat), (2 : Nat)), (0, 1)] : List (Nat × Nat)),
      e.1 ∈ ({0, 1, 2} : Finset Nat) ∧ e.2 ∈ ({0, 1, 2} : Finset Nat) ∧
      e.2 ∈ (fun p : Nat => if p = 0 then [1] else if p = 1 then [0, 2]
        else if p = 2 then [1] else []) e.1) :=
  claim_C1_spanning_tree {0, 1, 2}
    (fun p : Nat => if p = 0 then [1] else if p = 1 then [0, 2]
      else if p = 2 then [1] else [])
    (by
      intro p q hq
      dsimp only at hq
      split_ifs at hq with h0 h1 h2
      · rw [List.mem_singleton.1 hq]
        decide
      · rcases List.mem_cons.1 hq with rfl | hq2
        · decide
        · rw [List.mem_singleton.1 hq2]
          decide
      · rw [List.mem_singleton.1 hq]
        decide
      · exact absurd hq (List.not_mem_nil q))
    0 (by decide) [0, 1] [(1, 2), (0, 1)] (by decide)

/-- Counterexample for C1 as frozen ("for every generation algorithm"):
`RecursiveDivisionMazeGenerator` with room bounds 2×2 on an unmasked 2×2
grid declares the whole grid a room and opens every internal wall,
recording 4 connections although `cells_n - 1 = 3` — a cycle, not a
spanning tree. -/
theorem claim_C1_counterexample :
    (RecursiveDivisionMazeGenerator.generate 2 2
      (RectGrid.new 2 2) []).connections_n = 4 ∧
    (RecursiveDivisionMazeGenerator.generate 2 2
      (RectGrid.new 2 2) []).cells_n = 4 ∧
    ¬((RecursiveDivisionMazeGenerator.generate 2 2
        (RectGrid.new 2 2) []).connections_n =
      (RecursiveDivisionMazeGenerator.generate 2 2
        (RectGrid.new 2 2) []).cells_n - 1) := by
  have e1 : ((RectGrid.new 2 2).connect_along ⟨0, 0⟩ RectDirection.south).2 =
      (⟨2, 2, [⟨false, false⟩, ⟨false, false⟩, ⟨true, false⟩,
        ⟨false, false⟩], none⟩ : RectGrid) := by
    rw [@RectGrid.connect_along_south (RectGrid.new 2 2) ⟨0, 0⟩ ⟨1, 0⟩
      ⟨false, false⟩ rfl rfl,
      @RectGrid.connect_along_north (RectGrid.new 2 2) ⟨1, 0⟩ ⟨0, 0⟩
      ⟨false, false⟩ rfl rfl]
    rfl
  have e2 : ((⟨2, 2, [⟨false, false⟩, ⟨false, false⟩, ⟨true, false⟩,
        ⟨false, false⟩], none⟩ : RectGrid).connect_along ⟨0, 0⟩
        RectDirection.east).2 =
      (⟨2, 2, [⟨false, true⟩, ⟨false, false⟩, ⟨true, false⟩,
        ⟨false, false⟩], none⟩ : RectGrid) := by
    rw [@RectGrid.connect_along_east (⟨2, 2, [⟨false, false⟩, ⟨false, false⟩, ⟨true, false⟩,
        ⟨false, false⟩], none⟩ : RectGrid) ⟨0, 0⟩ ⟨0, 1⟩
      ⟨false, false⟩ rfl rfl]
    rfl
  have e3 : ((⟨2, 2, [⟨false, true⟩, ⟨false, false⟩, ⟨true, false⟩,
        ⟨false, false⟩], none⟩ : RectGrid).connect_along ⟨0, 1⟩
        RectDirection.south).2 =
      (⟨2, 2, [⟨false, true⟩, ⟨false, false⟩, ⟨true, false⟩,
        ⟨true, false⟩], none⟩ : RectGrid) := by
    rw [@RectGrid.connect_along_south (⟨2, 2, [⟨false, true⟩, ⟨false, false⟩, ⟨true, false⟩,
        ⟨false, false⟩], none⟩ : RectGrid) ⟨0, 1⟩ ⟨1, 1⟩
      ⟨false, false⟩ rfl rfl,
      @RectGrid.connect_along_north (⟨2, 2, [⟨false, true⟩, ⟨false, false⟩, ⟨true, false⟩,
        ⟨false, false⟩], none⟩ : RectGrid) ⟨1, 1⟩ ⟨0, 1⟩
      ⟨false, false⟩ rfl rfl]
    rfl
  have e4 : ((⟨2, 2, [⟨false, true⟩, ⟨false, false⟩, ⟨true, false⟩,
        ⟨true, false⟩], none⟩ : RectGrid).connect_along ⟨1, 0⟩
        RectDirection.east).2 =
      (⟨2, 2, [⟨false, true⟩, ⟨false, false⟩, ⟨true, true⟩,
        ⟨true, false⟩], none⟩ : RectGrid) := by
    rw [@RectGrid.connect_along_east (⟨2, 2, [⟨false, true⟩, ⟨false, false⟩, ⟨true, false⟩,
        ⟨true, false⟩], none⟩ : RectGrid) ⟨1, 0⟩ ⟨1, 1⟩
      ⟨true, false⟩ rfl rfl]
    rfl
  have hg : RecursiveDivisionMazeGenerator.generate 2 2 (RectGrid.new 2 2) []
      = (⟨2, 2, [⟨false, true⟩, ⟨false, false⟩, ⟨true, true⟩,
        ⟨true, false⟩], none⟩ : RectGrid) := by
    show RecursiveDivisionMazeGenerator.connect_all (RectGrid.new 2 2) 0 2 0 2
      = _
    rw [RecursiveDivisionMazeGenerator.connect_all, if_pos (by omega)]
    show (((((RectGrid.new 2 2).connect_along ⟨0, 0⟩
        RectDirection.south).2.connect_along ⟨0, 0⟩
        RectDirection.east).2.connect_along ⟨0, 1⟩
        RectDirection.south).2.connect_along ⟨1, 0⟩ RectDirection.east).2 = _
    rw [e1, e2, e3, e4]
  rw [hg]
  refine ⟨rfl, rfl, by decide⟩
